import Mathlib

/-!
A verification development for `bst.cpp`

Shallow embedding of the binary search tree of `src/bst.cpp`.

* An owning pointer `std::unique_ptr<node>` is the inductive type `node_ptr`:
  it is empty (`null`) or it owns exactly one node, which lives at an address
  and has the fields `v`, `p`, `l`, `r` of `detail::node`.
* A raw pointer `node*` (the parent field `p`, the result of `find_at`, the
  argument of `remove(node*)`) is an address, `Option Nat` with `none` for
  `nullptr`.  Dereferencing it looks the address up in the tree (`deref`),
  writing through it rewrites the node at that address (`modify_at`).
* `new node()` returns an address which the caller of `insert` supplies.
* `size_t` arithmetic is arithmetic modulo `2 ^ 64`.
* The comparison object `comp_` is a parameter `T → T → Bool`.
* The command loop of `main` is a function from the list of parsed commands
  to the text written to `std::cout`.
-/

namespace bst

/-- Number of values of `size_t`. -/
def SIZE_MOD : Nat := 2 ^ 64

/-- Addition on `size_t`. -/
def size_add (a b : Nat) : Nat := (a + b) % SIZE_MOD

/-- Subtraction on `size_t` (wraps around). -/
def size_sub (a b : Nat) : Nat := (a + SIZE_MOD - b % SIZE_MOD) % SIZE_MOD

/-- Ways in which running the code can fail to produce a result. -/
inductive fault where
  | out_of_fuel : fault
  | bad_deref : fault
  | assert_failed : fault
deriving DecidableEq, Repr

/-- A `std::unique_ptr<detail::node<T>>`: empty, or owning the node at address
`addr` with value `v`, parent pointer `p` and children `l`, `r`. -/
inductive node_ptr (T : Type) where
  | null : node_ptr T
  | own (addr : Nat) (v : T) (p : Option Nat) (l r : node_ptr T) : node_ptr T
deriving DecidableEq, Repr

namespace node_ptr

variable {T : Type}

/-- The raw pointer held, `unique_ptr::get`. -/
def get : node_ptr T → Option Nat
  | null => none
  | own a _ _ _ _ => some a

/-- The test `if (np)`. -/
def to_bool : node_ptr T → Bool
  | null => false
  | own _ _ _ _ _ => true

/-- Addresses of the nodes owned through this pointer, in in-order. -/
def addrs : node_ptr T → List Nat
  | null => []
  | own a _ _ l r => addrs l ++ a :: addrs r

/-- Values of the nodes owned through this pointer, in in-order. -/
def values : node_ptr T → List T
  | null => []
  | own _ v _ l r => values l ++ v :: values r

/-- The node at address `n` (what `*n` denotes), `null` if there is none. -/
def deref : node_ptr T → Nat → node_ptr T
  | null, _ => null
  | own a v p l r, n =>
    if a = n then own a v p l r
    else if n ∈ addrs l then deref l n
    else deref r n

/-- Rewrite the node at address `n` by `f`. -/
def modify_at : node_ptr T → Nat → (node_ptr T → node_ptr T) → node_ptr T
  | null, _, _ => null
  | own a v p l r, n, f =>
    if a = n then f (own a v p l r)
    else if n ∈ addrs l then own a v p (modify_at l n f) r
    else own a v p l (modify_at r n f)

/-- The assignment `c->v = x`. -/
def set_v (x : T) : node_ptr T → node_ptr T
  | null => null
  | own a _ p l r => own a x p l r

/-- The guarded assignment `if (c) c->p = q`. -/
def set_p (q : Option Nat) : node_ptr T → node_ptr T
  | null => null
  | own a v _ l r => own a v q l r

/-- The call `c->l.reset()`. -/
def reset_l : node_ptr T → node_ptr T
  | null => null
  | own a v p _ r => own a v p null r

/-- The call `c->r.reset()`. -/
def reset_r : node_ptr T → node_ptr T
  | null => null
  | own a v p l _ => own a v p l null

/-- The loop `while (m->l) m = m->l.get();` started at this node. -/
def leftmost : node_ptr T → node_ptr T
  | null => null
  | own a v p l r =>
    match l with
    | null => own a v p null r
    | own _ _ _ _ _ => leftmost l

/-- The one-child branches of `remove(node*)` applied to the node `n` itself:
the value of the child `c` is moved up, the grandchildren are adopted and
re-parented to `n`. -/
def adopt (c : node_ptr T) : node_ptr T → node_ptr T
  | null => null
  | own a v p l r =>
    match c with
    | null => own a v p l r
    | own _ cv _ cl cr => own a cv p (set_p (some a) cl) (set_p (some a) cr)

end node_ptr

open node_ptr

namespace detail

variable {T σ : Type}

/-- The function template `detail::visit`; the visitor `vis` threads its
state `s`. -/
def visit : node_ptr T → (σ → Nat → T → σ) → σ → Nat → σ
  | null, _, s, _ => s
  | own _ v _ l r, vis, s, h =>
    visit r vis (vis (visit l vis s (size_add h 1)) h v) (size_add h 1)

/-- The function template `detail::is_balanced`; the out-parameter `h` is
passed in and returned next to the result. -/
def is_balanced : node_ptr T → Nat → Bool × Nat
  | null, _ => (decide (size_sub 0 0 ≤ 1), 0)
  | own _ _ _ l r, h =>
    let bl := is_balanced l 0
    if !bl.1 then (false, h)
    else
      let br := is_balanced r 0
      if !br.1 then (false, h)
      else
        let lh := if bl.2 > br.2 then br.2 else bl.2
        let rh := if bl.2 > br.2 then bl.2 else br.2
        (decide (size_sub rh lh ≤ 1), size_add rh 1)

end detail

/-- The class template `binary_tree`: its data member `root_`. -/
structure binary_tree (T : Type) where
  root_ : node_ptr T
deriving DecidableEq, Repr

namespace binary_tree

variable {T σ : Type}

/-- The default-constructed tree. -/
def empty : binary_tree T := ⟨null⟩

/-- The private member `find_at`. -/
def find_at (comp_ : T → T → Bool) : node_ptr T → T → Option Nat
  | null, _ => none
  | own a x _ l r, v =>
    if comp_ v x then find_at comp_ l v
    else if comp_ x v then find_at comp_ r v
    else some a

/-- The member `find`. -/
def find (comp_ : T → T → Bool) (t : binary_tree T) (v : T) : Bool :=
  (find_at comp_ t.root_ v).isSome

/-- The private member `insert_at`; `fresh` is the address `new node()`
returns. -/
def insert_at (comp_ : T → T → Bool) (fresh : Nat) :
    node_ptr T → T → Option Nat → Bool × node_ptr T
  | null, v, p => (true, own fresh v p null null)
  | own a x q l r, v, _ =>
    if comp_ v x then
      ((insert_at comp_ fresh l v (some a)).1,
        own a x q (insert_at comp_ fresh l v (some a)).2 r)
    else if comp_ x v then
      ((insert_at comp_ fresh r v (some a)).1,
        own a x q l (insert_at comp_ fresh r v (some a)).2)
    else (false, own a x q l r)

/-- The member `insert`. -/
def insert (comp_ : T → T → Bool) (fresh : Nat) (t : binary_tree T) (v : T) :
    Bool × binary_tree T :=
  ((insert_at comp_ fresh t.root_ v none).1, ⟨(insert_at comp_ fresh t.root_ v none).2⟩)

/-- The private member `remove(node *n)`, acting on the tree owned by
`root_`. -/
def remove_node : Nat → node_ptr T → Nat → Except fault (node_ptr T)
  | 0, _, _ => .error .out_of_fuel
  | fuel + 1, root_, n =>
    match deref root_ n with
    | null => .error .bad_deref
    | own _ _ p l r =>
      if l.to_bool && r.to_bool then
        match leftmost r with
        | null => .error .bad_deref
        | own m mv _ _ _ => remove_node fuel (modify_at root_ n (set_v mv)) m
      else if l.to_bool then .ok (modify_at root_ n (adopt l))
      else if r.to_bool then .ok (modify_at root_ n (adopt r))
      else
        match p with
        | none => if root_.get = some n then .ok null else .error .assert_failed
        | some q =>
          match deref root_ q with
          | null => .error .bad_deref
          | own _ _ _ ql _ =>
            if ql.get = some n then .ok (modify_at root_ q reset_l)
            else .ok (modify_at root_ q reset_r)

/-- Number of nodes. -/
def size : node_ptr T → Nat
  | null => 0
  | own _ _ _ l r => size l + 1 + size r

/-- The member `remove(T const& v)`. -/
def remove (comp_ : T → T → Bool) (t : binary_tree T) (v : T) :
    Except fault (Bool × binary_tree T) :=
  match find_at comp_ t.root_ v with
  | none => .ok (false, t)
  | some n =>
    match remove_node (size t.root_ + 1) t.root_ n with
    | .error e => .error e
    | .ok root' => .ok (true, ⟨root'⟩)

/-- The member `visit`. -/
def visit (t : binary_tree T) (vis : σ → Nat → T → σ) (s : σ) : σ :=
  detail.visit t.root_ vis s 1

/-- The member `is_balanced`; `h` is the indeterminate initial value of the
local variable. -/
def is_balanced (t : binary_tree T) (h : Nat) : Bool :=
  (detail.is_balanced t.root_ h).1

end binary_tree

namespace node_ptr

variable {T : Type}

/-- The value stored in the node at address `n`, if there is such a node. -/
def val_at (root : node_ptr T) (n : Nat) : Option T :=
  match deref root n with
  | null => none
  | own _ v _ _ _ => some v

/-- The test `n->l && n->r` on the node held. -/
def has_both : node_ptr T → Bool
  | null => false
  | own _ _ _ l r => l.to_bool && r.to_bool

/-- The node held has no child. -/
def is_leaf : node_ptr T → Bool
  | null => false
  | own _ _ _ l r => !l.to_bool && !r.to_bool

/-- Parent consistency: every node held in a child slot of a node `n` has
parent pointer `n`, and the node held here has parent pointer `par`. -/
def parents_ok : node_ptr T → Option Nat → Prop
  | null, _ => True
  | own a _ p l r, par => p = par ∧ parents_ok l (some a) ∧ parents_ok r (some a)

/-- Parent consistency can be checked by running over the tree. -/
def parents_ok_decidable : (root : node_ptr T) → (par : Option Nat) →
    Decidable (parents_ok root par)
  | null, _ => isTrue trivial
  | own a _ p l r, par =>
    match decEq p par, parents_ok_decidable l (some a), parents_ok_decidable r (some a) with
    | isTrue h1, isTrue h2, isTrue h3 => isTrue ⟨h1, h2, h3⟩
    | isFalse h1, _, _ => isFalse (fun h => h1 h.1)
    | _, isFalse h2, _ => isFalse (fun h => h2 h.2.1)
    | _, _, isFalse h3 => isFalse (fun h => h3 h.2.2)

instance (root : node_ptr T) (par : Option Nat) : Decidable (parents_ok root par) :=
  parents_ok_decidable root par

/-- Height as the specification defines it: `height(empty) = 0`,
`height(node) = 1 + max(height(left), height(right))`. -/
def height : node_ptr T → Nat
  | null => 0
  | own _ _ _ l r => 1 + max (height l) (height r)

/-- Balance as the specification defines it: at every node the heights of
the two subtrees differ by at most 1. -/
def balanced : node_ptr T → Prop
  | null => True
  | own _ _ _ l r =>
    (height l ≤ height r + 1 ∧ height r ≤ height l + 1) ∧ balanced l ∧ balanced r

/-- Balance can be checked by running over the tree. -/
def balanced_decidable : (root : node_ptr T) → Decidable (balanced root)
  | null => isTrue trivial
  | own _ _ _ l r =>
    match (inferInstance : Decidable (height l ≤ height r + 1 ∧ height r ≤ height l + 1)),
      balanced_decidable l, balanced_decidable r with
    | isTrue h1, isTrue h2, isTrue h3 => isTrue ⟨h1, h2, h3⟩
    | isFalse h1, _, _ => isFalse (fun h => h1 h.1)
    | _, isFalse h2, _ => isFalse (fun h => h2 h.2.1)
    | _, _, isFalse h3 => isFalse (fun h => h3 h.2.2)

instance (root : node_ptr T) : Decidable (balanced root) := balanced_decidable root

/-- The in-order walk as the specification describes it: the left subtree,
then the node with its depth, then the right subtree, children one level
deeper than their parent. -/
def inorder_depths : node_ptr T → Nat → List (Nat × T)
  | null, _ => []
  | own _ v _ l r, d => inorder_depths l (d + 1) ++ (d, v) :: inorder_depths r (d + 1)

/-- The calls `detail::visit` makes to its visitor, in order, as pairs of
arguments. -/
def visit_trace : node_ptr T → Nat → List (Nat × T)
  | null, _ => []
  | own _ v _ l r, h =>
    visit_trace l (size_add h 1) ++ (h, v) :: visit_trace r (size_add h 1)

/-- Structural form of `remove(node *n)`: the effect on the owned tree of
removing the node at address `n`. -/
def del_at : node_ptr T → Nat → node_ptr T
  | null, _ => null
  | own a v p l r, n =>
    if a = n then
      if l.to_bool && r.to_bool then
        match leftmost r with
        | null => null
        | own m mv _ _ _ => own a mv p l (del_at r m)
      else if l.to_bool then adopt l (own a v p l r)
      else if r.to_bool then adopt r (own a v p l r)
      else null
    else if n ∈ addrs l then own a v p (del_at l n) r
    else own a v p l (del_at r n)

end node_ptr

/-- Two values compare equal under `comp_`: neither orders before the
other. -/
def equiv {T : Type} (comp_ : T → T → Bool) (a b : T) : Bool :=
  !comp_ a b && !comp_ b a

/-- The requirement on the comparison object: a strict weak order. -/
structure strict_weak_order {T : Type} (comp_ : T → T → Bool) : Prop where
  irrefl : ∀ a, comp_ a a = false
  trans : ∀ a b c, comp_ a b = true → comp_ b c = true → comp_ a c = true
  equiv_trans : ∀ a b c, equiv comp_ a b = true → equiv comp_ b c = true →
    equiv comp_ a c = true

/-- The values are strictly ascending under `comp_`. -/
def ascending {T : Type} (comp_ : T → T → Bool) (xs : List T) : Prop :=
  xs.Pairwise (fun a b => comp_ a b = true)

instance ascending_decidable {T : Type} (comp_ : T → T → Bool) (xs : List T) :
    Decidable (ascending comp_ xs) :=
  inferInstanceAs (Decidable (xs.Pairwise (fun a b => comp_ a b = true)))

/-- The order invariant of the data model: at every node, every value of the
left subtree orders before the value of the node and every value of the
right subtree orders after it. -/
def bst_order {T : Type} (comp_ : T → T → Bool) : node_ptr T → Bool
  | null => true
  | own _ v _ l r =>
    (values l).all (fun y => comp_ y v) && (values r).all (fun y => comp_ v y) &&
      bst_order comp_ l && bst_order comp_ r

namespace binary_tree

variable {T : Type}

/-- The trees reachable from the empty tree by `insert` and `remove` calls.
An `insert` call obtains from `new` an address that no live node has. -/
inductive reachable (comp_ : T → T → Bool) : binary_tree T → Prop where
  | empty : reachable comp_ empty
  | insert {t : binary_tree T} (fresh : Nat) (v : T) :
      reachable comp_ t → fresh ∉ addrs t.root_ →
      reachable comp_ (insert comp_ fresh t v).2
  | remove {t t' : binary_tree T} (v : T) (b : Bool) :
      reachable comp_ t → remove comp_ t v = .ok (b, t') → reachable comp_ t'

/-- The pairs `(depth, value)` a visitor collects, as `main` does with
`items.push_back`. -/
def items (t : binary_tree T) : List (Nat × T) :=
  t.visit (fun s h v => s ++ [(h, v)]) []

/-- The sequence of values reported by `visit`. -/
def visit_values (t : binary_tree T) : List T :=
  t.visit (fun s _ v => s ++ [v]) []

/-- The invariant of the class: parent consistency, one node per address,
and strictly ascending in-order values. -/
def invariant (comp_ : T → T → Bool) (t : binary_tree T) : Prop :=
  parents_ok t.root_ none ∧ (addrs t.root_).Nodup ∧ ascending comp_ (values t.root_)

end binary_tree

/-- The comparison `std::less<long>` of `main`. -/
def less_long : Int → Int → Bool := fun a b => decide (a < b)

/-- The visitor of the command loop in `main`: it keeps the maximal depth in
`height` and appends to `items`. -/
def main_vis (s : Nat × List (Nat × Int)) (h : Nat) (v : Int) : Nat × List (Nat × Int) :=
  (max s.1 h, s.2 ++ [(h, v)])

/-- The scan at the head of the command loop: `height = 0; items.clear();
t.visit(...)`. -/
def main_scan (t : binary_tree Int) : Nat × List (Nat × Int) :=
  t.visit main_vis (0, [])

/-- The tree `main` builds before the loop: `insert` of 6, 8, 4, 10, the
calls to `new` returning `a1`, `a2`, `a3`, `a4`. -/
def main_seed (a1 a2 a3 a4 : Nat) : binary_tree Int :=
  (binary_tree.insert less_long a4
    (binary_tree.insert less_long a3
      (binary_tree.insert less_long a2
        (binary_tree.insert less_long a1 binary_tree.empty 6).2 8).2 4).2 10).2


namespace detail

variable {T : Type}

/-- The locals `(lh, rh)` of `detail::is_balanced` at its final
`return rh - lh <= 1`, or `none` when the call returns before reaching it. -/
def is_balanced_final : node_ptr T → Option (Nat × Nat)
  | null => some (0, 0)
  | own _ _ _ l r =>
    let bl := is_balanced l 0
    if !bl.1 then none
    else
      let br := is_balanced r 0
      if !br.1 then none
      else
        some (if bl.2 > br.2 then br.2 else bl.2, if bl.2 > br.2 then bl.2 else br.2)

end detail


/-- A run of `insert` calls on a tree, each with the address `new` returns
for it and the value inserted. -/
def insert_seq {T : Type} (comp_ : T → T → Bool) :
    List (Nat × T) → binary_tree T → binary_tree T
  | [], t => t
  | (a, v) :: rest, t => insert_seq comp_ rest (binary_tree.insert comp_ a t v).2

/-- The degenerate right chain: every node has no left child and holds the
next node in its right slot; the first node has parent pointer `p`. -/
def right_chain {T : Type} : Option Nat → List (Nat × T) → node_ptr T
  | _, [] => null
  | p, (a, v) :: rest => own a v p null (right_chain (some a) rest)


/-- The absolute difference of the heights of the two subtrees of the node
held; 0 for the empty pointer. -/
def height_diff {T : Type} : node_ptr T → Nat
  | null => 0
  | own _ _ _ l r => max (height l) (height r) - min (height l) (height r)


/-- Shape and values of a tree, without addresses and parent pointers. -/
inductive shape (T : Type) where
  | leaf : shape T
  | node (l : shape T) (v : T) (r : shape T) : shape T
deriving DecidableEq, Repr

/-- Shape and values of the tree owned through a pointer. -/
def node_ptr.to_shape {T : Type} : node_ptr T → shape T
  | null => shape.leaf
  | own _ v _ l r => shape.node (node_ptr.to_shape l) v (node_ptr.to_shape r)

namespace shape

variable {T : Type}

/-- The minimum of a subtree: the value of its leftmost node. -/
def minimum : shape T → Option T
  | leaf => none
  | node l v _ =>
    match l with
    | leaf => some v
    | node _ _ _ => minimum l

/-- A subtree with its leftmost node replaced by the right subtree of that
node. -/
def del_leftmost : shape T → shape T
  | leaf => leaf
  | node l v r =>
    match l with
    | leaf => r
    | node _ _ _ => node (del_leftmost l) v r

/-- Textbook deletion of the node at the top of a subtree: with two children
the value becomes the minimum of the right subtree, which loses its leftmost
node; with one child the subtree is replaced by the subtree of that child;
with no child the slot becomes empty. -/
def del_here : shape T → shape T
  | leaf => leaf
  | node l v r =>
    match l, r with
    | leaf, leaf => leaf
    | node _ _ _, leaf => l
    | leaf, node _ _ _ => r
    | node _ _ _, node _ _ _ =>
      match minimum r with
      | some m => node l m (del_leftmost r)
      | none => node l v r

/-- Textbook deletion of the node comparing equal to `v`, found by descent;
everything outside the subtree of that node stays as it is. -/
def delete (comp_ : T → T → Bool) (v : T) : shape T → shape T
  | leaf => leaf
  | node l x r =>
    if comp_ v x then node (delete comp_ v l) x r
    else if comp_ x v then node l x (delete comp_ v r)
    else del_here (node l x r)

end shape


namespace node_ptr

variable {T : Type}

/-- The parent pointers of the nodes owned through this pointer: the pairs
(address of a node, its field `p`), in in-order. -/
def links : node_ptr T → List (Nat × Option Nat)
  | null => []
  | own a _ p l r => links l ++ (a, p) :: links r

/-- The node at which `remove(node *n)` performs the structural removal: `n`
itself, or with two children the node `m` the walk to the left from the
right child ends at.  The argument is the node `*n`. -/
def site_of : node_ptr T → Option Nat
  | null => none
  | own a _ _ l r => if l.to_bool && r.to_bool then (leftmost r).get else some a

/-- The node the branches without recursion of `remove(node*)` destroy at the
node held: the only child, whose owning slot is overwritten, or the node
itself when it has no child, whose owning slot is reset. -/
def victim_of : node_ptr T → Option Nat
  | null => none
  | own a _ _ l r => if l.to_bool then l.get else if r.to_bool then r.get else some a

/-- The parent pointers `after` are those of `before` without the node `d`,
where a parent pointer to `d` has become `pd`, the parent pointer `d`
had. -/
def links_effect (before after : List (Nat × Option Nat)) (d : Nat) (pd : Option Nat) :
    Prop :=
  (d, pd) ∈ before ∧
    ∀ x q, (x, q) ∈ after ↔
      ∃ q0, (x, q0) ∈ before ∧ x ≠ d ∧ q = if q0 = some d then pd else q0

end node_ptr

/-- The nodes of `t` that `t'` no longer has: the nodes destroyed between
the two. -/
def destroyed {T : Type} (t t' : binary_tree T) : List Nat :=
  (addrs t.root_).filter (fun a => decide (a ∉ addrs t'.root_))


/-! The command loop of `main`.  The input is the list of commands
`std::cin >> cmd >> val` reads, each with the address `new` would return
for it; the output is the text written to `std::cout`. -/

/-- Multiplication on `size_t`. -/
def size_mul (a b : Nat) : Nat := (a * b) % SIZE_MOD

/-- One line of input as parsed by `std::cin >> cmd >> val`, with the address
a call of `new` returns while the command is served. -/
structure command where
  cmd : Char
  val : Int
  fresh : Nat
deriving DecidableEq, Repr

/-- A `bool` written to `std::cout` once `std::boolalpha` is set, which the
first display does before any result is echoed. -/
def show_bool (b : Bool) : String := if b then "true" else "false"

/-- One row of the indented rendering: `(depth - 1) * w` blanks, then the
value left-justified in a field of width `w`, then a newline. -/
def show_row (w : Nat) (x : Nat × Int) : String :=
  String.mk (List.replicate (size_mul (size_sub x.1 1) w) ' ') ++ toString x.2 ++
    String.mk (List.replicate (w - (toString x.2).length) ' ') ++ "\n"

/-- The head of the outer loop of `main`: scan the tree and write the items,
the height, the balance flag and the indented rows. -/
def display (t : binary_tree Int) : String :=
  let height := (main_scan t).1
  let items := (main_scan t).2
  let lv := match items.head? with
    | some x => toString x.2
    | none => ""
  let rv := match items.getLast? with
    | some x => toString x.2
    | none => ""
  let w := size_add (max lv.length rv.length) 1
  "items:" ++ String.join (items.map (fun x => " " ++ toString x.2)) ++ "\n" ++
    "height: " ++ toString height ++ "\n" ++
    "balance: " ++ show_bool (t.is_balanced 0) ++ "\n" ++
    String.join (items.reverse.map (show_row w))

/-- The inner loop of `main` from its first prompt on, continued by the next
rounds of the outer loop: when the inner loop stops, the tree is displayed
and the inner loop starts again.  With no input left the text ends at the
prompt; a failure inside `remove` ends the text. -/
def command_loop : binary_tree Int → List command → String
  | _, [] => "> "
  | t, c :: rest =>
    if c.cmd = '+' then
      let stop := (binary_tree.insert less_long c.fresh t c.val).1
      let t' := (binary_tree.insert less_long c.fresh t c.val).2
      "> " ++ "> " ++ show_bool stop ++ "\n" ++
        (if stop then display t' ++ command_loop t' rest else command_loop t' rest)
    else if c.cmd = '-' then
      match binary_tree.remove less_long t c.val with
      | .error _ => "> " ++ "> "
      | .ok (stop, t') =>
        "> " ++ "> " ++ show_bool stop ++ "\n" ++
          (if stop then display t' ++ command_loop t' rest else command_loop t' rest)
    else if c.cmd = '?' then
      "> " ++ "> " ++ show_bool (binary_tree.find less_long t c.val) ++ "\n" ++
        command_loop t rest
    else
      "> " ++ "> " ++ "unknown command" ++ "\n" ++ command_loop t rest

/-- The text `main` writes for the given input, the seed insertions getting
the addresses `a1`, `a2`, `a3`, `a4`. -/
def main_output (a1 a2 a3 a4 : Nat) (input : List command) : String :=
  "USAGE: +|-|? <long>\n\n" ++ display (main_seed a1 a2 a3 a4) ++
    command_loop (main_seed a1 a2 a3 a4) input

/-! ## Arithmetic on `size_t` -/

theorem size_add_of_lt {a b : Nat} (h : a + b < SIZE_MOD) : size_add a b = a + b := by
  unfold size_add
  exact Nat.mod_eq_of_lt h

theorem size_sub_of_le {a b : Nat} (hab : b ≤ a) (ha : a < SIZE_MOD) :
    size_sub a b = a - b := by
  unfold size_sub
  have hb : b % SIZE_MOD = b := Nat.mod_eq_of_lt (lt_of_le_of_lt hab ha)
  rw [hb]
  have h1 : a + SIZE_MOD - b = (a - b) + SIZE_MOD := by omega
  rw [h1, Nat.add_mod_right]
  exact Nat.mod_eq_of_lt (by omega)

theorem SIZE_MOD_pos : 1 < SIZE_MOD := by
  unfold SIZE_MOD
  norm_num

/-! ## Traversal -/

namespace node_ptr

variable {T σ : Type}

theorem visit_eq_foldl (root : node_ptr T) (vis : σ → Nat → T → σ) (s : σ) (h : Nat) :
    detail.visit root vis s h = (visit_trace root h).foldl (fun s x => vis s x.1 x.2) s := by
  induction root generalizing s h with
  | null => rfl
  | own a v p l r ihl ihr =>
    simp only [detail.visit, visit_trace, List.foldl_append, List.foldl_cons, ihl, ihr]

theorem visit_trace_values (root : node_ptr T) (h : Nat) :
    (visit_trace root h).map Prod.snd = values root := by
  induction root generalizing h with
  | null => rfl
  | own a v p l r ihl ihr => simp [visit_trace, values, ihl, ihr]

theorem visit_trace_length (root : node_ptr T) (h : Nat) :
    (visit_trace root h).length = binary_tree.size root := by
  induction root generalizing h with
  | null => rfl
  | own a v p l r ihl ihr => simp [visit_trace, binary_tree.size, ihl, ihr]; omega

theorem inorder_depths_length (root : node_ptr T) (d : Nat) :
    (inorder_depths root d).length = binary_tree.size root := by
  induction root generalizing d with
  | null => rfl
  | own a v p l r ihl ihr => simp [inorder_depths, binary_tree.size, ihl, ihr]; omega

theorem visit_trace_eq_inorder_depths (root : node_ptr T) (d d' : Nat)
    (h : 1 ≤ height root → d' = d ∧ d + height root ≤ SIZE_MOD) :
    visit_trace root d' = inorder_depths root d := by
  induction root generalizing d d' with
  | null => rfl
  | own a v p l r ihl ihr =>
    have h1 : d' = d ∧ d + (1 + max (height l) (height r)) ≤ SIZE_MOD := by
      apply h
      simp [height]
    obtain ⟨rfl, h2⟩ := h1
    have hl : visit_trace l (size_add d' 1) = inorder_depths l (d' + 1) := by
      apply ihl
      intro h3
      have : height l ≤ max (height l) (height r) := le_max_left _ _
      refine ⟨size_add_of_lt (by omega), by omega⟩
    have hr : visit_trace r (size_add d' 1) = inorder_depths r (d' + 1) := by
      apply ihr
      intro h3
      have : height r ≤ max (height l) (height r) := le_max_right _ _
      refine ⟨size_add_of_lt (by omega), by omega⟩
    simp only [visit_trace, inorder_depths, hl, hr]

theorem foldl_snoc_snd (xs : List (Nat × T)) (acc : List T) :
    xs.foldl (fun s x => s ++ [x.2]) acc = acc ++ xs.map Prod.snd := by
  induction xs generalizing acc with
  | nil => simp
  | cons x xs ih => simp [ih]

theorem foldl_snoc_pair (xs : List (Nat × T)) (acc : List (Nat × T)) :
    xs.foldl (fun s x => s ++ [(x.1, x.2)]) acc = acc ++ xs := by
  induction xs generalizing acc with
  | nil => simp
  | cons x xs ih => simp [ih]

end node_ptr

namespace binary_tree

variable {T σ : Type}

theorem visit_values_eq (t : binary_tree T) : visit_values t = values t.root_ := by
  unfold visit_values visit
  rw [visit_eq_foldl, foldl_snoc_snd, visit_trace_values]
  simp

theorem items_eq (t : binary_tree T) : items t = visit_trace t.root_ 1 := by
  unfold items visit
  rw [visit_eq_foldl, foldl_snoc_pair]
  simp

end binary_tree

/-! ## Balance check -/

namespace node_ptr

variable {T : Type}

theorem is_balanced_spec (root : node_ptr T) (h0 : Nat) (hh : height root < SIZE_MOD) :
    (detail.is_balanced root h0).1 = decide (balanced root) ∧
      (balanced root → (detail.is_balanced root h0).2 = height root) := by
  induction root generalizing h0 with
  | null =>
    have : size_sub 0 0 = 0 := by
      rw [size_sub_of_le (le_refl 0) (by have := SIZE_MOD_pos; omega)]
    simp [detail.is_balanced, balanced, height, this]
  | own a v p l r ihl ihr =>
    have hl : height l < SIZE_MOD := by
      have : height l ≤ max (height l) (height r) := le_max_left _ _
      simp only [height] at hh; omega
    have hr : height r < SIZE_MOD := by
      have : height r ≤ max (height l) (height r) := le_max_right _ _
      simp only [height] at hh; omega
    obtain ⟨l1, l2⟩ := ihl 0 hl
    obtain ⟨r1, r2⟩ := ihr 0 hr
    by_cases bl : balanced l
    · by_cases br : balanced r
      · have e1 : (detail.is_balanced l 0).1 = true := by rw [l1]; exact decide_eq_true bl
        have e2 : (detail.is_balanced r 0).1 = true := by rw [r1]; exact decide_eq_true br
        have e3 := l2 bl
        have e4 := r2 br
        simp only [detail.is_balanced, e1, e2, e3, e4, Bool.not_true, Bool.false_eq_true,
          if_false, height, balanced, bl, br, and_true]
        simp only [height] at hh
        by_cases hc : height l > height r
        · simp only [hc, if_true]
          have hm : max (height l) (height r) = height l := max_eq_left (le_of_lt hc)
          rw [hm] at hh ⊢
          rw [size_sub_of_le (le_of_lt hc) hl, size_add_of_lt (by omega)]
          refine ⟨?_, fun _ => by omega⟩
          apply Bool.decide_congr
          omega
        · simp only [hc, if_false]
          have hm : max (height l) (height r) = height r := max_eq_right (not_lt.mp hc)
          rw [hm] at hh ⊢
          rw [size_sub_of_le (not_lt.mp hc) hr, size_add_of_lt (by omega)]
          refine ⟨?_, fun _ => by omega⟩
          apply Bool.decide_congr
          omega
      · have e1 : (detail.is_balanced l 0).1 = true := by rw [l1]; exact decide_eq_true bl
        have e2 : (detail.is_balanced r 0).1 = false := by rw [r1]; exact decide_eq_false br
        simp [detail.is_balanced, e1, e2, balanced, br]
    · have e1 : (detail.is_balanced l 0).1 = false := by rw [l1]; exact decide_eq_false bl
      simp [detail.is_balanced, e1, balanced, bl]

end node_ptr

/-! ## Addresses, dereferencing and writing through a pointer -/

namespace node_ptr

variable {T : Type}

theorem to_bool_eq_false {c : node_ptr T} : c.to_bool = false ↔ c = null := by
  cases c <;> simp [to_bool]

theorem to_bool_eq_true {c : node_ptr T} :
    c.to_bool = true ↔ ∃ a v p l r, c = own a v p l r := by
  cases c <;> simp [to_bool]

theorem addrs_set_p (q : Option Nat) (c : node_ptr T) : addrs (set_p q c) = addrs c := by
  cases c <;> rfl

theorem values_set_p (q : Option Nat) (c : node_ptr T) : values (set_p q c) = values c := by
  cases c <;> rfl

theorem addrs_set_v (x : T) (c : node_ptr T) : addrs (set_v x c) = addrs c := by
  cases c <;> rfl

theorem addrs_modify_set_v (root : node_ptr T) (n : Nat) (x : T) :
    addrs (modify_at root n (set_v x)) = addrs root := by
  induction root with
  | null => rfl
  | own a v p l r ihl ihr =>
    simp only [modify_at]
    split_ifs
    · rfl
    · simp [addrs, ihl]
    · simp [addrs, ihr]

theorem parents_ok_set_p {c : node_ptr T} {par : Option Nat} (q : Option Nat)
    (h : parents_ok c par) : parents_ok (set_p q c) q := by
  cases c with
  | null => trivial
  | own a v p l r => exact ⟨rfl, h.2.1, h.2.2⟩

theorem parents_ok_modify_set_v {root : node_ptr T} {par : Option Nat} (n : Nat) (x : T)
    (h : parents_ok root par) : parents_ok (modify_at root n (set_v x)) par := by
  induction root generalizing par with
  | null => trivial
  | own a v p l r ihl ihr =>
    simp only [modify_at]
    split_ifs
    · exact h
    · exact ⟨h.1, ihl h.2.1, h.2.2⟩
    · exact ⟨h.1, h.2.1, ihr h.2.2⟩

theorem deref_eq_null_of_not_mem {root : node_ptr T} {n : Nat} (h : n ∉ addrs root) :
    deref root n = null := by
  induction root with
  | null => rfl
  | own a v p l r ihl ihr =>
    simp only [addrs, List.mem_append, List.mem_cons, not_or] at h
    have h1 : ¬ a = n := fun e => h.2.1 e.symm
    simp only [deref, h1, h.1, if_false]
    exact ihr h.2.2

theorem mem_of_deref_ne_null {root : node_ptr T} {n : Nat} (h : deref root n ≠ null) :
    n ∈ addrs root := by
  by_contra hn
  exact h (deref_eq_null_of_not_mem hn)

theorem deref_addr {root : node_ptr T} {n b : Nat} {bv : T} {bp : Option Nat}
    {bl br : node_ptr T} (h : deref root n = own b bv bp bl br) : b = n := by
  induction root with
  | null => simp [deref] at h
  | own a v p l r ihl ihr =>
    simp only [deref] at h
    split_ifs at h with h1 h2
    · simp only [own.injEq] at h
      omega
    · exact ihl h
    · exact ihr h

theorem deref_ne_null_of_mem {root : node_ptr T} {n : Nat} (h : n ∈ addrs root) :
    deref root n ≠ null := by
  induction root with
  | null => simp [addrs] at h
  | own a v p l r ihl ihr =>
    simp only [deref]
    split_ifs with h1 h2
    · simp
    · exact ihl h2
    · simp only [addrs, List.mem_append, List.mem_cons] at h
      rcases h with h | h | h
      · exact absurd h h2
      · exact absurd h.symm h1
      · exact ihr h

theorem addrs_deref_subset {root : node_ptr T} {n : Nat} :
    ∀ x ∈ addrs (deref root n), x ∈ addrs root := by
  induction root with
  | null => simp [deref]
  | own a v p l r ihl ihr =>
    intro x hx
    simp only [deref] at hx
    split_ifs at hx with h1 h2
    · exact hx
    · simp only [addrs, List.mem_append, List.mem_cons]
      exact Or.inl (ihl x hx)
    · simp only [addrs, List.mem_append, List.mem_cons]
      exact Or.inr (Or.inr (ihr x hx))

theorem deref_parent_ne_none {root : node_ptr T} {par : Option Nat} {n b : Nat} {bv : T}
    {bp : Option Nat} {bl br : node_ptr T} (hp : parents_ok root par) (hpar : par ≠ none)
    (h : deref root n = own b bv bp bl br) : bp ≠ none := by
  induction root generalizing par with
  | null => simp [deref] at h
  | own a v p l r ihl ihr =>
    simp only [deref] at h
    split_ifs at h with h1 h2
    · simp only [own.injEq] at h
      rw [← h.2.2.1, hp.1]
      exact hpar
    · exact ihl hp.2.1 (by simp) h
    · exact ihr hp.2.2 (by simp) h

theorem nodup_own {a : Nat} {v : T} {p : Option Nat} {l r : node_ptr T} :
    (addrs (own a v p l r)).Nodup ↔
      (addrs l).Nodup ∧ (addrs r).Nodup ∧ a ∉ addrs l ∧ a ∉ addrs r ∧
        ∀ x ∈ addrs l, x ∉ addrs r := by
  simp only [addrs, List.nodup_append, List.nodup_cons, List.Disjoint, List.mem_cons]
  constructor
  · rintro ⟨h1, ⟨h2, h3⟩, h4⟩
    exact ⟨h1, h3, fun h => h4 h (Or.inl rfl), h2, fun x hx hr => h4 hx (Or.inr hr)⟩
  · rintro ⟨h1, h2, h3, h4, h5⟩
    refine ⟨h1, ⟨h4, h2⟩, ?_⟩
    intro x hx hx2
    rcases hx2 with rfl | hx2
    · exact h3 hx
    · exact h5 x hx hx2

theorem mem_addrs_own {a x : Nat} {v : T} {p : Option Nat} {l r : node_ptr T} :
    x ∈ addrs (own a v p l r) ↔ x ∈ addrs l ∨ x = a ∨ x ∈ addrs r := by
  simp [addrs]

theorem leftmost_of_ne_null {a : Nat} {v : T} {p : Option Nat} {l r : node_ptr T}
    (h : l ≠ null) : leftmost (own a v p l r) = leftmost l := by
  cases l with
  | null => exact absurd rfl h
  | own la lv lp ll lr => rfl

theorem leftmost_of_null {a : Nat} {v : T} {p : Option Nat} {r : node_ptr T} :
    leftmost (own a v p null r) = own a v p null r := rfl

theorem leftmost_mem {r : node_ptr T} {m : Nat} {mv : T} {mp : Option Nat}
    {ml mr : node_ptr T} (h : leftmost r = own m mv mp ml mr) :
    m ∈ addrs r ∧ ml = null := by
  induction r with
  | null => simp [leftmost] at h
  | own a v p l r2 ihl _ =>
    by_cases hl : l = null
    · subst hl
      rw [leftmost_of_null, own.injEq] at h
      exact ⟨by rw [mem_addrs_own]; exact Or.inr (Or.inl h.1.symm), h.2.2.2.1.symm⟩
    · rw [leftmost_of_ne_null hl] at h
      have := ihl h
      exact ⟨by rw [mem_addrs_own]; exact Or.inl this.1, this.2⟩

theorem leftmost_ne_null {r : node_ptr T} (h : r ≠ null) : leftmost r ≠ null := by
  induction r with
  | null => exact absurd rfl h
  | own a v p l r2 ihl _ =>
    by_cases hl : l = null
    · subst hl
      simp [leftmost_of_null]
    · rw [leftmost_of_ne_null hl]
      exact ihl hl

theorem deref_leftmost {r : node_ptr T} {m : Nat} {mv : T} {mp : Option Nat}
    {ml mr : node_ptr T} (hn : (addrs r).Nodup) (h : leftmost r = own m mv mp ml mr) :
    deref r m = own m mv mp ml mr := by
  induction r with
  | null => simp [leftmost] at h
  | own a v p l r2 ihl _ =>
    by_cases hl : l = null
    · subst hl
      rw [leftmost_of_null] at h
      have : a = m := by
        rw [own.injEq] at h
        exact h.1
      simp only [deref, this, if_true]
      rw [← h, this]
    · rw [leftmost_of_ne_null hl] at h
      rw [nodup_own] at hn
      have hm := (leftmost_mem h).1
      have h1 : ¬ a = m := fun e => hn.2.2.1 (e ▸ hm)
      simp only [deref, h1, hm, if_false, if_true]
      exact ihl hn.1 h

end node_ptr

/-! ## `remove(node*)` acts inside the subtree that holds the node -/

namespace node_ptr

variable {T : Type}

theorem deref_own_left {a n : Nat} {v : T} {p : Option Nat} {l r : node_ptr T}
    (h1 : a ≠ n) (h2 : n ∈ addrs l) : deref (own a v p l r) n = deref l n := by
  simp [deref, h1, h2]

theorem deref_own_right {a n : Nat} {v : T} {p : Option Nat} {l r : node_ptr T}
    (h1 : a ≠ n) (h2 : n ∉ addrs l) : deref (own a v p l r) n = deref r n := by
  simp [deref, h1, h2]

theorem deref_own_self {a : Nat} {v : T} {p : Option Nat} {l r : node_ptr T} :
    deref (own a v p l r) a = own a v p l r := by
  simp [deref]

theorem modify_own_left {a n : Nat} {v : T} {p : Option Nat} {l r : node_ptr T}
    (f : node_ptr T → node_ptr T) (h1 : a ≠ n) (h2 : n ∈ addrs l) :
    modify_at (own a v p l r) n f = own a v p (modify_at l n f) r := by
  simp [modify_at, h1, h2]

theorem modify_own_right {a n : Nat} {v : T} {p : Option Nat} {l r : node_ptr T}
    (f : node_ptr T → node_ptr T) (h1 : a ≠ n) (h2 : n ∉ addrs l) :
    modify_at (own a v p l r) n f = own a v p l (modify_at r n f) := by
  simp [modify_at, h1, h2]

theorem modify_own_self {a : Nat} {v : T} {p : Option Nat} {l r : node_ptr T}
    (f : node_ptr T → node_ptr T) :
    modify_at (own a v p l r) a f = f (own a v p l r) := by
  simp [modify_at]

end node_ptr

namespace binary_tree

variable {T : Type}

theorem remove_node_succ (fuel : Nat) (root_ : node_ptr T) (n : Nat) :
    remove_node (fuel + 1) root_ n =
      match deref root_ n with
      | null => .error .bad_deref
      | own _ _ p l r =>
        if l.to_bool && r.to_bool then
          match leftmost r with
          | null => .error .bad_deref
          | own m mv _ _ _ => remove_node fuel (modify_at root_ n (set_v mv)) m
        else if l.to_bool then .ok (modify_at root_ n (adopt l))
        else if r.to_bool then .ok (modify_at root_ n (adopt r))
        else
          match p with
          | none => if root_.get = some n then .ok null else .error .assert_failed
          | some q =>
            match deref root_ q with
            | null => .error .bad_deref
            | own _ _ _ ql _ =>
              if ql.get = some n then .ok (modify_at root_ q reset_l)
              else .ok (modify_at root_ q reset_r) := by
  rw [remove_node]

theorem remove_node_null {fuel : Nat} {root_ : node_ptr T} {n : Nat}
    (hd : deref root_ n = null) :
    remove_node (fuel + 1) root_ n = .error .bad_deref := by
  rw [remove_node_succ, hd]

theorem remove_node_both {fuel : Nat} {root_ : node_ptr T} {n b m : Nat} {bv mv : T}
    {bp mp : Option Nat} {bl br ml mr : node_ptr T}
    (hd : deref root_ n = own b bv bp bl br) (hl : bl.to_bool = true)
    (hr : br.to_bool = true) (hm : leftmost br = own m mv mp ml mr) :
    remove_node (fuel + 1) root_ n = remove_node fuel (modify_at root_ n (set_v mv)) m := by
  rw [remove_node_succ, hd]
  simp only [hl, hr, Bool.and_self, if_true, hm]

theorem remove_node_left {fuel : Nat} {root_ : node_ptr T} {n b : Nat} {bv : T}
    {bp : Option Nat} {bl br : node_ptr T}
    (hd : deref root_ n = own b bv bp bl br) (hl : bl.to_bool = true)
    (hr : br.to_bool = false) :
    remove_node (fuel + 1) root_ n = .ok (modify_at root_ n (adopt bl)) := by
  rw [remove_node_succ, hd]
  simp [hl, hr]

theorem remove_node_right {fuel : Nat} {root_ : node_ptr T} {n b : Nat} {bv : T}
    {bp : Option Nat} {bl br : node_ptr T}
    (hd : deref root_ n = own b bv bp bl br) (hl : bl.to_bool = false)
    (hr : br.to_bool = true) :
    remove_node (fuel + 1) root_ n = .ok (modify_at root_ n (adopt br)) := by
  rw [remove_node_succ, hd]
  simp [hl, hr]

theorem remove_node_leaf_root {fuel : Nat} {root_ : node_ptr T} {n b : Nat} {bv : T}
    {bl br : node_ptr T}
    (hd : deref root_ n = own b bv none bl br) (hl : bl.to_bool = false)
    (hr : br.to_bool = false) :
    remove_node (fuel + 1) root_ n =
      if root_.get = some n then .ok null else .error .assert_failed := by
  rw [remove_node_succ, hd]
  simp [hl, hr]

theorem remove_node_leaf_null {fuel : Nat} {root_ : node_ptr T} {n b q : Nat} {bv : T}
    {bl br : node_ptr T}
    (hd : deref root_ n = own b bv (some q) bl br) (hl : bl.to_bool = false)
    (hr : br.to_bool = false) (hq : deref root_ q = null) :
    remove_node (fuel + 1) root_ n = .error .bad_deref := by
  rw [remove_node_succ, hd]
  simp [hl, hr, hq]

theorem remove_node_leaf_child {fuel : Nat} {root_ : node_ptr T} {n b q c : Nat} {bv cv : T}
    {cp : Option Nat} {bl br cl cr : node_ptr T}
    (hd : deref root_ n = own b bv (some q) bl br) (hl : bl.to_bool = false)
    (hr : br.to_bool = false) (hq : deref root_ q = own c cv cp cl cr) :
    remove_node (fuel + 1) root_ n =
      if cl.get = some n then .ok (modify_at root_ q reset_l)
      else .ok (modify_at root_ q reset_r) := by
  rw [remove_node_succ, hd]
  simp [hl, hr, hq]

theorem remove_node_lift_left (fuel : Nat) {a : Nat} {v : T} {p : Option Nat}
    {r : node_ptr T} : ∀ (l l' : node_ptr T) (n : Nat), a ∉ addrs l → n ∈ addrs l →
    parents_ok l (some a) → remove_node fuel l n = .ok l' →
    remove_node fuel (own a v p l r) n = .ok (own a v p l' r) := by
  induction fuel with
  | zero => intro l l' n _ _ _ h; simp [remove_node] at h
  | succ fuel ih =>
    intro l l' n ha hn hp h
    have han : a ≠ n := fun e => ha (e ▸ hn)
    have hD : deref (own a v p l r) n = deref l n := deref_own_left han hn
    cases hd : deref l n with
    | null => rw [remove_node_null hd] at h; simp at h
    | own b bv bp bl br =>
      rw [hd] at hD
      cases hbl : bl.to_bool <;> cases hbr : br.to_bool
      · cases bp with
        | none => exact absurd rfl (deref_parent_ne_none hp (by simp) hd)
        | some q =>
          cases hq : deref l q with
          | null => rw [remove_node_leaf_null hd hbl hbr hq] at h; simp at h
          | own c cv cp cl cr =>
            have hql : q ∈ addrs l := mem_of_deref_ne_null (by rw [hq]; simp)
            have haq : a ≠ q := fun e => ha (e ▸ hql)
            have hQ : deref (own a v p l r) q = own c cv cp cl cr := by
              rw [deref_own_left haq hql, hq]
            rw [remove_node_leaf_child hd hbl hbr hq] at h
            rw [remove_node_leaf_child hD hbl hbr hQ, modify_own_left _ haq hql,
              modify_own_left _ haq hql]
            by_cases hc : cl.get = some n
            · simp only [hc, if_true, Except.ok.injEq] at h ⊢
              rw [h]
            · simp only [hc, if_false, Except.ok.injEq] at h ⊢
              rw [h]
      · rw [remove_node_right hd hbl hbr] at h
        rw [remove_node_right hD hbl hbr, modify_own_left _ han hn]
        simp only [Except.ok.injEq] at h
        rw [h]
      · rw [remove_node_left hd hbl hbr] at h
        rw [remove_node_left hD hbl hbr, modify_own_left _ han hn]
        simp only [Except.ok.injEq] at h
        rw [h]
      · cases hm : leftmost br with
        | null =>
          exact absurd hm (leftmost_ne_null (fun e => by rw [e] at hbr; simp [to_bool] at hbr))
        | own m mv mp ml mr =>
          rw [remove_node_both hd hbl hbr hm] at h
          rw [remove_node_both hD hbl hbr hm, modify_own_left _ han hn]
          apply ih _ _ _ _ _ _ h
          · rw [addrs_modify_set_v]; exact ha
          · rw [addrs_modify_set_v]
            apply addrs_deref_subset (n := n)
            rw [hd, mem_addrs_own]
            exact Or.inr (Or.inr (leftmost_mem hm).1)
          · exact parents_ok_modify_set_v _ _ hp

theorem remove_node_lift_right (fuel : Nat) {a : Nat} {v : T} {p : Option Nat}
    {l : node_ptr T} : ∀ (r r' : node_ptr T) (n : Nat), a ∉ addrs r → n ∈ addrs r →
    (∀ x ∈ addrs r, x ∉ addrs l) →
    parents_ok r (some a) → remove_node fuel r n = .ok r' →
    remove_node fuel (own a v p l r) n = .ok (own a v p l r') := by
  induction fuel with
  | zero => intro r r' n _ _ _ _ h; simp [remove_node] at h
  | succ fuel ih =>
    intro r r' n ha hn hdis hp h
    have han : a ≠ n := fun e => ha (e ▸ hn)
    have hnl : n ∉ addrs l := hdis n hn
    have hD : deref (own a v p l r) n = deref r n := deref_own_right han hnl
    cases hd : deref r n with
    | null => rw [remove_node_null hd] at h; simp at h
    | own b bv bp bl br =>
      rw [hd] at hD
      cases hbl : bl.to_bool <;> cases hbr : br.to_bool
      · cases bp with
        | none => exact absurd rfl (deref_parent_ne_none hp (by simp) hd)
        | some q =>
          cases hq : deref r q with
          | null => rw [remove_node_leaf_null hd hbl hbr hq] at h; simp at h
          | own c cv cp cl cr =>
            have hqr : q ∈ addrs r := mem_of_deref_ne_null (by rw [hq]; simp)
            have haq : a ≠ q := fun e => ha (e ▸ hqr)
            have hql : q ∉ addrs l := hdis q hqr
            have hQ : deref (own a v p l r) q = own c cv cp cl cr := by
              rw [deref_own_right haq hql, hq]
            rw [remove_node_leaf_child hd hbl hbr hq] at h
            rw [remove_node_leaf_child hD hbl hbr hQ, modify_own_right _ haq hql,
              modify_own_right _ haq hql]
            by_cases hc : cl.get = some n
            · simp only [hc, if_true, Except.ok.injEq] at h ⊢
              rw [h]
            · simp only [hc, if_false, Except.ok.injEq] at h ⊢
              rw [h]
      · rw [remove_node_right hd hbl hbr] at h
        rw [remove_node_right hD hbl hbr, modify_own_right _ han hnl]
        simp only [Except.ok.injEq] at h
        rw [h]
      · rw [remove_node_left hd hbl hbr] at h
        rw [remove_node_left hD hbl hbr, modify_own_right _ han hnl]
        simp only [Except.ok.injEq] at h
        rw [h]
      · cases hm : leftmost br with
        | null =>
          exact absurd hm (leftmost_ne_null (fun e => by rw [e] at hbr; simp [to_bool] at hbr))
        | own m mv mp ml mr =>
          rw [remove_node_both hd hbl hbr hm] at h
          rw [remove_node_both hD hbl hbr hm, modify_own_right _ han hnl]
          apply ih _ _ _ _ _ _ _ h
          · rw [addrs_modify_set_v]; exact ha
          · rw [addrs_modify_set_v]
            apply addrs_deref_subset (n := n)
            rw [hd, mem_addrs_own]
            exact Or.inr (Or.inr (leftmost_mem hm).1)
          · rw [addrs_modify_set_v]; exact hdis
          · exact parents_ok_modify_set_v _ _ hp

theorem get_mem_addrs {c : node_ptr T} {n : Nat} (h : c.get = some n) : n ∈ addrs c := by
  cases c with
  | null => simp [node_ptr.get] at h
  | own a v p l r =>
    simp only [node_ptr.get, Option.some.injEq] at h
    rw [mem_addrs_own]
    exact Or.inr (Or.inl h.symm)

theorem leaf_shape {c : node_ptr T} {n : Nat} {par : Option Nat} (hg : c.get = some n)
    (hl : is_leaf c = true) (hp : parents_ok c par) :
    ∃ x, c = own n x par null null := by
  cases c with
  | null => simp [node_ptr.get] at hg
  | own a v p l r =>
    simp only [node_ptr.get, Option.some.injEq] at hg
    simp only [is_leaf, Bool.and_eq_true, Bool.not_eq_true', to_bool_eq_false] at hl
    exact ⟨v, by rw [hg, hl.1, hl.2, hp.1]⟩

theorem remove_node_leaf_child_left (k : Nat) {a n : Nat} {v x : T} {p : Option Nat}
    {r : node_ptr T} (han : a ≠ n) :
    remove_node (k + 1) (own a v p (own n x (some a) null null) r) n =
      .ok (own a v p null r) := by
  have hn : n ∈ addrs (own n x (some a) (null : node_ptr T) null) := by simp [addrs]
  have hd : deref (own a v p (own n x (some a) null null) r) n =
      own n x (some a) null null := by
    rw [deref_own_left han hn, deref_own_self]
  rw [remove_node_leaf_child hd rfl rfl deref_own_self]
  simp [node_ptr.get, modify_own_self, reset_l]

theorem remove_node_leaf_child_right (k : Nat) {a n : Nat} {v x : T} {p : Option Nat}
    {l : node_ptr T} (han : a ≠ n) (hnl : n ∉ addrs l) :
    remove_node (k + 1) (own a v p l (own n x (some a) null null)) n =
      .ok (own a v p l null) := by
  have hd : deref (own a v p l (own n x (some a) null null)) n =
      own n x (some a) null null := by
    rw [deref_own_right han hnl, deref_own_self]
  rw [remove_node_leaf_child hd rfl rfl deref_own_self]
  have : ¬ l.get = some n := fun e => hnl (get_mem_addrs e)
  simp [this, modify_own_self, reset_r]

theorem del_at_leaf (n : Nat) (x : T) (q : Option Nat) :
    del_at (own n x q null null) n = null := by
  simp [del_at, to_bool]

theorem remove_node_eq_del_at (root : node_ptr T) : ∀ (par : Option Nat) (n k : Nat),
    parents_ok root par → (addrs root).Nodup → n ∈ addrs root →
    (root.get = some n → is_leaf root = true → par = none) →
    (1 ≤ k ∨ has_both (deref root n) = false) →
    remove_node (k + 1) root n = .ok (del_at root n) := by
  induction root with
  | null => intro par n k _ _ hn; simp [addrs] at hn
  | own a v p l r ihl ihr =>
    intro par n k hp hnd hn htop hk
    obtain ⟨hp1, hpl, hpr⟩ := hp
    obtain ⟨ndl, ndr, hal, har, hdis⟩ := nodup_own.mp hnd
    by_cases han : a = n
    · subst han
      cases hbl : l.to_bool <;> cases hbr : r.to_bool
      · have hpn : p = none := by
          rw [hp1]
          exact htop rfl (by simp [is_leaf, hbl, hbr])
        subst hpn
        rw [remove_node_leaf_root deref_own_self hbl hbr]
        simp [node_ptr.get, del_at, hbl, hbr]
      · rw [remove_node_right deref_own_self hbl hbr, modify_own_self]
        simp [del_at, hbl, hbr]
      · rw [remove_node_left deref_own_self hbl hbr, modify_own_self]
        simp [del_at, hbl, hbr]
      · have hk1 : 1 ≤ k := by
          rcases hk with hk | hk
          · exact hk
          · rw [deref_own_self] at hk
            simp [has_both, hbl, hbr] at hk
        obtain ⟨j, rfl⟩ : ∃ j, k = j + 1 := ⟨k - 1, by omega⟩
        cases hm : leftmost r with
        | null =>
          exact absurd hm (leftmost_ne_null (fun e => by rw [e] at hbr; simp [to_bool] at hbr))
        | own m mv mp ml mr =>
          have hmr : m ∈ addrs r := (leftmost_mem hm).1
          have hml : ml = null := (leftmost_mem hm).2
          have ham : a ≠ m := fun e => har (e ▸ hmr)
          have hdel : del_at (own a v p l r) a = own a mv p l (del_at r m) := by
            simp [del_at, hbl, hbr, hm]
          rw [remove_node_both deref_own_self hbl hbr hm, modify_own_self, hdel]
          simp only [set_v]
          by_cases hleaf : r.get = some m ∧ is_leaf r = true
          · obtain ⟨x, hx⟩ := leaf_shape hleaf.1 hleaf.2 hpr
            rw [hx, del_at_leaf]
            exact remove_node_leaf_child_right j ham (fun h => hdis m h hmr)
          · apply remove_node_lift_right (j + 1) r _ m har hmr
              (fun x hx hx2 => hdis x hx2 hx) hpr
            apply ihr (some a) m j hpr ndr hmr
            · intro h1 h2
              exact absurd ⟨h1, h2⟩ hleaf
            · right
              rw [deref_leftmost ndr hm, hml]
              simp [has_both, to_bool]
    · have hdn : n ∈ addrs l ∨ n ∈ addrs r := by
        rw [mem_addrs_own] at hn
        rcases hn with h | h | h
        · exact Or.inl h
        · exact absurd h.symm han
        · exact Or.inr h
      by_cases hnl : n ∈ addrs l
      · have hdel : del_at (own a v p l r) n = own a v p (del_at l n) r := by
          simp [del_at, han, hnl]
        rw [hdel]
        by_cases hleaf : l.get = some n ∧ is_leaf l = true
        · obtain ⟨x, hx⟩ := leaf_shape hleaf.1 hleaf.2 hpl
          rw [hx, del_at_leaf]
          exact remove_node_leaf_child_left k han
        · apply remove_node_lift_left (k + 1) l _ n hal hnl hpl
          apply ihl (some a) n k hpl ndl hnl
          · intro h1 h2
            exact absurd ⟨h1, h2⟩ hleaf
          · rw [deref_own_left han hnl] at hk
            exact hk
      · have hnr : n ∈ addrs r := by
          rcases hdn with h | h
          · exact absurd h hnl
          · exact h
        have hdel : del_at (own a v p l r) n = own a v p l (del_at r n) := by
          simp [del_at, han, hnl]
        rw [hdel]
        by_cases hleaf : r.get = some n ∧ is_leaf r = true
        · obtain ⟨x, hx⟩ := leaf_shape hleaf.1 hleaf.2 hpr
          rw [hx, del_at_leaf]
          exact remove_node_leaf_child_right k han hnl
        · apply remove_node_lift_right (k + 1) r _ n har hnr
            (fun x hx hx2 => hdis x hx2 hx) hpr
          apply ihr (some a) n k hpr ndr hnr
          · intro h1 h2
            exact absurd ⟨h1, h2⟩ hleaf
          · rw [deref_own_right han hnl] at hk
            exact hk

end binary_tree

/-! ## What removing a node does to the addresses, the values and the parent pointers -/

namespace node_ptr

variable {T : Type}

theorem del_at_self_both {a m : Nat} {v mv : T} {p mp : Option Nat} {l r ml mr : node_ptr T}
    (hl : l.to_bool = true) (hr : r.to_bool = true) (hm : leftmost r = own m mv mp ml mr) :
    del_at (own a v p l r) a = own a mv p l (del_at r m) := by
  simp [del_at, hl, hr, hm]

theorem del_at_self_left {a : Nat} {v : T} {p : Option Nat} {l r : node_ptr T}
    (hl : l.to_bool = true) (hr : r.to_bool = false) :
    del_at (own a v p l r) a = adopt l (own a v p l r) := by
  simp [del_at, hl, hr]

theorem del_at_self_right {a : Nat} {v : T} {p : Option Nat} {l r : node_ptr T}
    (hl : l.to_bool = false) (hr : r.to_bool = true) :
    del_at (own a v p l r) a = adopt r (own a v p l r) := by
  simp [del_at, hl, hr]

theorem del_at_self_leaf {a : Nat} {v : T} {p : Option Nat} {l r : node_ptr T}
    (hl : l.to_bool = false) (hr : r.to_bool = false) :
    del_at (own a v p l r) a = null := by
  simp [del_at, hl, hr]

theorem del_at_left {a n : Nat} {v : T} {p : Option Nat} {l r : node_ptr T}
    (h1 : a ≠ n) (h2 : n ∈ addrs l) :
    del_at (own a v p l r) n = own a v p (del_at l n) r := by
  simp [del_at, h1, h2]

theorem del_at_right {a n : Nat} {v : T} {p : Option Nat} {l r : node_ptr T}
    (h1 : a ≠ n) (h2 : n ∉ addrs l) :
    del_at (own a v p l r) n = own a v p l (del_at r n) := by
  simp [del_at, h1, h2]

theorem values_adopt {a : Nat} {v : T} {p : Option Nat} {l r c : node_ptr T}
    (hc : c.to_bool = true) : values (adopt c (own a v p l r)) = values c := by
  cases c with
  | null => simp [to_bool] at hc
  | own b cv cp cl cr => simp [adopt, values, values_set_p]

theorem addrs_adopt {a : Nat} {v : T} {p : Option Nat} {l r c : node_ptr T} :
    ∀ x ∈ addrs (adopt c (own a v p l r)), x = a ∨ x ∈ addrs c ∨ x ∈ addrs l ∨ x ∈ addrs r := by
  intro x hx
  cases c with
  | null =>
    simp only [adopt, mem_addrs_own] at hx
    tauto
  | own b cv cp cl cr =>
    simp only [adopt, mem_addrs_own, addrs_set_p] at hx
    simp only [mem_addrs_own]
    tauto

theorem del_at_leftmost_values {r : node_ptr T} {m : Nat} {mv : T} {mp : Option Nat}
    {ml mr : node_ptr T} (hn : (addrs r).Nodup) (h : leftmost r = own m mv mp ml mr) :
    values r = mv :: values (del_at r m) := by
  induction r with
  | null => simp [leftmost] at h
  | own a v p l r2 ihl _ =>
    by_cases hl : l = null
    · subst hl
      rw [leftmost_of_null, own.injEq] at h
      obtain ⟨rfl, rfl, -⟩ := h
      cases hr : r2.to_bool
      · rw [del_at_self_leaf (l := null) rfl hr]
        rw [to_bool_eq_false] at hr
        simp [values, hr]
      · rw [del_at_self_right (l := null) rfl hr, values_adopt hr]
        simp [values]
    · rw [leftmost_of_ne_null hl] at h
      rw [nodup_own] at hn
      have hm := (leftmost_mem h).1
      have h1 : a ≠ m := fun e => hn.2.2.1 (e ▸ hm)
      rw [del_at_left h1 hm]
      simp only [values]
      rw [ihl hn.1 h]
      simp

theorem val_at_own_self {a : Nat} {v : T} {p : Option Nat} {l r : node_ptr T} :
    val_at (own a v p l r) a = some v := by
  simp [val_at, deref]

theorem val_at_own_left {a n : Nat} {v : T} {p : Option Nat} {l r : node_ptr T}
    (h1 : a ≠ n) (h2 : n ∈ addrs l) : val_at (own a v p l r) n = val_at l n := by
  simp [val_at, deref_own_left h1 h2]

theorem val_at_own_right {a n : Nat} {v : T} {p : Option Nat} {l r : node_ptr T}
    (h1 : a ≠ n) (h2 : n ∉ addrs l) : val_at (own a v p l r) n = val_at r n := by
  simp [val_at, deref_own_right h1 h2]

theorem del_at_values (root : node_ptr T) (n : Nat) (hnd : (addrs root).Nodup)
    (hn : n ∈ addrs root) :
    ∃ l1 x l2, values root = l1 ++ x :: l2 ∧ val_at root n = some x ∧
      values (del_at root n) = l1 ++ l2 := by
  induction root with
  | null => simp [addrs] at hn
  | own a v p l r ihl ihr =>
    obtain ⟨ndl, ndr, hal, har, hdis⟩ := nodup_own.mp hnd
    by_cases han : a = n
    · subst han
      refine ⟨values l, v, values r, rfl, val_at_own_self, ?_⟩
      cases hbl : l.to_bool <;> cases hbr : r.to_bool
      · rw [del_at_self_leaf hbl hbr]
        rw [to_bool_eq_false] at hbl hbr
        simp [hbl, hbr, values]
      · rw [del_at_self_right hbl hbr, values_adopt hbr]
        rw [to_bool_eq_false] at hbl
        simp [hbl, values]
      · rw [del_at_self_left hbl hbr, values_adopt hbl]
        rw [to_bool_eq_false] at hbr
        simp [hbr, values]
      · cases hm : leftmost r with
        | null =>
          exact absurd hm (leftmost_ne_null (fun e => by rw [e] at hbr; simp [to_bool] at hbr))
        | own m mv mp ml mr =>
          rw [del_at_self_both hbl hbr hm, del_at_leftmost_values ndr hm]
          simp [values]
    · by_cases hnl : n ∈ addrs l
      · obtain ⟨l1, x, l2, h1, h2, h3⟩ := ihl ndl hnl
        refine ⟨l1, x, l2 ++ v :: values r, ?_, ?_, ?_⟩
        · simp [values, h1]
        · rw [val_at_own_left han hnl, h2]
        · rw [del_at_left han hnl]
          simp [values, h3]
      · have hnr : n ∈ addrs r := by
          rw [mem_addrs_own] at hn
          rcases hn with h | h | h
          · exact absurd h hnl
          · exact absurd h.symm han
          · exact h
        obtain ⟨l1, x, l2, h1, h2, h3⟩ := ihr ndr hnr
        refine ⟨values l ++ v :: l1, x, l2, ?_, ?_, ?_⟩
        · simp [values, h1]
        · rw [val_at_own_right han hnl, h2]
        · rw [del_at_right han hnl]
          simp [values, h3]

theorem del_at_addrs_subset (root : node_ptr T) (n : Nat) :
    ∀ x ∈ addrs (del_at root n), x ∈ addrs root := by
  induction root generalizing n with
  | null => simp [del_at]
  | own a v p l r ihl ihr =>
    intro x hx
    by_cases han : a = n
    · subst han
      cases hbl : l.to_bool <;> cases hbr : r.to_bool
      · rw [del_at_self_leaf hbl hbr] at hx
        simp [addrs] at hx
      · rw [del_at_self_right hbl hbr] at hx
        have := addrs_adopt x hx
        rw [mem_addrs_own]
        tauto
      · rw [del_at_self_left hbl hbr] at hx
        have := addrs_adopt x hx
        rw [mem_addrs_own]
        tauto
      · cases hm : leftmost r with
        | null =>
          exact absurd hm (leftmost_ne_null (fun e => by rw [e] at hbr; simp [to_bool] at hbr))
        | own m mv mp ml mr =>
          rw [del_at_self_both hbl hbr hm, mem_addrs_own] at hx
          rw [mem_addrs_own]
          rcases hx with h | h | h
          · exact Or.inl h
          · exact Or.inr (Or.inl h)
          · exact Or.inr (Or.inr (ihr m x h))
    · by_cases hnl : n ∈ addrs l
      · rw [del_at_left han hnl, mem_addrs_own] at hx
        rw [mem_addrs_own]
        rcases hx with h | h | h
        · exact Or.inl (ihl n x h)
        · exact Or.inr (Or.inl h)
        · exact Or.inr (Or.inr h)
      · rw [del_at_right han hnl, mem_addrs_own] at hx
        rw [mem_addrs_own]
        rcases hx with h | h | h
        · exact Or.inl h
        · exact Or.inr (Or.inl h)
        · exact Or.inr (Or.inr (ihr n x h))

theorem del_at_nodup (root : node_ptr T) (n : Nat) (hnd : (addrs root).Nodup) :
    (addrs (del_at root n)).Nodup := by
  induction root generalizing n with
  | null => simp [del_at, addrs]
  | own a v p l r ihl ihr =>
    obtain ⟨ndl, ndr, hal, har, hdis⟩ := nodup_own.mp hnd
    by_cases han : a = n
    · subst han
      cases hbl : l.to_bool <;> cases hbr : r.to_bool
      · rw [del_at_self_leaf hbl hbr]
        simp [addrs]
      · rw [del_at_self_right hbl hbr]
        cases r with
        | null => simp [to_bool] at hbr
        | own b cv cp cl cr =>
          obtain ⟨n1, n2, n3, n4, n5⟩ := nodup_own.mp ndr
          simp only [adopt]
          rw [nodup_own]
          simp only [addrs_set_p]
          rw [mem_addrs_own] at har
          exact ⟨n1, n2, fun h => har (Or.inl h), fun h => har (Or.inr (Or.inr h)), n5⟩
      · rw [del_at_self_left hbl hbr]
        cases l with
        | null => simp [to_bool] at hbl
        | own b cv cp cl cr =>
          obtain ⟨n1, n2, n3, n4, n5⟩ := nodup_own.mp ndl
          simp only [adopt]
          rw [nodup_own]
          simp only [addrs_set_p]
          rw [mem_addrs_own] at hal
          exact ⟨n1, n2, fun h => hal (Or.inl h), fun h => hal (Or.inr (Or.inr h)), n5⟩
      · cases hm : leftmost r with
        | null =>
          exact absurd hm (leftmost_ne_null (fun e => by rw [e] at hbr; simp [to_bool] at hbr))
        | own m mv mp ml mr =>
          rw [del_at_self_both hbl hbr hm, nodup_own]
          exact ⟨ndl, ihr m ndr, hal, fun h => har (del_at_addrs_subset r m a h),
            fun x hx h => hdis x hx (del_at_addrs_subset r m x h)⟩
    · by_cases hnl : n ∈ addrs l
      · rw [del_at_left han hnl, nodup_own]
        exact ⟨ihl n ndl, ndr, fun h => hal (del_at_addrs_subset l n a h), har,
          fun x hx h => hdis x (del_at_addrs_subset l n x hx) h⟩
      · rw [del_at_right han hnl, nodup_own]
        exact ⟨ndl, ihr n ndr, hal, fun h => har (del_at_addrs_subset r n a h),
          fun x hx h => hdis x hx (del_at_addrs_subset r n x h)⟩

theorem parents_ok_adopt {a : Nat} {v : T} {p par : Option Nat} {l r c : node_ptr T}
    (hp : p = par) (hc : ∃ q, parents_ok c q) (hl : parents_ok l (some a))
    (hr : parents_ok r (some a)) :
    parents_ok (adopt c (own a v p l r)) par := by
  cases c with
  | null => exact ⟨hp, hl, hr⟩
  | own b cv cp cl cr =>
    obtain ⟨q, hq⟩ := hc
    exact ⟨hp, parents_ok_set_p _ hq.2.1, parents_ok_set_p _ hq.2.2⟩

theorem del_at_parents_ok (root : node_ptr T) (n : Nat) (par : Option Nat)
    (hp : parents_ok root par) : parents_ok (del_at root n) par := by
  induction root generalizing n par with
  | null => simp [del_at, parents_ok]
  | own a v p l r ihl ihr =>
    obtain ⟨hp1, hpl, hpr⟩ := hp
    by_cases han : a = n
    · subst han
      cases hbl : l.to_bool <;> cases hbr : r.to_bool
      · rw [del_at_self_leaf hbl hbr]
        trivial
      · rw [del_at_self_right hbl hbr]
        exact parents_ok_adopt hp1 ⟨_, hpr⟩ hpl hpr
      · rw [del_at_self_left hbl hbr]
        exact parents_ok_adopt hp1 ⟨_, hpl⟩ hpl hpr
      · cases hm : leftmost r with
        | null =>
          exact absurd hm (leftmost_ne_null (fun e => by rw [e] at hbr; simp [to_bool] at hbr))
        | own m mv mp ml mr =>
          rw [del_at_self_both hbl hbr hm]
          exact ⟨hp1, hpl, ihr m _ hpr⟩
    · by_cases hnl : n ∈ addrs l
      · rw [del_at_left han hnl]
        exact ⟨hp1, ihl n _ hpl, hpr⟩
      · rw [del_at_right han hnl]
        exact ⟨hp1, hpl, ihr n _ hpr⟩

end node_ptr

/-! ## The order relation -/

section order

variable {T : Type} {comp_ : T → T → Bool}

theorem equiv_symm (a b : T) : equiv comp_ a b = equiv comp_ b a := by
  unfold equiv
  exact Bool.and_comm _ _

theorem equiv_refl (hc : strict_weak_order comp_) (a : T) : equiv comp_ a a = true := by
  simp [equiv, hc.irrefl]

theorem not_equiv_of_comp {a b : T} (h : comp_ a b = true) : equiv comp_ a b = false := by
  simp [equiv, h]

theorem not_equiv_of_comp_symm {a b : T} (h : comp_ a b = true) : equiv comp_ b a = false := by
  simp [equiv, h]

theorem ascending_own {a : Nat} {v : T} {p : Option Nat} {l r : node_ptr T} :
    ascending comp_ (values (own a v p l r)) ↔
      ascending comp_ (values l) ∧ ascending comp_ (values r) ∧
        (∀ y ∈ values l, comp_ y v = true) ∧ (∀ y ∈ values r, comp_ v y = true) ∧
        (∀ y ∈ values l, ∀ z ∈ values r, comp_ y z = true) := by
  simp only [ascending, values, List.pairwise_append, List.pairwise_cons, List.mem_cons]
  constructor
  · rintro ⟨h1, ⟨h2, h3⟩, h4⟩
    exact ⟨h1, h3, fun y hy => h4 y hy v (Or.inl rfl), h2,
      fun y hy z hz => h4 y hy z (Or.inr hz)⟩
  · rintro ⟨h1, h2, h3, h4, h5⟩
    refine ⟨h1, ⟨h4, h2⟩, ?_⟩
    intro y hy z hz
    rcases hz with rfl | hz
    · exact h3 y hy
    · exact h5 y hy z hz

theorem bst_order_of_ascending {root : node_ptr T}
    (hs : ascending comp_ (values root)) : bst_order comp_ root = true := by
  induction root with
  | null => rfl
  | own a v p l r ihl ihr =>
    obtain ⟨sl, sr, hlx, hxr, -⟩ := ascending_own.mp hs
    simp only [bst_order, Bool.and_eq_true, List.all_eq_true]
    exact ⟨⟨⟨hlx, hxr⟩, ihl sl⟩, ihr sr⟩

end order

/-! ## `find_at` and `insert_at` -/

namespace binary_tree

variable {T : Type} {comp_ : T → T → Bool}

theorem find_at_mem {root : node_ptr T} {v : T} {n : Nat}
    (h : find_at comp_ root v = some n) : n ∈ addrs root := by
  induction root with
  | null => simp [find_at] at h
  | own a x p l r ihl ihr =>
    rw [mem_addrs_own]
    simp only [find_at] at h
    split_ifs at h with h1 h2
    · exact Or.inl (ihl h)
    · exact Or.inr (Or.inr (ihr h))
    · simp only [Option.some.injEq] at h
      exact Or.inr (Or.inl h.symm)

theorem find_at_val {root : node_ptr T} {v : T} {n : Nat} (hnd : (addrs root).Nodup)
    (h : find_at comp_ root v = some n) :
    ∃ x, val_at root n = some x ∧ equiv comp_ x v = true := by
  induction root with
  | null => simp [find_at] at h
  | own a x p l r ihl ihr =>
    obtain ⟨ndl, ndr, hal, har, hdis⟩ := nodup_own.mp hnd
    simp only [find_at] at h
    split_ifs at h with h1 h2
    · have hm := find_at_mem h
      have han : a ≠ n := fun e => hal (e ▸ hm)
      rw [val_at_own_left han hm]
      exact ihl ndl h
    · have hm := find_at_mem h
      have han : a ≠ n := fun e => har (e ▸ hm)
      have hnl : n ∉ addrs l := fun e => hdis n e hm
      rw [val_at_own_right han hnl]
      exact ihr ndr h
    · simp only [Option.some.injEq] at h
      subst h
      exact ⟨x, val_at_own_self, by simp [equiv, h1, h2]⟩

theorem find_at_isSome_iff (hc : strict_weak_order comp_) {root : node_ptr T} (v : T)
    (hs : ascending comp_ (values root)) :
    (find_at comp_ root v).isSome = true ↔ ∃ x ∈ values root, equiv comp_ x v = true := by
  induction root with
  | null => simp [find_at, values]
  | own a x p l r ihl ihr =>
    obtain ⟨sl, sr, hlx, hxr, -⟩ := ascending_own.mp hs
    simp only [find_at]
    split_ifs with h1 h2
    · rw [ihl sl]
      constructor
      · rintro ⟨y, hy, he⟩
        exact ⟨y, by simp [values, hy], he⟩
      · rintro ⟨y, hy, he⟩
        simp only [values, List.mem_append, List.mem_cons] at hy
        rcases hy with hy | rfl | hy
        · exact ⟨y, hy, he⟩
        · rw [not_equiv_of_comp_symm h1] at he
          exact absurd he (by simp)
        · rw [not_equiv_of_comp_symm (hc.trans _ _ _ h1 (hxr y hy))] at he
          exact absurd he (by simp)
    · rw [ihr sr]
      constructor
      · rintro ⟨y, hy, he⟩
        exact ⟨y, by simp [values, hy], he⟩
      · rintro ⟨y, hy, he⟩
        simp only [values, List.mem_append, List.mem_cons] at hy
        rcases hy with hy | rfl | hy
        · rw [not_equiv_of_comp (hc.trans _ _ _ (hlx y hy) h2)] at he
          exact absurd he (by simp)
        · rw [not_equiv_of_comp h2] at he
          exact absurd he (by simp)
        · exact ⟨y, hy, he⟩
    · simp only [Option.isSome_some, true_iff]
      exact ⟨x, by simp [values], by simp [equiv, h1, h2]⟩

theorem insert_at_fst (fresh : Nat) (np : node_ptr T) (v : T) (p : Option Nat) :
    (insert_at comp_ fresh np v p).1 = !(find_at comp_ np v).isSome := by
  induction np generalizing p with
  | null => simp [insert_at, find_at]
  | own a x q l r ihl ihr =>
    simp only [insert_at, find_at]
    split_ifs
    · exact ihl _
    · exact ihr _
    · simp

theorem insert_at_false (fresh : Nat) (np : node_ptr T) (v : T) (p : Option Nat)
    (h : (insert_at comp_ fresh np v p).1 = false) :
    (insert_at comp_ fresh np v p).2 = np := by
  induction np generalizing p with
  | null => simp [insert_at] at h
  | own a x q l r ihl ihr =>
    simp only [insert_at] at h ⊢
    split_ifs at h ⊢
    · rw [ihl _ h]
    · rw [ihr _ h]
    · rfl

theorem insert_at_values (hc : strict_weak_order comp_) (fresh : Nat) (np : node_ptr T)
    (v : T) (p : Option Nat) (hs : ascending comp_ (values np))
    (h : (insert_at comp_ fresh np v p).1 = true) :
    ∃ l1 l2, values np = l1 ++ l2 ∧
      values (insert_at comp_ fresh np v p).2 = l1 ++ v :: l2 ∧
      (∀ y ∈ l1, comp_ y v = true) ∧ (∀ y ∈ l2, comp_ v y = true) := by
  induction np generalizing p with
  | null => exact ⟨[], [], by simp [values, insert_at]⟩
  | own a x q l r ihl ihr =>
    obtain ⟨sl, sr, hlx, hxr, -⟩ := ascending_own.mp hs
    simp only [insert_at] at h ⊢
    split_ifs at h ⊢ with h1 h2
    · obtain ⟨l1, l2, e1, e2, e3, e4⟩ := ihl _ sl h
      refine ⟨l1, l2 ++ x :: values r, by simp [values, e1], by simp [values, e2], e3, ?_⟩
      intro y hy
      simp only [List.mem_append, List.mem_cons] at hy
      rcases hy with hy | rfl | hy
      · exact e4 y hy
      · exact h1
      · exact hc.trans _ _ _ h1 (hxr y hy)
    · obtain ⟨l1, l2, e1, e2, e3, e4⟩ := ihr _ sr h
      refine ⟨values l ++ x :: l1, l2, by simp [values, e1], by simp [values, e2], ?_, e4⟩
      intro y hy
      simp only [List.mem_append, List.mem_cons] at hy
      rcases hy with hy | rfl | hy
      · exact hc.trans _ _ _ (hlx y hy) h2
      · exact h2
      · exact e3 y hy

theorem ascending_insert {l1 l2 : List T} {v : T}
    (hs : ascending comp_ (l1 ++ l2)) (h1 : ∀ y ∈ l1, comp_ y v = true)
    (h2 : ∀ y ∈ l2, comp_ v y = true) : ascending comp_ (l1 ++ v :: l2) := by
  simp only [ascending, List.pairwise_append, List.pairwise_cons, List.mem_cons] at hs ⊢
  refine ⟨hs.1, ⟨h2, hs.2.1⟩, ?_⟩
  intro y hy z hz
  rcases hz with rfl | hz
  · exact h1 y hy
  · exact hs.2.2 y hy z hz

theorem insert_at_mem_addrs (fresh : Nat) (np : node_ptr T) (v : T) (p : Option Nat) :
    ∀ x ∈ addrs (insert_at comp_ fresh np v p).2, x = fresh ∨ x ∈ addrs np := by
  induction np generalizing p with
  | null => simp [insert_at, addrs]
  | own a y q l r ihl ihr =>
    intro x hx
    simp only [insert_at] at hx
    split_ifs at hx
    · rw [mem_addrs_own] at hx ⊢
      rcases hx with h | h | h
      · rcases ihl _ x h with h | h
        · exact Or.inl h
        · exact Or.inr (Or.inl h)
      · exact Or.inr (Or.inr (Or.inl h))
      · exact Or.inr (Or.inr (Or.inr h))
    · rw [mem_addrs_own] at hx ⊢
      rcases hx with h | h | h
      · exact Or.inr (Or.inl h)
      · exact Or.inr (Or.inr (Or.inl h))
      · rcases ihr _ x h with h | h
        · exact Or.inl h
        · exact Or.inr (Or.inr (Or.inr h))
    · exact Or.inr hx

theorem insert_at_nodup (fresh : Nat) (np : node_ptr T) (v : T) (p : Option Nat)
    (hf : fresh ∉ addrs np) (hnd : (addrs np).Nodup) :
    (addrs (insert_at comp_ fresh np v p).2).Nodup := by
  induction np generalizing p with
  | null => simp [insert_at, addrs]
  | own a y q l r ihl ihr =>
    obtain ⟨ndl, ndr, hal, har, hdis⟩ := nodup_own.mp hnd
    rw [mem_addrs_own] at hf
    have hfl : fresh ∉ addrs l := fun h => hf (Or.inl h)
    have hfr : fresh ∉ addrs r := fun h => hf (Or.inr (Or.inr h))
    have hfa : a ≠ fresh := fun h => hf (Or.inr (Or.inl h.symm))
    simp only [insert_at]
    split_ifs
    · rw [nodup_own]
      refine ⟨ihl _ hfl ndl, ndr, ?_, har, ?_⟩
      · intro h
        rcases insert_at_mem_addrs _ _ _ _ a h with h | h
        · exact hfa h
        · exact hal h
      · intro x hx hxr
        rcases insert_at_mem_addrs _ _ _ _ x hx with h | h
        · exact hfr (h ▸ hxr)
        · exact hdis x h hxr
    · rw [nodup_own]
      refine ⟨ndl, ihr _ hfr ndr, hal, ?_, ?_⟩
      · intro h
        rcases insert_at_mem_addrs _ _ _ _ a h with h | h
        · exact hfa h
        · exact har h
      · intro x hx hxr
        rcases insert_at_mem_addrs _ _ _ _ x hxr with h | h
        · exact hfl (h ▸ hx)
        · exact hdis x hx h
    · exact hnd

theorem insert_at_parents_ok (fresh : Nat) (np : node_ptr T) (v : T) (p : Option Nat)
    (hp : parents_ok np p) : parents_ok (insert_at comp_ fresh np v p).2 p := by
  induction np generalizing p with
  | null => exact ⟨rfl, trivial, trivial⟩
  | own a y q l r ihl ihr =>
    simp only [insert_at]
    split_ifs
    · exact ⟨hp.1, ihl _ hp.2.1, hp.2.2⟩
    · exact ⟨hp.1, hp.2.1, ihr _ hp.2.2⟩
    · exact hp

theorem find_at_insert_at (hc : strict_weak_order comp_) (fresh : Nat) (np : node_ptr T)
    (v : T) (p : Option Nat) :
    (find_at comp_ (insert_at comp_ fresh np v p).2 v).isSome = true := by
  induction np generalizing p with
  | null => simp [insert_at, find_at, hc.irrefl]
  | own a y q l r ihl ihr =>
    simp only [insert_at]
    split_ifs with h1 h2
    · simp only [find_at, h1, if_true]
      exact ihl _
    · simp only [find_at, h1, h2, if_true]
      exact ihr _
    · simp [find_at, h1, h2]

/-! ## The member functions on trees that satisfy the class invariant -/

theorem size_pos_of_mem {root : node_ptr T} {n : Nat} (h : n ∈ addrs root) :
    1 ≤ size root := by
  cases root with
  | null => simp [addrs] at h
  | own a v p l r => simp only [size]; omega

theorem remove_of_find {t : binary_tree T} {v : T} {n : Nat}
    (hp : parents_ok t.root_ none) (hnd : (addrs t.root_).Nodup)
    (h : find_at comp_ t.root_ v = some n) :
    remove comp_ t v = .ok (true, ⟨del_at t.root_ n⟩) := by
  have hm := find_at_mem h
  have hr := remove_node_eq_del_at t.root_ none n (size t.root_) hp hnd hm
    (fun _ _ => rfl) (Or.inl (size_pos_of_mem hm))
  simp only [remove, h, hr]

theorem remove_of_not_find {t : binary_tree T} {v : T}
    (h : find_at comp_ t.root_ v = none) : remove comp_ t v = .ok (false, t) := by
  simp only [remove, h]

theorem remove_cases {t t' : binary_tree T} {v : T} {b : Bool}
    (hp : parents_ok t.root_ none) (hnd : (addrs t.root_).Nodup)
    (h : remove comp_ t v = .ok (b, t')) :
    t' = t ∨ ∃ n, n ∈ addrs t.root_ ∧ t' = ⟨del_at t.root_ n⟩ := by
  cases hf : find_at comp_ t.root_ v with
  | none =>
    rw [remove_of_not_find hf] at h
    simp only [Except.ok.injEq, Prod.mk.injEq] at h
    exact Or.inl h.2.symm
  | some n =>
    rw [remove_of_find hp hnd hf] at h
    simp only [Except.ok.injEq, Prod.mk.injEq] at h
    exact Or.inr ⟨n, find_at_mem hf, h.2.symm⟩

theorem reachable_structure {t : binary_tree T} (ht : reachable comp_ t) :
    parents_ok t.root_ none ∧ (addrs t.root_).Nodup := by
  induction ht with
  | empty => exact ⟨trivial, by simp [empty, addrs]⟩
  | insert fresh v _ hf ih =>
    exact ⟨insert_at_parents_ok _ _ _ _ ih.1, insert_at_nodup _ _ _ _ hf ih.2⟩
  | remove v b _ hr ih =>
    rcases remove_cases ih.1 ih.2 hr with rfl | ⟨n, _, rfl⟩
    · exact ih
    · exact ⟨del_at_parents_ok _ _ _ ih.1, del_at_nodup _ _ ih.2⟩

theorem ascending_del_at {root : node_ptr T} {n : Nat} (hnd : (addrs root).Nodup)
    (hn : n ∈ addrs root) (hs : ascending comp_ (values root)) :
    ascending comp_ (values (del_at root n)) := by
  obtain ⟨l1, x, l2, h1, -, h3⟩ := del_at_values root n hnd hn
  rw [h3]
  rw [h1] at hs
  exact List.Pairwise.sublist
    (List.Sublist.append (List.Sublist.refl l1) (List.sublist_cons_self x l2)) hs

theorem ascending_insert_at (hc : strict_weak_order comp_) (fresh : Nat) (np : node_ptr T)
    (v : T) (p : Option Nat) (hs : ascending comp_ (values np)) :
    ascending comp_ (values (insert_at comp_ fresh np v p).2) := by
  cases h : (insert_at comp_ fresh np v p).1
  · rw [insert_at_false _ _ _ _ h]
    exact hs
  · obtain ⟨l1, l2, e1, e2, e3, e4⟩ := insert_at_values hc fresh np v p hs h
    rw [e2]
    rw [e1] at hs
    exact ascending_insert hs e3 e4

theorem reachable_ascending_values (hc : strict_weak_order comp_) {t : binary_tree T}
    (ht : reachable comp_ t) : ascending comp_ (values t.root_) := by
  induction ht with
  | empty => simp [empty, values, ascending]
  | insert fresh v _ hf ih => exact ascending_insert_at hc _ _ _ _ ih
  | remove v b ht0 hr ih =>
    obtain ⟨hp, hnd⟩ := reachable_structure ht0
    rcases remove_cases hp hnd hr with rfl | ⟨n, hn, rfl⟩
    · exact ih
    · exact ascending_del_at hnd hn ih

theorem reachable_invariant (hc : strict_weak_order comp_) {t : binary_tree T}
    (ht : reachable comp_ t) : invariant comp_ t :=
  ⟨(reachable_structure ht).1, (reachable_structure ht).2, reachable_ascending_values hc ht⟩

theorem equiv_unique_in_ascending (hc : strict_weak_order comp_) {l1 l2 : List T} {x v : T}
    (hs : ascending comp_ (l1 ++ x :: l2)) (hx : equiv comp_ x v = true) :
    ∀ y ∈ l1 ++ l2, equiv comp_ y v = false := by
  simp only [ascending, List.pairwise_append, List.pairwise_cons, List.mem_cons] at hs
  obtain ⟨-, ⟨h2, -⟩, h3⟩ := hs
  intro y hy
  have hvx : equiv comp_ v x = true := by rw [equiv_symm]; exact hx
  by_contra hne
  have hyv : equiv comp_ y v = true := by simpa using hne
  have hyx := hc.equiv_trans _ _ _ hyv hvx
  rw [List.mem_append] at hy
  rcases hy with hy | hy
  · rw [not_equiv_of_comp (h3 y hy x (Or.inl rfl))] at hyx
    exact absurd hyx (by simp)
  · rw [not_equiv_of_comp_symm (h2 y hy)] at hyx
    exact absurd hyx (by simp)

theorem remove_ok_of_reachable {t : binary_tree T} (ht : reachable comp_ t) (v : T) :
    ∃ b t', remove comp_ t v = .ok (b, t') ∧ reachable comp_ t' := by
  obtain ⟨hp, hnd⟩ := reachable_structure ht
  cases hf : find_at comp_ t.root_ v with
  | none => exact ⟨false, t, remove_of_not_find hf, ht⟩
  | some n =>
    exact ⟨true, ⟨del_at t.root_ n⟩, remove_of_find hp hnd hf,
      reachable.remove v true ht (remove_of_find hp hnd hf)⟩

theorem less_long_strict_weak_order : strict_weak_order less_long := by
  refine ⟨?_, ?_, ?_⟩
  · intro a
    simp [less_long]
  · intro a b c h1 h2
    simp only [less_long, decide_eq_true_eq] at h1 h2 ⊢
    omega
  · intro a b c h1 h2
    simp only [equiv, less_long, Bool.and_eq_true, Bool.not_eq_true', decide_eq_false_iff_not,
      not_lt] at h1 h2 ⊢
    omega

theorem equiv_less_long {a b : Int} (h : equiv less_long a b = true) : a = b := by
  simp only [equiv, less_long, Bool.and_eq_true, Bool.not_eq_true', decide_eq_false_iff_not,
    not_lt] at h
  omega

theorem main_seed_reachable : reachable less_long (main_seed 1 2 3 4) := by
  unfold main_seed
  apply reachable.insert
  · apply reachable.insert
    · apply reachable.insert
      · apply reachable.insert
        · exact reachable.empty
        · decide
      · decide
    · decide
  · decide

/-! ## The claims of the specification -/

/-- C1: on a tree reachable from the empty tree, for a value `v` that compares
equal to a stored element, `remove(v)` returns true, afterwards `find(v)` is
false, and the sequence reported by `visit` is the previous one with exactly
the one element comparing equal to `v` taken out, the others kept in order. -/
theorem remove_present_removes_one (hc : strict_weak_order comp_) {t : binary_tree T}
    (ht : reachable comp_ t) (v : T)
    (hv : ∃ x ∈ visit_values t, equiv comp_ x v = true) :
    ∃ t', remove comp_ t v = .ok (true, t') ∧ find comp_ t' v = false ∧
      ∃ l1 x l2, visit_values t = l1 ++ x :: l2 ∧ equiv comp_ x v = true ∧
        visit_values t' = l1 ++ l2 ∧ ∀ y ∈ l1 ++ l2, equiv comp_ y v = false := by
  obtain ⟨hp, hnd, hs⟩ := reachable_invariant hc ht
  rw [visit_values_eq] at hv
  have hsome := (find_at_isSome_iff hc v hs).mpr hv
  obtain ⟨n, hn⟩ := Option.isSome_iff_exists.mp hsome
  obtain ⟨l1, x, l2, e1, e2, e3⟩ := del_at_values t.root_ n hnd (find_at_mem hn)
  obtain ⟨x', e4, e5⟩ := find_at_val hnd hn
  have hxx : x = x' := by
    rw [e2] at e4
    exact Option.some.inj e4
  subst hxx
  have huniq := equiv_unique_in_ascending hc (e1 ▸ hs) e5
  refine ⟨⟨del_at t.root_ n⟩, remove_of_find hp hnd hn, ?_, l1, x, l2, ?_, e5, ?_, huniq⟩
  · have hs' : ascending comp_ (values (del_at t.root_ n)) :=
      ascending_del_at hnd (find_at_mem hn) hs
    have hiff := find_at_isSome_iff hc v hs'
    rw [e3] at hiff
    unfold find
    cases hfi : (find_at comp_ (del_at t.root_ n) v).isSome
    · rfl
    · obtain ⟨y, hy, hye⟩ := hiff.mp hfi
      rw [huniq y hy] at hye
      exact absurd hye (by simp)
  · rw [visit_values_eq, e1]
  · rw [visit_values_eq, e3]

/-- C1, at the seed tree of `main` and the value 6. -/
theorem remove_present_removes_one_witness :
    ∃ t', remove less_long (main_seed 1 2 3 4) 6 = .ok (true, t') ∧
      find less_long t' 6 = false ∧
      ∃ l1 x l2, visit_values (main_seed 1 2 3 4) = l1 ++ x :: l2 ∧
        equiv less_long x 6 = true ∧
        visit_values t' = l1 ++ l2 ∧ ∀ y ∈ l1 ++ l2, equiv less_long y 6 = false :=
  remove_present_removes_one less_long_strict_weak_order main_seed_reachable 6
    ⟨6, by decide, by decide⟩

/-- C2: on a tree reachable from the empty tree, for a value `v` that compares
equal to no stored element, `insert(v)` returns true, afterwards `find(v)` is
true, and the sequence reported by `visit` is the previous one with `v` put at
its sorted position; inserting 6, 8, 4, 10 into the empty tree gives
`[4, 6, 8, 10]`. -/
theorem insert_absent_inserts_sorted (hc : strict_weak_order comp_) {t : binary_tree T}
    (ht : reachable comp_ t) (fresh : Nat) (v : T)
    (hv : ∀ x ∈ visit_values t, equiv comp_ x v = false) :
    (insert comp_ fresh t v).1 = true ∧ find comp_ (insert comp_ fresh t v).2 v = true ∧
      (∃ l1 l2, visit_values t = l1 ++ l2 ∧
        visit_values (insert comp_ fresh t v).2 = l1 ++ v :: l2 ∧
        (∀ y ∈ l1, comp_ y v = true) ∧ (∀ y ∈ l2, comp_ v y = true)) ∧
      ∀ a1 a2 a3 a4, visit_values (main_seed a1 a2 a3 a4) = [4, 6, 8, 10] := by
  obtain ⟨-, -, hs⟩ := reachable_invariant hc ht
  rw [visit_values_eq] at hv
  have hnone : (find_at comp_ t.root_ v).isSome = false := by
    cases hfi : (find_at comp_ t.root_ v).isSome
    · rfl
    · obtain ⟨y, hy, hye⟩ := (find_at_isSome_iff hc v hs).mp hfi
      rw [hv y hy] at hye
      exact absurd hye (by simp)
  have h1 : (insert_at comp_ fresh t.root_ v none).1 = true := by
    rw [insert_at_fst, hnone]
    rfl
  refine ⟨h1, find_at_insert_at hc _ _ _ _, ?_, ?_⟩
  · obtain ⟨l1, l2, e1, e2, e3, e4⟩ := insert_at_values hc fresh t.root_ v none hs h1
    exact ⟨l1, l2, by rw [visit_values_eq, e1], by rw [visit_values_eq]; exact e2, e3, e4⟩
  · intro a1 a2 a3 a4
    rw [visit_values_eq]
    rfl

/-- C2, at the seed tree of `main` and the value 7. -/
theorem insert_absent_inserts_sorted_witness :
    (insert less_long 5 (main_seed 1 2 3 4) 7).1 = true ∧
      find less_long (insert less_long 5 (main_seed 1 2 3 4) 7).2 7 = true ∧
      (∃ l1 l2, visit_values (main_seed 1 2 3 4) = l1 ++ l2 ∧
        visit_values (insert less_long 5 (main_seed 1 2 3 4) 7).2 = l1 ++ 7 :: l2 ∧
        (∀ y ∈ l1, less_long y 7 = true) ∧ (∀ y ∈ l2, less_long 7 y = true)) ∧
      ∀ a1 a2 a3 a4, visit_values (main_seed a1 a2 a3 a4) = [4, 6, 8, 10] :=
  insert_absent_inserts_sorted less_long_strict_weak_order main_seed_reachable 5 7
    (by decide)

/-- C3: after every finite sequence of `insert` and `remove` calls on an
initially empty tree, the values reported by `visit` are strictly ascending:
each element orders before every later one, in particular before the next,
no two stored elements compare equal, and the order invariant holds at
every node. -/
theorem visit_strictly_ascending (hc : strict_weak_order comp_) {t : binary_tree T}
    (ht : reachable comp_ t) :
    (visit_values t).Pairwise (fun a b => comp_ a b = true ∧ equiv comp_ a b = false) ∧
      (visit_values t).Chain' (fun a b => comp_ a b = true) ∧
      bst_order comp_ t.root_ = true := by
  have hs := reachable_ascending_values hc ht
  rw [visit_values_eq]
  exact ⟨List.Pairwise.imp (fun h => ⟨h, not_equiv_of_comp h⟩) hs, List.Pairwise.chain' hs,
    bst_order_of_ascending hs⟩

/-- C3, at the seed tree of `main`. -/
theorem visit_strictly_ascending_witness :
    (visit_values (main_seed 1 2 3 4)).Pairwise
        (fun a b => less_long a b = true ∧ equiv less_long a b = false) ∧
      (visit_values (main_seed 1 2 3 4)).Chain' (fun a b => less_long a b = true) ∧
      bst_order less_long (main_seed 1 2 3 4).root_ = true :=
  visit_strictly_ascending less_long_strict_weak_order main_seed_reachable

/-- C5: on a tree reachable from the empty tree, for a value `v` that compares
equal to a stored element, `insert(v)` returns false and leaves the tree as
it was: the same nodes, values, child and parent links, hence the same
`(depth, value)` pairs reported by `visit`. -/
theorem insert_present_unchanged (hc : strict_weak_order comp_) {t : binary_tree T}
    (ht : reachable comp_ t) (fresh : Nat) (v : T)
    (hv : ∃ x ∈ visit_values t, equiv comp_ x v = true) :
    insert comp_ fresh t v = (false, t) ∧ items (insert comp_ fresh t v).2 = items t := by
  obtain ⟨-, -, hs⟩ := reachable_invariant hc ht
  rw [visit_values_eq] at hv
  have hsome := (find_at_isSome_iff hc v hs).mpr hv
  have h1 : (insert_at comp_ fresh t.root_ v none).1 = false := by
    rw [insert_at_fst, hsome]
    rfl
  have h2 := insert_at_false fresh t.root_ v none h1
  have h3 : insert comp_ fresh t v = (false, t) := by
    unfold insert
    rw [h1, h2]
  exact ⟨h3, by rw [h3]⟩

/-- C5, at the seed tree of `main` and the value 8. -/
theorem insert_present_unchanged_witness :
    insert less_long 5 (main_seed 1 2 3 4) 8 = (false, main_seed 1 2 3 4) ∧
      items (insert less_long 5 (main_seed 1 2 3 4) 8).2 = items (main_seed 1 2 3 4) :=
  insert_present_unchanged less_long_strict_weak_order main_seed_reachable 5 8
    ⟨8, by decide, by decide⟩

/-- C6: on a tree reachable from the empty tree, for a value `v` that compares
equal to no stored element, `remove(v)` returns false and leaves the tree as
it was: the same nodes, values, child and parent links, hence the same
`(depth, value)` pairs reported by `visit`. -/
theorem remove_absent_unchanged (hc : strict_weak_order comp_) {t : binary_tree T}
    (ht : reachable comp_ t) (v : T)
    (hv : ∀ x ∈ visit_values t, equiv comp_ x v = false) :
    remove comp_ t v = .ok (false, t) := by
  obtain ⟨-, -, hs⟩ := reachable_invariant hc ht
  rw [visit_values_eq] at hv
  apply remove_of_not_find
  cases hf : find_at comp_ t.root_ v with
  | none => rfl
  | some n =>
    obtain ⟨y, hy, hye⟩ := (find_at_isSome_iff hc v hs).mp (by rw [hf]; rfl)
    rw [hv y hy] at hye
    exact absurd hye (by simp)

/-- C6, at the seed tree of `main` and the value 7. -/
theorem remove_absent_unchanged_witness :
    remove less_long (main_seed 1 2 3 4) 7 = .ok (false, main_seed 1 2 3 4) :=
  remove_absent_unchanged less_long_strict_weak_order main_seed_reachable 7 (by decide)

/-- C7: on a tree reachable from the empty tree, `find(v)` returns true exactly
when some stored element compares equal to `v`; where comparing equal means
being the same value, exactly when `v` occurs in the sequence reported by
`visit`.  `find` computes a result only, it has no tree to return. -/
theorem find_true_iff_stored (hc : strict_weak_order comp_) {t : binary_tree T}
    (ht : reachable comp_ t) (v : T) :
    (find comp_ t v = true ↔ ∃ x ∈ visit_values t, equiv comp_ x v = true) ∧
      ((∀ a b, equiv comp_ a b = true → a = b) →
        (find comp_ t v = true ↔ v ∈ visit_values t)) := by
  obtain ⟨-, -, hs⟩ := reachable_invariant hc ht
  have h1 : find comp_ t v = true ↔ ∃ x ∈ visit_values t, equiv comp_ x v = true := by
    rw [visit_values_eq]
    exact find_at_isSome_iff hc v hs
  refine ⟨h1, fun hanti => ?_⟩
  rw [h1]
  constructor
  · rintro ⟨x, hx, he⟩
    rw [← hanti x v he]
    exact hx
  · intro hv
    exact ⟨v, hv, equiv_refl hc v⟩

/-- C7, at the seed tree of `main` and the value 10. -/
theorem find_true_iff_stored_witness :
    (find less_long (main_seed 1 2 3 4) 10 = true ↔
        ∃ x ∈ visit_values (main_seed 1 2 3 4), equiv less_long x 10 = true) ∧
      (find less_long (main_seed 1 2 3 4) 10 = true ↔
        10 ∈ visit_values (main_seed 1 2 3 4)) :=
  ⟨(find_true_iff_stored less_long_strict_weak_order main_seed_reachable 10).1,
    (find_true_iff_stored less_long_strict_weak_order main_seed_reachable 10).2
      (fun _ _ h => equiv_less_long h)⟩

/-- C8: for a tree of any shape whose height fits `size_t`, `is_balanced()`
returns true exactly when at every node the heights of the two subtrees
differ by at most 1; the early returns do not change the result, and the
empty tree is reported balanced. -/
theorem is_balanced_iff_balanced (t : binary_tree T) (h0 : Nat)
    (hh : height t.root_ < SIZE_MOD) :
    (is_balanced t h0 = true ↔ balanced t.root_) ∧
      is_balanced (empty : binary_tree T) h0 = true := by
  constructor
  · unfold is_balanced
    rw [(is_balanced_spec t.root_ h0 hh).1]
    exact decide_eq_true_iff
  · rfl

/-- C8, at the seed tree of `main`. -/
theorem is_balanced_iff_balanced_witness :
    (is_balanced (main_seed 1 2 3 4) 0 = true ↔ balanced (main_seed 1 2 3 4).root_) ∧
      is_balanced (empty : binary_tree Int) 0 = true :=
  is_balanced_iff_balanced (main_seed 1 2 3 4) 0 (by decide)

/-- C9: on a tree whose height fits `size_t`, `visit` calls its visitor once per
node, in in-order (the left subtree, the node, the right subtree), with the
value of the node and its depth, 1 at the root and one more at each level;
on the empty tree the visitor is not called. -/
theorem visit_calls_in_order {σ : Type} (t : binary_tree T) (vis : σ → Nat → T → σ) (s : σ)
    (hh : height t.root_ < SIZE_MOD) :
    t.visit vis s = (inorder_depths t.root_ 1).foldl (fun s x => vis s x.1 x.2) s ∧
      (inorder_depths t.root_ 1).length = size t.root_ ∧
      (empty : binary_tree T).visit vis s = s := by
  refine ⟨?_, inorder_depths_length _ _, rfl⟩
  unfold visit
  rw [visit_eq_foldl, visit_trace_eq_inorder_depths t.root_ 1 1]
  intro _
  exact ⟨rfl, by omega⟩

/-- C9, at the seed tree of `main` and the visitor of the command loop. -/
theorem visit_calls_in_order_witness :
    (main_seed 1 2 3 4).visit main_vis (0, []) =
        (inorder_depths (main_seed 1 2 3 4).root_ 1).foldl
          (fun s x => main_vis s x.1 x.2) (0, []) ∧
      (inorder_depths (main_seed 1 2 3 4).root_ 1).length = size (main_seed 1 2 3 4).root_ ∧
      (empty : binary_tree Int).visit main_vis (0, []) = (0, []) :=
  visit_calls_in_order (main_seed 1 2 3 4) main_vis (0, []) (by decide)

end binary_tree

/-- C10, as stated: the seed tree of `main` does not have height 2, neither by
the definition of height nor as the command loop computes it. -/
theorem main_seed_height_ne_two :
    ¬ (height (main_seed 1 2 3 4).root_ = 2) ∧ ¬ ((main_scan (main_seed 1 2 3 4)).1 = 2) := by
  constructor <;> decide

/-- C10, amended: after inserting 6, 8, 4, 10 into an empty tree the height
is 3 (10 goes below 8, which is below 6), by the definition of height and as
the maximal depth the command loop computes from `visit`. -/
theorem main_seed_height_three (a1 a2 a3 a4 : Nat) :
    height (main_seed a1 a2 a3 a4).root_ = 3 ∧ (main_scan (main_seed a1 a2 a3 a4)).1 = 3 := by
  constructor <;> rfl


/-! ## Removal never fails the assertion, and recurses at most once -/

namespace binary_tree

variable {T : Type} {comp_ : T → T → Bool}

theorem parentless_is_root {root : node_ptr T} {n b : Nat} {x : T} {l r : node_ptr T}
    (hp : parents_ok root none) (hd : deref root n = own b x none l r) :
    root.get = some n := by
  cases root with
  | null => simp [deref] at hd
  | own a v p cl cr =>
    by_cases han : a = n
    · simp [node_ptr.get, han]
    · exfalso
      by_cases hnl : n ∈ addrs cl
      · rw [deref_own_left han hnl] at hd
        exact deref_parent_ne_none hp.2.1 (by simp) hd rfl
      · rw [deref_own_right han hnl] at hd
        exact deref_parent_ne_none hp.2.2 (by simp) hd rfl

theorem remove_node_no_assert_failure (fuel : Nat) : ∀ (root : node_ptr T) (n : Nat),
    parents_ok root none → remove_node fuel root n ≠ .error .assert_failed := by
  induction fuel with
  | zero => intro root n _; simp [remove_node]
  | succ fuel ih =>
    intro root n hp
    cases hd : deref root n with
    | null => rw [remove_node_null hd]; simp
    | own b bv bp bl br =>
      cases hbl : bl.to_bool <;> cases hbr : br.to_bool
      · cases bp with
        | none =>
          rw [remove_node_leaf_root hd hbl hbr, if_pos (parentless_is_root hp hd)]
          simp
        | some q =>
          cases hq : deref root q with
          | null => rw [remove_node_leaf_null hd hbl hbr hq]; simp
          | own c cv cp cl cr =>
            rw [remove_node_leaf_child hd hbl hbr hq]
            split_ifs <;> simp
      · rw [remove_node_right hd hbl hbr]; simp
      · rw [remove_node_left hd hbl hbr]; simp
      · cases hm : leftmost br with
        | null =>
          exact absurd hm (leftmost_ne_null (fun e => by rw [e] at hbr; simp [to_bool] at hbr))
        | own m mv mp ml mr =>
          rw [remove_node_both hd hbl hbr hm]
          exact ih _ _ (parents_ok_modify_set_v _ _ hp)

theorem insert_at_mem_fresh (fresh : Nat) (np : node_ptr T) (v : T) (p : Option Nat)
    (h : (insert_at comp_ fresh np v p).1 = true) :
    fresh ∈ addrs (insert_at comp_ fresh np v p).2 := by
  induction np generalizing p with
  | null => simp [insert_at, addrs]
  | own a x q l r ihl ihr =>
    simp only [insert_at] at h ⊢
    split_ifs at h ⊢
    · rw [mem_addrs_own]
      exact Or.inl (ihl _ h)
    · rw [mem_addrs_own]
      exact Or.inr (Or.inr (ihr _ h))

theorem find_at_insert_at_eq (hc : strict_weak_order comp_) (fresh : Nat) (np : node_ptr T)
    (v : T) (p : Option Nat) (h : (insert_at comp_ fresh np v p).1 = true) :
    find_at comp_ (insert_at comp_ fresh np v p).2 v = some fresh := by
  induction np generalizing p with
  | null => simp [insert_at, find_at, hc.irrefl]
  | own a x q l r ihl ihr =>
    simp only [insert_at] at h ⊢
    split_ifs at h ⊢ with h1 h2
    · simp only [find_at, h1, if_true]
      exact ihl _ h
    · simp only [find_at, h1, h2, if_true]
      exact ihr _ h

theorem del_at_insert_at (fresh : Nat) (np : node_ptr T) (v : T) (p : Option Nat)
    (hf : fresh ∉ addrs np) (h : (insert_at comp_ fresh np v p).1 = true) :
    del_at (insert_at comp_ fresh np v p).2 fresh = np := by
  induction np generalizing p with
  | null => simp [insert_at, del_at, to_bool]
  | own a x q l r ihl ihr =>
    rw [mem_addrs_own] at hf
    have hfl : fresh ∉ addrs l := fun e => hf (Or.inl e)
    have hfr : fresh ∉ addrs r := fun e => hf (Or.inr (Or.inr e))
    have hfa : a ≠ fresh := fun e => hf (Or.inr (Or.inl e.symm))
    simp only [insert_at] at h ⊢
    split_ifs at h ⊢
    · rw [del_at_left hfa (insert_at_mem_fresh _ _ _ _ h), ihl _ hfl h]
    · rw [del_at_right hfa hfl, ihr _ hfr h]

theorem deref_insert_at (fresh : Nat) (np : node_ptr T) (v : T) (p : Option Nat)
    (hf : fresh ∉ addrs np) (h : (insert_at comp_ fresh np v p).1 = true) :
    ∃ q, deref (insert_at comp_ fresh np v p).2 fresh = own fresh v q null null := by
  induction np generalizing p with
  | null => exact ⟨p, by simp [insert_at, deref]⟩
  | own a x q l r ihl ihr =>
    rw [mem_addrs_own] at hf
    have hfl : fresh ∉ addrs l := fun e => hf (Or.inl e)
    have hfr : fresh ∉ addrs r := fun e => hf (Or.inr (Or.inr e))
    have hfa : a ≠ fresh := fun e => hf (Or.inr (Or.inl e.symm))
    simp only [insert_at] at h ⊢
    split_ifs at h ⊢
    · rw [deref_own_left hfa (insert_at_mem_fresh _ _ _ _ h)]
      exact ihl _ hfl h
    · rw [deref_own_right hfa hfl]
      exact ihr _ hfr h

theorem not_find_of_absent (hc : strict_weak_order comp_) {t : binary_tree T}
    (ht : reachable comp_ t) {v : T}
    (hv : ∀ x ∈ visit_values t, equiv comp_ x v = false) :
    (find_at comp_ t.root_ v).isSome = false := by
  have hs := reachable_ascending_values hc ht
  rw [visit_values_eq] at hv
  cases hfi : (find_at comp_ t.root_ v).isSome
  · rfl
  · obtain ⟨y, hy, hye⟩ := (find_at_isSome_iff hc v hs).mp hfi
    rw [hv y hy] at hye
    exact absurd hye (by simp)

theorem find_of_present (hc : strict_weak_order comp_) {t : binary_tree T}
    (ht : reachable comp_ t) {v : T}
    (hv : ∃ x ∈ visit_values t, equiv comp_ x v = true) :
    ∃ n, find_at comp_ t.root_ v = some n := by
  have hs := reachable_ascending_values hc ht
  rw [visit_values_eq] at hv
  exact Option.isSome_iff_exists.mp ((find_at_isSome_iff hc v hs).mpr hv)

/-- C12: on a tree reachable from the empty tree, `remove(v)` never fails the
assertion `root_.get() == n`, nor does any call of `remove(node*)`: a node
without a parent is the node held by the root slot. -/
theorem root_assertion_never_fails {t : binary_tree T} (ht : reachable comp_ t) :
    (∀ v, remove comp_ t v ≠ .error .assert_failed) ∧
      (∀ fuel n, remove_node fuel t.root_ n ≠ .error .assert_failed) ∧
      (∀ n b x l r, deref t.root_ n = own b x none l r → t.root_.get = some n) := by
  obtain ⟨hp, hnd⟩ := reachable_structure ht
  refine ⟨?_, fun fuel n => remove_node_no_assert_failure fuel _ n hp,
    fun n b x l r hd => parentless_is_root hp hd⟩
  intro v
  obtain ⟨b, t', h, -⟩ := remove_ok_of_reachable ht v
  rw [h]
  simp

/-- C12, at the tree holding only 6, whose node has no children and no
parent. -/
theorem root_assertion_never_fails_witness :
    (∀ v, remove less_long (insert less_long 1 empty 6).2 v ≠ .error .assert_failed) ∧
      (∀ fuel n,
        remove_node fuel (insert less_long 1 empty 6).2.root_ n ≠ .error .assert_failed) ∧
      (∀ n b x l r, deref (insert less_long 1 empty 6).2.root_ n = own b x none l r →
        (insert less_long 1 empty 6).2.root_.get = some n) :=
  root_assertion_never_fails (reachable.insert 1 6 reachable.empty (by decide))

/-- C13: on a reachable tree, `remove(node*)` on a node of the tree returns
with fuel for one recursive call; on a node lacking a child it returns with
no recursive call; on a node with two children the walk to the left from the
right child ends at a node `m` without left child, and the recursive call on
`m` returns without recursing again. -/
theorem remove_node_recurses_at_most_once {t : binary_tree T} (ht : reachable comp_ t)
    {n : Nat} (hn : n ∈ addrs t.root_) :
    (∃ root', ∀ k, remove_node (k + 2) t.root_ n = .ok root') ∧
      (has_both (deref t.root_ n) = false →
        ∃ root', ∀ k, remove_node (k + 1) t.root_ n = .ok root') ∧
      (∀ b bv bp bl br, deref t.root_ n = own b bv bp bl br → bl.to_bool = true →
        br.to_bool = true →
        ∃ m mv mp mr root', leftmost br = own m mv mp null mr ∧
          remove_node 1 (modify_at t.root_ n (set_v mv)) m = .ok root') := by
  obtain ⟨hp, hnd⟩ := reachable_structure ht
  have h2 : ∀ k, remove_node (k + 2) t.root_ n = .ok (del_at t.root_ n) := fun k =>
    remove_node_eq_del_at t.root_ none n (k + 1) hp hnd hn (fun _ _ => rfl) (Or.inl (by omega))
  refine ⟨⟨_, h2⟩, fun hb => ⟨del_at t.root_ n, fun k =>
    remove_node_eq_del_at t.root_ none n k hp hnd hn (fun _ _ => rfl) (Or.inr hb)⟩, ?_⟩
  intro b bv bp bl br hd hbl hbr
  cases hm : leftmost br with
  | null =>
    exact absurd hm (leftmost_ne_null (fun e => by rw [e] at hbr; simp [to_bool] at hbr))
  | own m mv mp ml mr =>
    have hml := (leftmost_mem hm).2
    subst hml
    refine ⟨m, mv, mp, mr, del_at t.root_ n, rfl, ?_⟩
    rw [← remove_node_both hd hbl hbr hm]
    exact h2 0

/-- C13, at the seed tree of `main` and its root node, which has two
children. -/
theorem remove_node_recurses_at_most_once_witness :
    (∃ root', ∀ k, remove_node (k + 2) (main_seed 1 2 3 4).root_ 1 = .ok root') ∧
      (has_both (deref (main_seed 1 2 3 4).root_ 1) = false →
        ∃ root', ∀ k, remove_node (k + 1) (main_seed 1 2 3 4).root_ 1 = .ok root') ∧
      (∀ b bv bp bl br, deref (main_seed 1 2 3 4).root_ 1 = own b bv bp bl br →
        bl.to_bool = true → br.to_bool = true →
        ∃ m mv mp mr root', leftmost br = own m mv mp null mr ∧
          remove_node 1 (modify_at (main_seed 1 2 3 4).root_ 1 (set_v mv)) m = .ok root') :=
  remove_node_recurses_at_most_once main_seed_reachable (by decide)

/-- C18: on a reachable tree, for a value `v` comparing equal to no stored
element and an address no live node has, `insert(v)` returns true, the new
node is a leaf, and `remove(v)` on the result returns true and gives back
exactly the tree there was: the same nodes with the same values, children
and parent pointers. -/
theorem insert_then_remove_restores (hc : strict_weak_order comp_) {t : binary_tree T}
    (ht : reachable comp_ t) (fresh : Nat) (hf : fresh ∉ addrs t.root_) (v : T)
    (hv : ∀ x ∈ visit_values t, equiv comp_ x v = false) :
    (insert comp_ fresh t v).1 = true ∧
      (∃ q, deref (insert comp_ fresh t v).2.root_ fresh = own fresh v q null null) ∧
      remove comp_ (insert comp_ fresh t v).2 v = .ok (true, t) ∧
      parents_ok t.root_ none := by
  have h1 : (insert_at comp_ fresh t.root_ v none).1 = true := by
    rw [insert_at_fst, not_find_of_absent hc ht hv]
    rfl
  obtain ⟨hp, hnd⟩ := reachable_structure (reachable.insert fresh v ht hf)
  refine ⟨h1, deref_insert_at fresh _ v none hf h1, ?_, (reachable_structure ht).1⟩
  rw [remove_of_find hp hnd (find_at_insert_at_eq hc fresh t.root_ v none h1)]
  simp only [insert, del_at_insert_at fresh t.root_ v none hf h1]

/-- C18, at the seed tree of `main`, the value 7 and the address 5. -/
theorem insert_then_remove_restores_witness :
    (insert less_long 5 (main_seed 1 2 3 4) 7).1 = true ∧
      (∃ q, deref (insert less_long 5 (main_seed 1 2 3 4) 7).2.root_ 5 =
        own 5 7 q null null) ∧
      remove less_long (insert less_long 5 (main_seed 1 2 3 4) 7).2 7 =
        .ok (true, main_seed 1 2 3 4) ∧
      parents_ok (main_seed 1 2 3 4).root_ none :=
  insert_then_remove_restores less_long_strict_weak_order main_seed_reachable 5
    (by decide) 7 (by decide)

end binary_tree


/-! ## The heights computed by the balance check and by the command loop -/

namespace node_ptr

variable {T σ : Type}

theorem is_balanced_final_own {a : Nat} {v : T} {p : Option Nat} {l r : node_ptr T}
    {lh rh : Nat} (hf : detail.is_balanced_final (own a v p l r) = some (lh, rh)) :
    (detail.is_balanced l 0).1 = true ∧ (detail.is_balanced r 0).1 = true ∧
      lh = (if (detail.is_balanced l 0).2 > (detail.is_balanced r 0).2
        then (detail.is_balanced r 0).2 else (detail.is_balanced l 0).2) ∧
      rh = (if (detail.is_balanced l 0).2 > (detail.is_balanced r 0).2
        then (detail.is_balanced l 0).2 else (detail.is_balanced r 0).2) := by
  cases e1 : (detail.is_balanced l 0).1
  · simp [detail.is_balanced_final, e1] at hf
  · cases e2 : (detail.is_balanced r 0).1
    · simp [detail.is_balanced_final, e1, e2] at hf
    · simp only [detail.is_balanced_final, e1, e2, Bool.not_true, Bool.false_eq_true, if_false,
        Option.some.injEq, Prod.mk.injEq] at hf
      exact ⟨rfl, rfl, hf.1.symm, hf.2.symm⟩

theorem is_balanced_of_final (root : node_ptr T) (h0 lh rh : Nat)
    (hf : detail.is_balanced_final root = some (lh, rh)) :
    detail.is_balanced root h0 =
      (decide (size_sub rh lh ≤ 1), if root.to_bool then size_add rh 1 else 0) := by
  cases root with
  | null =>
    simp only [detail.is_balanced_final, Option.some.injEq, Prod.mk.injEq] at hf
    obtain ⟨rfl, rfl⟩ := hf
    simp [detail.is_balanced, to_bool]
  | own a v p l r =>
    obtain ⟨e1, e2, e3, e4⟩ := is_balanced_final_own hf
    simp only [detail.is_balanced, e1, e2, Bool.not_true, Bool.false_eq_true, if_false,
      to_bool, if_true, ← e3, ← e4]

theorem is_balanced_of_not_final (root : node_ptr T) (h0 : Nat)
    (hf : detail.is_balanced_final root = none) :
    detail.is_balanced root h0 = (false, h0) := by
  cases root with
  | null => simp [detail.is_balanced_final] at hf
  | own a v p l r =>
    cases e1 : (detail.is_balanced l 0).1
    · simp [detail.is_balanced, e1]
    · cases e2 : (detail.is_balanced r 0).1
      · simp [detail.is_balanced, e1, e2]
      · simp [detail.is_balanced_final, e1, e2] at hf

theorem is_balanced_snd_lt (root : node_ptr T) (h0 : Nat)
    (h : (detail.is_balanced root h0).1 = true) :
    (detail.is_balanced root h0).2 < SIZE_MOD := by
  have hpos : 0 < SIZE_MOD := by have := SIZE_MOD_pos; omega
  cases hf : detail.is_balanced_final root with
  | none =>
    rw [is_balanced_of_not_final root h0 hf] at h
    simp at h
  | some lr =>
    obtain ⟨lh, rh⟩ := lr
    rw [is_balanced_of_final root h0 lh rh hf]
    simp only
    split_ifs
    · exact Nat.mod_lt _ hpos
    · exact hpos

theorem final_locals_le (root : node_ptr T) (lh rh : Nat)
    (hf : detail.is_balanced_final root = some (lh, rh)) :
    lh ≤ rh ∧ rh < SIZE_MOD := by
  have hpos : 0 < SIZE_MOD := by have := SIZE_MOD_pos; omega
  cases root with
  | null =>
    simp only [detail.is_balanced_final, Option.some.injEq, Prod.mk.injEq] at hf
    obtain ⟨rfl, rfl⟩ := hf
    exact ⟨le_refl 0, hpos⟩
  | own a v p l r =>
    obtain ⟨e1, e2, e3, e4⟩ := is_balanced_final_own hf
    have b1 := is_balanced_snd_lt l 0 e1
    have b2 := is_balanced_snd_lt r 0 e2
    rw [e3, e4]
    split_ifs with h3
    · exact ⟨le_of_lt h3, b1⟩
    · exact ⟨not_lt.mp h3, b2⟩

theorem final_locals_heights {a : Nat} {v : T} {p : Option Nat} {l r : node_ptr T}
    {lh rh : Nat} (hh : height (own a v p l r) < SIZE_MOD)
    (hf : detail.is_balanced_final (own a v p l r) = some (lh, rh)) :
    lh = min (height l) (height r) ∧ rh = max (height l) (height r) := by
  have hl : height l < SIZE_MOD := by
    have : height l ≤ max (height l) (height r) := le_max_left _ _
    simp only [height] at hh; omega
  have hr : height r < SIZE_MOD := by
    have : height r ≤ max (height l) (height r) := le_max_right _ _
    simp only [height] at hh; omega
  obtain ⟨e1, e2, e3, e4⟩ := is_balanced_final_own hf
  have b1 : balanced l := by
    have := (is_balanced_spec l 0 hl).1
    rw [e1] at this
    exact of_decide_eq_true this.symm
  have b2 : balanced r := by
    have := (is_balanced_spec r 0 hr).1
    rw [e2] at this
    exact of_decide_eq_true this.symm
  rw [(is_balanced_spec l 0 hl).2 b1, (is_balanced_spec r 0 hr).2 b2] at e3 e4
  rw [e3, e4]
  split_ifs with h3
  · exact ⟨(min_eq_right (le_of_lt h3)).symm, (max_eq_left (le_of_lt h3)).symm⟩
  · exact ⟨(min_eq_left (not_lt.mp h3)).symm, (max_eq_right (not_lt.mp h3)).symm⟩

theorem is_balanced_height_of_final (root : node_ptr T) (h0 : Nat)
    (hh : height root < SIZE_MOD) (hf : detail.is_balanced_final root ≠ none) :
    (detail.is_balanced root h0).2 = height root := by
  cases hfe : detail.is_balanced_final root with
  | none => exact absurd hfe hf
  | some lr =>
    obtain ⟨lh, rh⟩ := lr
    rw [is_balanced_of_final root h0 lh rh hfe]
    cases root with
    | null => simp [to_bool, height]
    | own a v p l r =>
      obtain ⟨-, e2⟩ := final_locals_heights hh hfe
      simp only [to_bool, if_true]
      simp only [height] at hh ⊢
      rw [e2, size_add_of_lt (by omega)]
      omega

/-- Largest depth in an in-order walk that starts at depth `d`. -/
theorem foldl_max_inorder_depths (root : node_ptr T) (m d : Nat) :
    ((inorder_depths root d).map Prod.fst).foldl max m =
      max m (if height root = 0 then 0 else d + height root - 1) := by
  induction root generalizing m d with
  | null => simp [inorder_depths, height]
  | own a v p l r ihl ihr =>
    simp only [inorder_depths, List.map_append, List.map_cons, List.foldl_append,
      List.foldl_cons, ihl, ihr, height]
    have h1 : ¬ (1 + max (height l) (height r) = 0) := by omega
    rw [if_neg h1]
    rcases Nat.le_total (height l) (height r) with h | h
    · rw [max_eq_right h]
      split_ifs <;> simp only [Nat.max_def] <;> split_ifs <;> omega
    · rw [max_eq_left h]
      split_ifs <;> simp only [Nat.max_def] <;> split_ifs <;> omega

theorem foldl_max_fst (g : σ → Nat → T → σ) (xs : List (Nat × T)) (m : Nat) (s : σ) :
    (xs.foldl (fun (s : Nat × σ) x => (max s.1 x.1, g s.2 x.1 x.2)) (m, s)).1 =
      (xs.map Prod.fst).foldl max m := by
  induction xs generalizing m s with
  | nil => rfl
  | cons x xs ih => simp only [List.foldl_cons, List.map_cons, ih]

end node_ptr


namespace binary_tree

variable {T σ : Type} {comp_ : T → T → Bool}

/-- C19, as stated: on the tree built by inserting 1, 2, 3, 4, 5 the command
loop derives the height 5 from `visit`, which is the height of the tree,
while `detail::is_balanced` returns early from the unbalanced right subtree
and stores no height: its out-parameter keeps the value it had, 77 or 0. -/
theorem is_balanced_stores_no_height_on_chain :
    (main_scan (insert_seq less_long [(1, 1), (2, 2), (3, 3), (4, 4), (5, 5)] empty)).1 = 5 ∧
      height (insert_seq less_long [(1, 1), (2, 2), (3, 3), (4, 4), (5, 5)] empty).root_ = 5 ∧
      detail.is_balanced
        (insert_seq less_long [(1, 1), (2, 2), (3, 3), (4, 4), (5, 5)] empty).root_ 77 =
          (false, 77) ∧
      (detail.is_balanced
        (insert_seq less_long [(1, 1), (2, 2), (3, 3), (4, 4), (5, 5)] empty).root_ 0).2 ≠
          (main_scan (insert_seq less_long [(1, 1), (2, 2), (3, 3), (4, 4), (5, 5)]
            empty)).1 := by
  refine ⟨by decide, by decide, by decide, by decide⟩

/-- C19, amended: on a tree whose height fits `size_t`, the largest depth
`visit` passes to its visitor, 0 when the visitor is not called, is the
height of the tree; so is the first component the visitor of the command
loop computes; `detail::is_balanced` stores that same height when it reaches
its final return, and stores nothing when it returns early. -/
theorem visit_max_depth_eq_height (t : binary_tree T) (hh : height t.root_ < SIZE_MOD) :
    t.visit (fun m h _ => max m h) 0 = height t.root_ ∧
      (∀ (g : σ → Nat → T → σ) (s : σ),
        (t.visit (fun (s : Nat × σ) h v => (max s.1 h, g s.2 h v)) (0, s)).1 =
          height t.root_) ∧
      (∀ h0, detail.is_balanced_final t.root_ ≠ none →
        (detail.is_balanced t.root_ h0).2 = height t.root_) ∧
      (∀ h0, detail.is_balanced_final t.root_ = none →
        detail.is_balanced t.root_ h0 = (false, h0)) := by
  have hd : visit_trace t.root_ 1 = inorder_depths t.root_ 1 :=
    visit_trace_eq_inorder_depths t.root_ 1 1 (fun _ => ⟨rfl, by omega⟩)
  have hm : ((inorder_depths t.root_ 1).map Prod.fst).foldl max 0 = height t.root_ := by
    rw [foldl_max_inorder_depths]
    split_ifs with h
    · simp [h]
    · simp only [Nat.zero_max]
      omega
  refine ⟨?_, ?_, fun h0 hf => is_balanced_height_of_final t.root_ h0 hh hf,
    fun h0 hf => is_balanced_of_not_final t.root_ h0 hf⟩
  · unfold visit
    rw [visit_eq_foldl, hd, ← hm]
    generalize inorder_depths t.root_ 1 = xs
    generalize (0 : Nat) = m
    induction xs generalizing m with
    | nil => rfl
    | cons x xs ih => simp only [List.foldl_cons, List.map_cons, ih]
  · intro g s
    unfold visit
    rw [visit_eq_foldl, hd, foldl_max_fst, hm]

/-- C19 amended, at the seed tree of `main` and the visitor of the command
loop. -/
theorem visit_max_depth_eq_height_witness :
    (main_scan (main_seed 1 2 3 4)).1 = height (main_seed 1 2 3 4).root_ ∧
      (detail.is_balanced (main_seed 1 2 3 4).root_ 0).2 = height (main_seed 1 2 3 4).root_ :=
  ⟨(visit_max_depth_eq_height (main_seed 1 2 3 4) (by decide)).2.1
      (fun items h v => items ++ [(h, v)]) [],
    (@visit_max_depth_eq_height Int Unit (main_seed 1 2 3 4) (by decide)).2.2.1 0
      (by decide)⟩

/-- C20: whenever `detail::is_balanced` reaches its final return, with locals
`lh` and `rh`, then `lh <= rh`, the subtraction `rh - lh` on `size_t` does
not wrap around, the result is the comparison `rh - lh <= 1`, and on a tree
whose height fits `size_t` the difference is the absolute difference of the
heights of the two subtrees. -/
theorem is_balanced_subtraction_no_wrap (root : node_ptr T) (lh rh : Nat)
    (hf : detail.is_balanced_final root = some (lh, rh)) :
    lh ≤ rh ∧ size_sub rh lh = rh - lh ∧
      (∀ h0, (detail.is_balanced root h0).1 = decide (rh - lh ≤ 1)) ∧
      (height root < SIZE_MOD → rh - lh = height_diff root) := by
  obtain ⟨h1, h2⟩ := final_locals_le root lh rh hf
  have h3 := size_sub_of_le h1 h2
  refine ⟨h1, h3, fun h0 => ?_, fun hh => ?_⟩
  · rw [is_balanced_of_final root h0 lh rh hf, h3]
  · cases root with
    | null =>
      simp only [detail.is_balanced_final, Option.some.injEq, Prod.mk.injEq] at hf
      obtain ⟨rfl, rfl⟩ := hf
      rfl
    | own a v p l r =>
      obtain ⟨e1, e2⟩ := final_locals_heights hh hf
      rw [e1, e2]
      rfl

/-- C20, at the root of the seed tree of `main`, where `lh = 1` and
`rh = 2`. -/
theorem is_balanced_subtraction_no_wrap_witness :
    (1 : Nat) ≤ 2 ∧ size_sub 2 1 = 2 - 1 ∧
      (∀ h0, (detail.is_balanced (main_seed 1 2 3 4).root_ h0).1 = decide (2 - 1 ≤ 1)) ∧
      (height (main_seed 1 2 3 4).root_ < SIZE_MOD →
        2 - 1 = height_diff (main_seed 1 2 3 4).root_) :=
  is_balanced_subtraction_no_wrap (main_seed 1 2 3 4).root_ 1 2 (by decide)

end binary_tree


/-! ## Inserting an ascending sequence -/

section chain

variable {T : Type} {comp_ : T → T → Bool}

theorem comp_asymm (hc : strict_weak_order comp_) {a b : T} (h : comp_ a b = true) :
    comp_ b a = false := by
  cases hba : comp_ b a
  · rfl
  · have := hc.trans _ _ _ h hba
    rw [hc.irrefl] at this
    exact absurd this (by simp)

theorem insert_at_right_chain (hc : strict_weak_order comp_) (a : Nat) (v : T)
    (xs : List (Nat × T)) (p : Option Nat)
    (hv : ∀ y ∈ xs.map Prod.snd, comp_ y v = true) :
    binary_tree.insert_at comp_ a (right_chain p xs) v p =
      (true, right_chain p (xs ++ [(a, v)])) := by
  induction xs generalizing p with
  | nil => rfl
  | cons x xs ih =>
    obtain ⟨b, y⟩ := x
    have h1 : comp_ y v = true := hv y (by simp)
    have h2 : comp_ v y = false := comp_asymm hc h1
    have h3 := ih (some b) (fun z hz => hv z (by simp only [List.map_cons, List.mem_cons]; exact Or.inr hz))
    simp only [right_chain, binary_tree.insert_at, h1, h2, if_true, Bool.false_eq_true,
      if_false, h3, List.cons_append]
    rfl

theorem insert_seq_right_chain (hc : strict_weak_order comp_) (ys xs : List (Nat × T))
    (hs : ascending comp_ ((xs ++ ys).map Prod.snd)) :
    insert_seq comp_ ys ⟨right_chain none xs⟩ = ⟨right_chain none (xs ++ ys)⟩ := by
  induction ys generalizing xs with
  | nil => simp [insert_seq]
  | cons y ys ih =>
    obtain ⟨a, v⟩ := y
    have hv : ∀ z ∈ xs.map Prod.snd, comp_ z v = true := by
      intro z hz
      simp only [ascending, List.map_append, List.map_cons, List.pairwise_append,
        List.mem_cons] at hs
      exact hs.2.2 z hz v (Or.inl rfl)
    simp only [insert_seq, binary_tree.insert, insert_at_right_chain hc a v xs none hv]
    rw [ih (xs ++ [(a, v)]) (by simpa using hs)]
    simp

theorem height_right_chain (p : Option Nat) (xs : List (Nat × T)) :
    height (right_chain p xs) = xs.length := by
  induction xs generalizing p with
  | nil => rfl
  | cons x xs ih =>
    obtain ⟨a, v⟩ := x
    simp only [right_chain, height, ih, List.length_cons]
    omega

theorem inorder_depths_right_chain (p : Option Nat) (xs : List (Nat × T)) (d : Nat) :
    inorder_depths (right_chain p xs) d = List.enumFrom d (xs.map Prod.snd) := by
  induction xs generalizing p d with
  | nil => rfl
  | cons x xs ih =>
    obtain ⟨a, v⟩ := x
    simp [right_chain, inorder_depths, ih, List.enumFrom]

theorem balanced_right_chain (p : Option Nat) (xs : List (Nat × T)) :
    balanced (right_chain p xs) ↔ xs.length ≤ 2 := by
  induction xs generalizing p with
  | nil => simp [right_chain, balanced]
  | cons x xs ih =>
    obtain ⟨a, v⟩ := x
    simp only [right_chain, balanced, height, height_right_chain, ih, List.length_cons,
      true_and]
    omega

end chain

namespace binary_tree

variable {T : Type} {comp_ : T → T → Bool}

theorem right_chain_of_ascending (hc : strict_weak_order comp_)
    (xs : List (Nat × T)) (hs : ascending comp_ (xs.map Prod.snd))
    (hlen : xs.length < SIZE_MOD) :
    (insert_seq comp_ xs empty).root_ = right_chain none xs ∧
      items (insert_seq comp_ xs empty) = List.enumFrom 1 (xs.map Prod.snd) ∧
      height (insert_seq comp_ xs empty).root_ = xs.length ∧
      (∀ h0, is_balanced (insert_seq comp_ xs empty) h0 = false ↔ 3 ≤ xs.length) := by
  have he : insert_seq comp_ xs empty = ⟨right_chain none xs⟩ := by
    have := insert_seq_right_chain hc xs [] (by simpa using hs)
    simpa [right_chain, empty] using this
  have hh : height (right_chain none xs) < SIZE_MOD := by
    rw [height_right_chain]
    exact hlen
  refine ⟨by rw [he], ?_, by rw [he]; exact height_right_chain none xs, ?_⟩
  · rw [he, items_eq]
    simp only
    rw [visit_trace_eq_inorder_depths _ 1 1 (fun _ => ⟨rfl, by omega⟩),
      inorder_depths_right_chain]
  · intro h0
    rw [he]
    unfold is_balanced
    simp only
    rw [(is_balanced_spec _ h0 hh).1, decide_eq_false_iff_not, balanced_right_chain]
    omega

/-- C11: inserting a strictly ascending list of `n` values, `n` within
`size_t`, in that order into the empty tree gives the degenerate right
chain: `visit` reports the `i`-th value at depth `i`, the height is `n`, and
`is_balanced()` is false exactly when `n >= 3`; inserting 1, 2, 3, 4, 5
gives height 5 and `is_balanced()` false. -/
theorem ascending_inserts_give_right_chain (hc : strict_weak_order comp_)
    (xs : List (Nat × T))
    (hch : (xs.map Prod.snd).Chain' (fun a b => comp_ a b = true))
    (hlen : xs.length < SIZE_MOD) :
    (insert_seq comp_ xs empty).root_ = right_chain none xs ∧
      items (insert_seq comp_ xs empty) = List.enumFrom 1 (xs.map Prod.snd) ∧
      height (insert_seq comp_ xs empty).root_ = xs.length ∧
      (∀ h0, is_balanced (insert_seq comp_ xs empty) h0 = false ↔ 3 ≤ xs.length) ∧
      (∀ a1 a2 a3 a4 a5 h0,
        height (insert_seq less_long [(a1, 1), (a2, 2), (a3, 3), (a4, 4), (a5, 5)]
          empty).root_ = 5 ∧
        is_balanced (insert_seq less_long [(a1, 1), (a2, 2), (a3, 3), (a4, 4), (a5, 5)]
          empty) h0 = false) := by
  have hs : ascending comp_ (xs.map Prod.snd) := by
    haveI : IsTrans T (fun a b => comp_ a b = true) := ⟨hc.trans⟩
    exact List.chain'_iff_pairwise.mp hch
  obtain ⟨h1, h2, h3, h4⟩ := right_chain_of_ascending hc xs hs hlen
  refine ⟨h1, h2, h3, h4, ?_⟩
  intro a1 a2 a3 a4 a5 h0
  obtain ⟨-, -, g3, g4⟩ := right_chain_of_ascending less_long_strict_weak_order
    [(a1, 1), (a2, 2), (a3, 3), (a4, 4), (a5, 5)]
    (by show ascending less_long [1, 2, 3, 4, 5]; decide)
    (by have := SIZE_MOD_pos; simp only [List.length_cons, List.length_nil]; unfold SIZE_MOD; norm_num)
  exact ⟨g3, (g4 h0).mpr (by simp)⟩

/-- C11, at the values 1, 2, 3 inserted with addresses 1, 2, 3. -/
theorem ascending_inserts_give_right_chain_witness :
    (insert_seq less_long [(1, 1), (2, 2), (3, 3)] empty).root_ =
        right_chain none [(1, 1), (2, 2), (3, 3)] ∧
      items (insert_seq less_long [(1, 1), (2, 2), (3, 3)] empty) =
        [(1, 1), (2, 2), (3, 3)] ∧
      height (insert_seq less_long [(1, 1), (2, 2), (3, 3)] empty).root_ = 3 ∧
      (∀ h0, is_balanced (insert_seq less_long [(1, 1), (2, 2), (3, 3)] empty) h0 = false ↔
        3 ≤ 3) ∧
      (∀ a1 a2 a3 a4 a5 h0,
        height (insert_seq less_long [(a1, 1), (a2, 2), (a3, 3), (a4, 4), (a5, 5)]
          empty).root_ = 5 ∧
        is_balanced (insert_seq less_long [(a1, 1), (a2, 2), (a3, 3), (a4, 4), (a5, 5)]
          empty) h0 = false) :=
  ascending_inserts_give_right_chain less_long_strict_weak_order [(1, 1), (2, 2), (3, 3)]
    (by simp [less_long]) (by decide)

end binary_tree


/-! ## Removal is textbook deletion -/

namespace node_ptr

variable {T : Type}

theorem to_shape_set_p (q : Option Nat) (c : node_ptr T) : to_shape (set_p q c) = to_shape c := by
  cases c <;> rfl

theorem to_shape_adopt {a : Nat} {v : T} {p : Option Nat} {l r c : node_ptr T}
    (hc : c.to_bool = true) : to_shape (adopt c (own a v p l r)) = to_shape c := by
  cases c with
  | null => simp [to_bool] at hc
  | own b cv cp cl cr => simp [adopt, to_shape, to_shape_set_p]

theorem to_shape_del_leftmost {r : node_ptr T} {m : Nat} {mv : T} {mp : Option Nat}
    {ml mr : node_ptr T} (hn : (addrs r).Nodup) (h : leftmost r = own m mv mp ml mr) :
    shape.minimum (to_shape r) = some mv ∧
      to_shape (del_at r m) = shape.del_leftmost (to_shape r) := by
  induction r with
  | null => simp [leftmost] at h
  | own a v p l r2 ihl _ =>
    cases l with
    | null =>
      rw [leftmost_of_null, own.injEq] at h
      obtain ⟨rfl, rfl, -⟩ := h
      refine ⟨rfl, ?_⟩
      cases hr : r2.to_bool
      · rw [del_at_self_leaf (l := null) rfl hr]
        rw [to_bool_eq_false] at hr
        simp [to_shape, shape.del_leftmost, hr]
      · rw [del_at_self_right (l := null) rfl hr, to_shape_adopt hr]
        simp [to_shape, shape.del_leftmost]
    | own la lv lp ll lr =>
      rw [leftmost_of_ne_null (by simp)] at h
      rw [nodup_own] at hn
      have hm := (leftmost_mem h).1
      have h1 : a ≠ m := fun e => hn.2.2.1 (e ▸ hm)
      obtain ⟨e1, e2⟩ := ihl hn.1 h
      rw [del_at_left h1 hm]
      constructor
      · simpa [to_shape, shape.minimum] using e1
      · simp only [to_shape, shape.del_leftmost] at e2 ⊢
        rw [e2]

end node_ptr

namespace binary_tree

variable {T : Type} {comp_ : T → T → Bool}

theorem to_shape_del_at_find {root : node_ptr T} {v : T} {n : Nat}
    (hnd : (addrs root).Nodup) (h : find_at comp_ root v = some n) :
    to_shape (del_at root n) = shape.delete comp_ v (to_shape root) := by
  induction root with
  | null => simp [find_at] at h
  | own a x p l r ihl ihr =>
    obtain ⟨ndl, ndr, hal, har, hdis⟩ := nodup_own.mp hnd
    simp only [find_at] at h
    simp only [to_shape, shape.delete]
    split_ifs at h ⊢ with h1 h2
    · have hm := find_at_mem h
      have han : a ≠ n := fun e => hal (e ▸ hm)
      rw [del_at_left han hm]
      simp only [to_shape, ihl ndl h]
    · have hm := find_at_mem h
      have han : a ≠ n := fun e => har (e ▸ hm)
      have hnl : n ∉ addrs l := fun e => hdis n e hm
      rw [del_at_right han hnl]
      simp only [to_shape, ihr ndr h]
    · simp only [Option.some.injEq] at h
      subst h
      cases l with
      | null =>
        cases r with
        | null => simp [del_at, to_bool, to_shape, shape.del_here]
        | own rb rv rp rl rr =>
          rw [del_at_self_right (l := null) (r := own rb rv rp rl rr) rfl rfl,
            to_shape_adopt (c := own rb rv rp rl rr) rfl]
          simp [to_shape, shape.del_here]
      | own lb lv lp ll lr =>
        cases r with
        | null =>
          rw [del_at_self_left (l := own lb lv lp ll lr) (r := null) rfl rfl,
            to_shape_adopt (c := own lb lv lp ll lr) rfl]
          simp [to_shape, shape.del_here]
        | own rb rv rp rl rr =>
          cases hm : leftmost (own rb rv rp rl rr) with
          | null => exact absurd hm (leftmost_ne_null (by simp))
          | own m mv mp ml mr =>
            obtain ⟨e1, e2⟩ := to_shape_del_leftmost ndr hm
            rw [del_at_self_both (l := own lb lv lp ll lr) (r := own rb rv rp rl rr) rfl rfl hm]
            simp only [to_shape] at e1 e2 ⊢
            simp only [shape.del_here, e1, e2]

/-- C14: on a reachable tree, for a value `v` comparing equal to a stored
element, the tree after `remove(v)` has the shape and values textbook
deletion gives at the node comparing equal to `v`; removing 6 from the
tree built by inserting 6, 8, 4, 10 leaves root 8 with children 4 and 10. -/
theorem remove_is_textbook_deletion (hc : strict_weak_order comp_) {t : binary_tree T}
    (ht : reachable comp_ t) (v : T)
    (hv : ∃ x ∈ visit_values t, equiv comp_ x v = true) :
    (∃ t', remove comp_ t v = .ok (true, t') ∧
      to_shape t'.root_ = shape.delete comp_ v (to_shape t.root_)) ∧
      (∃ t', remove less_long (main_seed 1 2 3 4) 6 = .ok (true, t') ∧
        to_shape t'.root_ =
          shape.node (shape.node shape.leaf 4 shape.leaf) 8
            (shape.node shape.leaf 10 shape.leaf)) := by
  obtain ⟨hp, hnd⟩ := reachable_structure ht
  obtain ⟨n, hn⟩ := find_of_present hc ht hv
  refine ⟨⟨⟨del_at t.root_ n⟩, remove_of_find hp hnd hn, to_shape_del_at_find hnd hn⟩, ?_⟩
  exact ⟨⟨own 1 8 none (own 3 4 (some 1) null null) (own 2 10 (some 1) null null)⟩,
    by rfl, by rfl⟩

/-- C14, at the seed tree of `main` and the value 8, whose node has one
child. -/
theorem remove_is_textbook_deletion_witness :
    (∃ t', remove less_long (main_seed 1 2 3 4) 8 = .ok (true, t') ∧
      to_shape t'.root_ = shape.delete less_long 8 (to_shape (main_seed 1 2 3 4).root_)) ∧
      (∃ t', remove less_long (main_seed 1 2 3 4) 6 = .ok (true, t') ∧
        to_shape t'.root_ =
          shape.node (shape.node shape.leaf 4 shape.leaf) 8
            (shape.node shape.leaf 10 shape.leaf)) :=
  remove_is_textbook_deletion less_long_strict_weak_order main_seed_reachable 8
    ⟨8, by decide, by decide⟩

end binary_tree


/-! ## Which node a removal destroys, and what it does to the parent pointers -/

namespace node_ptr

variable {T : Type}

theorem links_effect_own_left {A A' B : List (Nat × Option Nat)} {e : Nat × Option Nat}
    {d : Nat} {pd : Option Nat} (h : links_effect A A' d pd)
    (hB : ∀ x q0, (x, q0) ∈ e :: B → x ≠ d ∧ q0 ≠ some d) :
    links_effect (A ++ e :: B) (A' ++ e :: B) d pd := by
  refine ⟨List.mem_append_left _ h.1, fun x q => ?_⟩
  rw [List.mem_append, h.2 x q]
  constructor
  · rintro (⟨q0, h1, h2, h3⟩ | hm)
    · exact ⟨q0, List.mem_append_left _ h1, h2, h3⟩
    · obtain ⟨h1, h2⟩ := hB x q hm
      exact ⟨q, List.mem_append_right _ hm, h1, by rw [if_neg h2]⟩
  · rintro ⟨q0, h1, h2, h3⟩
    rw [List.mem_append] at h1
    rcases h1 with h1 | h1
    · exact Or.inl ⟨q0, h1, h2, h3⟩
    · rw [if_neg (hB x q0 h1).2] at h3
      rw [h3]
      exact Or.inr h1

theorem links_effect_own_right {A B B' : List (Nat × Option Nat)} {e : Nat × Option Nat}
    {d : Nat} {pd : Option Nat} (h : links_effect B B' d pd)
    (hA : ∀ x q0, (x, q0) ∈ e :: A → x ≠ d ∧ q0 ≠ some d) :
    links_effect (A ++ e :: B) (A ++ e :: B') d pd := by
  have hA' : ∀ x q0, (x, q0) ∈ A ∨ (x, q0) = e → x ≠ d ∧ q0 ≠ some d := by
    intro x q0 hx
    apply hA
    rw [List.mem_cons]
    rcases hx with hx | hx
    · exact Or.inr hx
    · exact Or.inl hx
  refine ⟨List.mem_append_right _ (List.mem_cons_of_mem _ h.1), fun x q => ?_⟩
  simp only [List.mem_append, List.mem_cons]
  rw [h.2 x q]
  constructor
  · rintro (hm | hm | ⟨q0, h1, h2, h3⟩)
    · obtain ⟨h1, h2⟩ := hA' x q (Or.inl hm)
      exact ⟨q, Or.inl hm, h1, by rw [if_neg h2]⟩
    · obtain ⟨h1, h2⟩ := hA' x q (Or.inr hm)
      exact ⟨q, Or.inr (Or.inl hm), h1, by rw [if_neg h2]⟩
    · exact ⟨q0, Or.inr (Or.inr h1), h2, h3⟩
  · rintro ⟨q0, h1, h2, h3⟩
    rcases h1 with h1 | h1 | h1
    · rw [if_neg (hA' x q0 (Or.inl h1)).2] at h3
      rw [h3]
      exact Or.inl h1
    · rw [if_neg (hA' x q0 (Or.inr h1)).2] at h3
      rw [h3]
      exact Or.inr (Or.inl h1)
    · exact Or.inr (Or.inr ⟨q0, h1, h2, h3⟩)

theorem links_fst (root : node_ptr T) : (links root).map Prod.fst = addrs root := by
  induction root with
  | null => rfl
  | own a v p l r ihl ihr => simp [links, addrs, ihl, ihr]

theorem mem_addrs_of_mem_links {root : node_ptr T} {x : Nat} {q : Option Nat}
    (h : (x, q) ∈ links root) : x ∈ addrs root := by
  rw [← links_fst]
  exact List.mem_map.mpr ⟨(x, q), h, rfl⟩

theorem mem_links_of_mem_addrs {root : node_ptr T} {x : Nat} (h : x ∈ addrs root) :
    ∃ q, (x, q) ∈ links root := by
  rw [← links_fst] at h
  obtain ⟨⟨y, q⟩, h1, h2⟩ := List.mem_map.mp h
  simp only at h2
  subst h2
  exact ⟨q, h1⟩

theorem links_parent {root : node_ptr T} {par : Option Nat} (hp : parents_ok root par)
    {x : Nat} {q : Option Nat} (h : (x, q) ∈ links root) :
    q = par ∨ ∃ y ∈ addrs root, q = some y := by
  induction root generalizing par with
  | null => simp [links] at h
  | own a v p l r ihl ihr =>
    simp only [links, List.mem_append, List.mem_cons, Prod.mk.injEq] at h
    rcases h with h | h | h
    · rcases ihl hp.2.1 h with h1 | ⟨y, hy, h1⟩
      · exact Or.inr ⟨a, by simp [addrs], h1⟩
      · exact Or.inr ⟨y, by rw [mem_addrs_own]; exact Or.inl hy, h1⟩
    · left
      rw [h.2, hp.1]
    · rcases ihr hp.2.2 h with h1 | ⟨y, hy, h1⟩
      · exact Or.inr ⟨a, by simp [addrs], h1⟩
      · exact Or.inr ⟨y, by rw [mem_addrs_own]; exact Or.inr (Or.inr hy), h1⟩

theorem links_set_p_iff {c : node_ptr T} {a b : Nat} (hp : parents_ok c (some b))
    (hb : b ∉ addrs c) (x : Nat) (q : Option Nat) :
    (x, q) ∈ links (set_p (some a) c) ↔
      ∃ q0, (x, q0) ∈ links c ∧ q = if q0 = some b then some a else q0 := by
  cases c with
  | null => simp [set_p, links]
  | own c0 cv cp cl cr =>
    obtain ⟨hp1, hpl, hpr⟩ := hp
    subst hp1
    have hne : ∀ y q0, ((y, q0) ∈ links cl ∨ (y, q0) ∈ links cr) → q0 ≠ some b := by
      intro y q0 hy hq
      have hcases : q0 = some c0 ∨ ∃ z ∈ addrs (own c0 cv (some b) cl cr), q0 = some z := by
        rcases hy with hy | hy
        · rcases links_parent hpl hy with h | ⟨z, hz, h⟩
          · exact Or.inl h
          · exact Or.inr ⟨z, by rw [mem_addrs_own]; exact Or.inl hz, h⟩
        · rcases links_parent hpr hy with h | ⟨z, hz, h⟩
          · exact Or.inl h
          · exact Or.inr ⟨z, by rw [mem_addrs_own]; exact Or.inr (Or.inr hz), h⟩
      rcases hcases with h | ⟨z, hz, h⟩
      · rw [h, Option.some.injEq] at hq
        exact hb (by rw [mem_addrs_own]; exact Or.inr (Or.inl hq.symm))
      · rw [h, Option.some.injEq] at hq
        exact hb (hq ▸ hz)
    simp only [set_p, links, List.mem_append, List.mem_cons, Prod.mk.injEq]
    constructor
    · rintro (h | ⟨h1, h2⟩ | h)
      · exact ⟨q, Or.inl h, by rw [if_neg (hne x q (Or.inl h))]⟩
      · exact ⟨some b, Or.inr (Or.inl ⟨h1, rfl⟩), by rw [if_pos rfl, h2]⟩
      · exact ⟨q, Or.inr (Or.inr h), by rw [if_neg (hne x q (Or.inr h))]⟩
    · rintro ⟨q0, h | ⟨h1, h2⟩ | h, hq⟩
      · rw [if_neg (hne x q0 (Or.inl h))] at hq
        rw [hq]
        exact Or.inl h
      · rw [h2, if_pos rfl] at hq
        exact Or.inr (Or.inl ⟨h1, hq⟩)
      · rw [if_neg (hne x q0 (Or.inr h))] at hq
        rw [hq]
        exact Or.inr (Or.inr h)

theorem filter_eq_singleton {L : List Nat} {d : Nat} (hn : L.Nodup) (hd : d ∈ L)
    (p : Nat → Bool) (hp : ∀ x ∈ L, p x = true ↔ x = d) : L.filter p = [d] := by
  induction L with
  | nil => simp at hd
  | cons y L ih =>
    rw [List.nodup_cons] at hn
    by_cases hy : y = d
    · subst hy
      have h1 : p y = true := (hp y (by simp)).mpr rfl
      have h2 : L.filter p = [] := by
        rw [List.filter_eq_nil_iff]
        intro x hx hpx
        have := (hp x (List.mem_cons_of_mem _ hx)).mp hpx
        exact hn.1 (this ▸ hx)
      rw [List.filter_cons_of_pos h1, h2]
    · have h1 : ¬ p y = true := fun h => hy ((hp y (by simp)).mp h)
      rw [List.filter_cons_of_neg h1]
      apply ih hn.2
      · rcases List.mem_cons.mp hd with h | h
        · exact absurd h.symm hy
        · exact h
      · intro x hx
        exact hp x (List.mem_cons_of_mem _ hx)

end node_ptr


namespace node_ptr

variable {T : Type}

theorem links_adopt_iff {a b : Nat} {v cv : T} {p : Option Nat} {l r cl cr : node_ptr T}
    (hpl : parents_ok cl (some b)) (hpr : parents_ok cr (some b))
    (hbl : b ∉ addrs cl) (hbr : b ∉ addrs cr) (hab : a ≠ b) (hpb : p ≠ some b)
    (x : Nat) (q : Option Nat) :
    (x, q) ∈ links (adopt (own b cv (some a) cl cr) (own a v p l r)) ↔
      ∃ q0, (x, q0) ∈ (a, p) :: links (own b cv (some a) cl cr) ∧ x ≠ b ∧
        q = if q0 = some b then some a else q0 := by
  simp only [adopt, links, List.mem_append, List.mem_cons, Prod.mk.injEq,
    links_set_p_iff hpl hbl, links_set_p_iff hpr hbr]
  constructor
  · rintro (⟨q0, h, hq⟩ | ⟨h1, h2⟩ | ⟨q0, h, hq⟩)
    · exact ⟨q0, Or.inr (Or.inl h), fun e => hbl (e ▸ mem_addrs_of_mem_links h), hq⟩
    · exact ⟨p, Or.inl ⟨h1, rfl⟩, fun e => hab (h1 ▸ e), by rw [if_neg hpb, h2]⟩
    · exact ⟨q0, Or.inr (Or.inr (Or.inr h)),
        fun e => hbr (e ▸ mem_addrs_of_mem_links h), hq⟩
  · rintro ⟨q0, (⟨h1, h2⟩ | h | ⟨h1, -⟩ | h), hx, hq⟩
    · rw [h2, if_neg hpb] at hq
      exact Or.inr (Or.inl ⟨h1, hq⟩)
    · exact Or.inl ⟨q0, h, hq⟩
    · exact absurd h1 hx
    · exact Or.inr (Or.inr ⟨q0, h, hq⟩)

theorem site_of_mem {c : node_ptr T} {s : Nat} (h : site_of c = some s) : s ∈ addrs c := by
  cases c with
  | null => simp [site_of] at h
  | own a v p l r =>
    simp only [site_of] at h
    split_ifs at h with hb
    · cases hm : leftmost r with
      | null => rw [hm] at h; simp [node_ptr.get] at h
      | own m mv mp ml mr =>
        rw [hm] at h
        simp only [node_ptr.get, Option.some.injEq] at h
        rw [mem_addrs_own, ← h]
        exact Or.inr (Or.inr (leftmost_mem hm).1)
    · simp only [Option.some.injEq] at h
      rw [mem_addrs_own]
      exact Or.inr (Or.inl h.symm)

theorem del_at_links (root : node_ptr T) : ∀ (par : Option Nat) (n : Nat),
    parents_ok root par → (addrs root).Nodup → n ∈ addrs root →
    (∀ q, par = some q → q ∉ addrs root) →
    ∃ s d pd, site_of (deref root n) = some s ∧ s ∈ addrs root ∧
      has_both (deref root s) = false ∧ victim_of (deref root s) = some d ∧
      links_effect (links root) (links (del_at root n)) d pd := by
  induction root with
  | null => intro par n _ _ hn; simp [addrs] at hn
  | own a v p l r ihl ihr =>
    intro par n hp hnd hn hpar
    obtain ⟨hp1, hpl, hpr⟩ := hp
    obtain ⟨ndl, ndr, hal, har, hdis⟩ := nodup_own.mp hnd
    have hself : a ∈ addrs (own a v p l r) := by simp [addrs]
    have hpne : ∀ d, d ∈ addrs (own a v p l r) → p ≠ some d := by
      intro d hd e
      exact hpar d (by rw [← hp1, e]) hd
    have okl : ∀ d, d ∈ addrs r → ∀ x q0, (x, q0) ∈ (a, p) :: links l →
        x ≠ d ∧ q0 ≠ some d := by
      intro d hd x q0 hx
      have hdr : d ∈ addrs (own a v p l r) := by
        rw [mem_addrs_own]; exact Or.inr (Or.inr hd)
      rw [List.mem_cons, Prod.mk.injEq] at hx
      rcases hx with ⟨h1, h2⟩ | hx
      · exact ⟨fun e => har (by rw [← h1, e]; exact hd), by rw [h2]; exact hpne d hdr⟩
      · refine ⟨fun e => hdis x (mem_addrs_of_mem_links hx) (e ▸ hd), ?_⟩
        rcases links_parent hpl hx with h | ⟨y, hy, h⟩
        · rw [h, Ne, Option.some.injEq]
          exact fun e => har (e ▸ hd)
        · rw [h, Ne, Option.some.injEq]
          exact fun e => hdis y hy (e ▸ hd)
    have okr : ∀ d, d ∈ addrs l → ∀ x q0, (x, q0) ∈ (a, p) :: links r →
        x ≠ d ∧ q0 ≠ some d := by
      intro d hd x q0 hx
      have hdr : d ∈ addrs (own a v p l r) := by
        rw [mem_addrs_own]; exact Or.inl hd
      rw [List.mem_cons, Prod.mk.injEq] at hx
      rcases hx with ⟨h1, h2⟩ | hx
      · exact ⟨fun e => hal (by rw [← h1, e]; exact hd), by rw [h2]; exact hpne d hdr⟩
      · refine ⟨fun e => hdis d hd (e ▸ mem_addrs_of_mem_links hx), ?_⟩
        rcases links_parent hpr hx with h | ⟨y, hy, h⟩
        · rw [h, Ne, Option.some.injEq]
          exact fun e => hal (e ▸ hd)
        · rw [h, Ne, Option.some.injEq]
          exact fun e => hdis d hd (e ▸ hy)
    by_cases han : a = n
    · subst han
      rw [deref_own_self]
      cases l with
      | null =>
        cases r with
        | null =>
          refine ⟨a, a, p, by simp [site_of, to_bool], hself,
            by rw [deref_own_self]; simp [has_both, to_bool],
            by rw [deref_own_self]; simp [victim_of, to_bool], ?_⟩
          rw [del_at_self_leaf (l := null) (r := null) rfl rfl]
          refine ⟨by simp [links], fun x q => ?_⟩
          simp only [links, List.not_mem_nil, List.nil_append, List.mem_singleton,
            Prod.mk.injEq, false_iff]
          rintro ⟨q0, ⟨h1, -⟩, h2, -⟩
          exact h2 h1
        | own rb rv rp rl rr =>
          have hrp : rp = some a := hpr.1
          subst hrp
          obtain ⟨n1, n2, n3, n4, n5⟩ := nodup_own.mp ndr
          have hrb : rb ∈ addrs (own a v p null (own rb rv (some a) rl rr)) := by
            simp [addrs]
          have hab : a ≠ rb := fun e => har (by rw [e]; simp [addrs])
          refine ⟨a, rb, some a, by simp [site_of, to_bool], hself,
            by rw [deref_own_self]; simp [has_both, to_bool],
            by rw [deref_own_self]; simp [victim_of, to_bool, node_ptr.get], ?_⟩
          rw [del_at_self_right (l := null) (r := own rb rv (some a) rl rr) rfl rfl]
          refine ⟨by simp [links], fun x q => ?_⟩
          rw [links_adopt_iff hpr.2.1 hpr.2.2 n3 n4 hab (hpne rb hrb)]
          constructor
          · rintro ⟨q0, h, rest⟩
            exact ⟨q0, by simpa [links] using h, rest⟩
          · rintro ⟨q0, h, rest⟩
            exact ⟨q0, by simpa [links] using h, rest⟩
      | own lb lv lp ll lr =>
        have hlp : lp = some a := hpl.1
        subst hlp
        obtain ⟨n1, n2, n3, n4, n5⟩ := nodup_own.mp ndl
        have hab : a ≠ lb := fun e => hal (by rw [e]; simp [addrs])
        cases r with
        | null =>
          have hlb : lb ∈ addrs (own a v p (own lb lv (some a) ll lr) null) := by
            simp [addrs]
          refine ⟨a, lb, some a, by simp [site_of, to_bool], hself,
            by rw [deref_own_self]; simp [has_both, to_bool],
            by rw [deref_own_self]; simp [victim_of, to_bool, node_ptr.get], ?_⟩
          rw [del_at_self_left (l := own lb lv (some a) ll lr) (r := null) rfl rfl]
          refine ⟨by simp [links], fun x q => ?_⟩
          rw [links_adopt_iff hpl.2.1 hpl.2.2 n3 n4 hab (hpne lb hlb)]
          constructor
          · rintro ⟨q0, h, rest⟩
            refine ⟨q0, ?_, rest⟩
            simp only [links, List.mem_append, List.mem_cons, Prod.mk.injEq,
              List.not_mem_nil, or_false] at h ⊢
            tauto
          · rintro ⟨q0, h, rest⟩
            refine ⟨q0, ?_, rest⟩
            simp only [links, List.mem_append, List.mem_cons, Prod.mk.injEq,
              List.not_mem_nil, or_false] at h ⊢
            tauto
        | own rb rv rp rl rr =>
          cases hm : leftmost (own rb rv rp rl rr) with
          | null => exact absurd hm (leftmost_ne_null (by simp))
          | own m mv mp ml mr =>
            have hmr := (leftmost_mem hm).1
            have hml := (leftmost_mem hm).2
            have ham : a ≠ m := fun e => har (e ▸ hmr)
            have hmnl : m ∉ addrs (own lb lv (some a) ll lr) := fun e => hdis m e hmr
            have hdm := deref_leftmost ndr hm
            obtain ⟨s, d, pd, h1, h2, h3, h4, h5⟩ := ihr (some a) m hpr ndr hmr
              (fun q hq => by rw [Option.some.injEq] at hq; rw [← hq]; exact har)
            have hs : s = m := by
              rw [hdm, hml] at h1
              simpa [site_of, to_bool] using h1.symm
            subst hs
            have hd : d ∈ addrs (own rb rv rp rl rr) := mem_addrs_of_mem_links h5.1
            refine ⟨s, d, pd, by simp [site_of, to_bool, hm, node_ptr.get],
              by rw [mem_addrs_own]; exact Or.inr (Or.inr hmr), ?_, ?_, ?_⟩
            · rw [deref_own_right ham hmnl]
              exact h3
            · rw [deref_own_right ham hmnl]
              exact h4
            · rw [del_at_self_both (l := own lb lv (some a) ll lr)
                (r := own rb rv rp rl rr) rfl rfl hm]
              exact links_effect_own_right h5 (okl d hd)
    · by_cases hnl : n ∈ addrs l
      · obtain ⟨s, d, pd, h1, h2, h3, h4, h5⟩ := ihl (some a) n hpl ndl hnl
          (fun q hq => by rw [Option.some.injEq] at hq; rw [← hq]; exact hal)
        have has : a ≠ s := fun e => hal (e ▸ h2)
        have hd : d ∈ addrs l := mem_addrs_of_mem_links h5.1
        refine ⟨s, d, pd, by rw [deref_own_left han hnl]; exact h1,
          by rw [mem_addrs_own]; exact Or.inl h2, ?_, ?_, ?_⟩
        · rw [deref_own_left has h2]
          exact h3
        · rw [deref_own_left has h2]
          exact h4
        · rw [del_at_left han hnl]
          exact links_effect_own_left h5 (okr d hd)
      · have hnr : n ∈ addrs r := by
          rw [mem_addrs_own] at hn
          rcases hn with h | h | h
          · exact absurd h hnl
          · exact absurd h.symm han
          · exact h
        obtain ⟨s, d, pd, h1, h2, h3, h4, h5⟩ := ihr (some a) n hpr ndr hnr
          (fun q hq => by rw [Option.some.injEq] at hq; rw [← hq]; exact har)
        have has : a ≠ s := fun e => har (e ▸ h2)
        have hsl : s ∉ addrs l := fun e => hdis s e h2
        have hd : d ∈ addrs r := mem_addrs_of_mem_links h5.1
        refine ⟨s, d, pd, by rw [deref_own_right han hnl]; exact h1,
          by rw [mem_addrs_own]; exact Or.inr (Or.inr h2), ?_, ?_, ?_⟩
        · rw [deref_own_right has hsl]
          exact h3
        · rw [deref_own_right has hsl]
          exact h4
        · rw [del_at_right han hnl]
          exact links_effect_own_right h5 (okl d hd)

end node_ptr


namespace binary_tree

variable {T : Type} {comp_ : T → T → Bool}

theorem addrs_of_links_effect {root root' : node_ptr T} {d : Nat} {pd : Option Nat}
    (h : links_effect (links root) (links root') d pd) (x : Nat) :
    x ∈ addrs root' ↔ x ∈ addrs root ∧ x ≠ d := by
  constructor
  · intro hx
    obtain ⟨q, hq⟩ := mem_links_of_mem_addrs hx
    obtain ⟨q0, h1, h2, -⟩ := (h.2 x q).mp hq
    exact ⟨mem_addrs_of_mem_links h1, h2⟩
  · rintro ⟨hx, hne⟩
    obtain ⟨q0, hq0⟩ := mem_links_of_mem_addrs hx
    exact mem_addrs_of_mem_links ((h.2 x _).mpr ⟨q0, hq0, hne, rfl⟩)

theorem destroyed_of_links_effect {t t' : binary_tree T} {d : Nat} {pd : Option Nat}
    (hnd : (addrs t.root_).Nodup)
    (h : links_effect (links t.root_) (links t'.root_) d pd) : destroyed t t' = [d] := by
  unfold destroyed
  apply filter_eq_singleton hnd (mem_addrs_of_mem_links h.1)
  intro x hx
  rw [decide_eq_true_iff, addrs_of_links_effect h x]
  constructor
  · intro hn
    by_contra hne
    exact hn ⟨hx, hne⟩
  · rintro rfl hn
    exact hn.2 rfl

theorem remove_effect (hc : strict_weak_order comp_) {t : binary_tree T}
    (ht : reachable comp_ t) (v : T)
    (hv : ∃ x ∈ visit_values t, equiv comp_ x v = true) :
    ∃ t' n s d pd, find_at comp_ t.root_ v = some n ∧ remove comp_ t v = .ok (true, t') ∧
      site_of (deref t.root_ n) = some s ∧ has_both (deref t.root_ s) = false ∧
      victim_of (deref t.root_ s) = some d ∧ destroyed t t' = [d] ∧
      links_effect (links t.root_) (links t'.root_) d pd := by
  obtain ⟨hp, hnd⟩ := reachable_structure ht
  obtain ⟨n, hn⟩ := find_of_present hc ht hv
  obtain ⟨s, d, pd, h1, -, h3, h4, h5⟩ :=
    del_at_links t.root_ none n hp hnd (find_at_mem hn) (fun q hq => by simp at hq)
  exact ⟨⟨del_at t.root_ n⟩, n, s, d, pd, hn, remove_of_find hp hnd hn, h1, h3, h4,
    destroyed_of_links_effect hnd h5, h5⟩

/-- C15, as stated: in the tree built by inserting 5, 3, 2 at the addresses
1, 2, 3, `remove(5)` destroys the node 2 and the surviving node 3 has parent
pointer 2 before the call and parent pointer 1 after it. -/
theorem remove_changes_parent_of_adopted :
    reachable less_long (insert_seq less_long [(1, 5), (2, 3), (3, 2)] empty) ∧
      ∃ t', remove less_long (insert_seq less_long [(1, 5), (2, 3), (3, 2)] empty) 5 =
          .ok (true, t') ∧
        destroyed (insert_seq less_long [(1, 5), (2, 3), (3, 2)] empty) t' = [2] ∧
        (3, some 2) ∈ links (insert_seq less_long [(1, 5), (2, 3), (3, 2)] empty).root_ ∧
        (3, some 1) ∈ links t'.root_ ∧ (3, some 2) ∉ links t'.root_ := by
  constructor
  · show reachable less_long
      (insert less_long 3 (insert less_long 2 (insert less_long 1 empty 5).2 3).2 2).2
    apply reachable.insert
    · apply reachable.insert
      · apply reachable.insert
        · exact reachable.empty
        · decide
      · decide
    · decide
  · exact ⟨⟨own 1 3 none (own 3 2 (some 1) null null) null⟩, by rfl, by decide, by decide,
      by decide, by decide⟩

/-- C15, amended: on a reachable tree, for a value `v` comparing equal to a
stored element, `remove(v)` destroys exactly one node `d`; every other node
is still there, and its parent pointer is what it was, except that a parent
pointer to `d` has become the parent pointer `d` had: the children of `d`
are re-parented to the node that took over the value of `d`. -/
theorem remove_destroys_one_and_reparents (hc : strict_weak_order comp_) {t : binary_tree T}
    (ht : reachable comp_ t) (v : T)
    (hv : ∃ x ∈ visit_values t, equiv comp_ x v = true) :
    ∃ t' d pd, remove comp_ t v = .ok (true, t') ∧ destroyed t t' = [d] ∧
      (∀ x, x ∈ addrs t'.root_ ↔ x ∈ addrs t.root_ ∧ x ≠ d) ∧
      (d, pd) ∈ links t.root_ ∧
      ∀ x q, (x, q) ∈ links t'.root_ ↔
        ∃ q0, (x, q0) ∈ links t.root_ ∧ x ≠ d ∧ q = if q0 = some d then pd else q0 := by
  obtain ⟨t', n, s, d, pd, -, h2, -, -, -, h6, h7⟩ := remove_effect hc ht v hv
  exact ⟨t', d, pd, h2, h6, addrs_of_links_effect h7, h7.1, h7.2⟩

/-- C15 amended, at the tree built by inserting 5, 3, 2 and the value 5. -/
theorem remove_destroys_one_and_reparents_witness :
    ∃ t' d pd,
      remove less_long (insert_seq less_long [(1, 5), (2, 3), (3, 2)] empty) 5 =
        .ok (true, t') ∧
      destroyed (insert_seq less_long [(1, 5), (2, 3), (3, 2)] empty) t' = [d] ∧
      (∀ x, x ∈ addrs t'.root_ ↔
        x ∈ addrs (insert_seq less_long [(1, 5), (2, 3), (3, 2)] empty).root_ ∧ x ≠ d) ∧
      (d, pd) ∈ links (insert_seq less_long [(1, 5), (2, 3), (3, 2)] empty).root_ ∧
      ∀ x q, (x, q) ∈ links t'.root_ ↔
        ∃ q0, (x, q0) ∈ links (insert_seq less_long [(1, 5), (2, 3), (3, 2)] empty).root_ ∧
          x ≠ d ∧ q = if q0 = some d then pd else q0 :=
  remove_destroys_one_and_reparents less_long_strict_weak_order
    (reachable.insert 3 2 (reachable.insert 2 3
      (reachable.insert 1 5 reachable.empty (by decide)) (by decide)) (by decide))
    5 ⟨5, by decide, by decide⟩

/-- C16, as stated: in the tree built by inserting 10, 5, 3, 7 at the
addresses 1, 2, 3, 4, `remove(10)` destroys the node 2, which has two
children when `remove` is called. -/
theorem remove_destroys_node_with_two_children :
    reachable less_long (insert_seq less_long [(1, 10), (2, 5), (3, 3), (4, 7)] empty) ∧
      ∃ t', remove less_long (insert_seq less_long [(1, 10), (2, 5), (3, 3), (4, 7)] empty)
          10 = .ok (true, t') ∧
        destroyed (insert_seq less_long [(1, 10), (2, 5), (3, 3), (4, 7)] empty) t' = [2] ∧
        has_both (deref (insert_seq less_long [(1, 10), (2, 5), (3, 3), (4, 7)]
          empty).root_ 2) = true := by
  constructor
  · show reachable less_long
      (insert less_long 4 (insert less_long 3 (insert less_long 2
        (insert less_long 1 empty 10).2 5).2 3).2 7).2
    apply reachable.insert
    · apply reachable.insert
      · apply reachable.insert
        · apply reachable.insert
          · exact reachable.empty
          · decide
        · decide
      · decide
    · decide
  · exact ⟨⟨own 1 5 none (own 3 3 (some 1) null null) (own 4 7 (some 1) null null)⟩,
      by rfl, by decide, by decide⟩

/-- C16, amended: on a reachable tree, for a value `v` comparing equal to a
stored element held by the node `n`, the node `s` at which `remove(v)`
performs the structural removal (`n`, or with two children the leftmost node
of the right subtree of `n`) has at most one child when `remove` is called;
the one node destroyed is `s` when `s` has no child, and otherwise the only
child of `s`. -/
theorem remove_destroys_site_or_its_only_child (hc : strict_weak_order comp_)
    {t : binary_tree T} (ht : reachable comp_ t) (v : T)
    (hv : ∃ x ∈ visit_values t, equiv comp_ x v = true) :
    ∃ t' n s d, find_at comp_ t.root_ v = some n ∧ remove comp_ t v = .ok (true, t') ∧
      site_of (deref t.root_ n) = some s ∧ has_both (deref t.root_ s) = false ∧
      victim_of (deref t.root_ s) = some d ∧ destroyed t t' = [d] := by
  obtain ⟨t', n, s, d, pd, h1, h2, h3, h4, h5, h6, -⟩ := remove_effect hc ht v hv
  exact ⟨t', n, s, d, h1, h2, h3, h4, h5, h6⟩

/-- C16 amended, at the tree built by inserting 10, 5, 3, 7 and the value
10. -/
theorem remove_destroys_site_or_its_only_child_witness :
    ∃ t' n s d,
      find_at less_long (insert_seq less_long [(1, 10), (2, 5), (3, 3), (4, 7)]
        empty).root_ 10 = some n ∧
      remove less_long (insert_seq less_long [(1, 10), (2, 5), (3, 3), (4, 7)] empty) 10 =
        .ok (true, t') ∧
      site_of (deref (insert_seq less_long [(1, 10), (2, 5), (3, 3), (4, 7)]
        empty).root_ n) = some s ∧
      has_both (deref (insert_seq less_long [(1, 10), (2, 5), (3, 3), (4, 7)]
        empty).root_ s) = false ∧
      victim_of (deref (insert_seq less_long [(1, 10), (2, 5), (3, 3), (4, 7)]
        empty).root_ s) = some d ∧
      destroyed (insert_seq less_long [(1, 10), (2, 5), (3, 3), (4, 7)] empty) t' = [d] :=
  remove_destroys_site_or_its_only_child less_long_strict_weak_order
    (reachable.insert 4 7 (reachable.insert 3 3 (reachable.insert 2 5
      (reachable.insert 1 10 reachable.empty (by decide)) (by decide)) (by decide))
      (by decide))
    10 ⟨10, by decide, by decide⟩

end binary_tree


/-! ## The command loop -/

section loop

theorem command_loop_plus (t : binary_tree Int) (val : Int) (fresh : Nat)
    (rest : List command) :
    command_loop t (⟨'+', val, fresh⟩ :: rest) =
      "> " ++ "> " ++ show_bool (binary_tree.insert less_long fresh t val).1 ++ "\n" ++
        (if (binary_tree.insert less_long fresh t val).1 then
          display (binary_tree.insert less_long fresh t val).2 ++
            command_loop (binary_tree.insert less_long fresh t val).2 rest
        else command_loop (binary_tree.insert less_long fresh t val).2 rest) := by
  rw [command_loop]
  simp

theorem command_loop_minus (t t' : binary_tree Int) (b : Bool) (val : Int) (fresh : Nat)
    (rest : List command) (h : binary_tree.remove less_long t val = .ok (b, t')) :
    command_loop t (⟨'-', val, fresh⟩ :: rest) =
      "> " ++ "> " ++ show_bool b ++ "\n" ++
        (if b then display t' ++ command_loop t' rest else command_loop t' rest) := by
  rw [command_loop]
  simp [h]

theorem command_loop_query (t : binary_tree Int) (val : Int) (fresh : Nat)
    (rest : List command) :
    command_loop t (⟨'?', val, fresh⟩ :: rest) =
      "> " ++ "> " ++ show_bool (binary_tree.find less_long t val) ++ "\n" ++
        command_loop t rest := by
  rw [command_loop]
  simp

theorem command_loop_starts_with_prompt (t : binary_tree Int) (cmds : List command) :
    ∃ s, command_loop t cmds = "> " ++ s := by
  cases cmds with
  | nil => exact ⟨"", by rfl⟩
  | cons c rest =>
    rw [command_loop]
    split_ifs
    · simp only [String.append_assoc]
      exact ⟨_, rfl⟩
    · cases binary_tree.remove less_long t c.val with
      | error e => exact ⟨_, rfl⟩
      | ok r =>
        simp only [String.append_assoc]
        exact ⟨_, rfl⟩
    · simp only [String.append_assoc]
      exact ⟨_, rfl⟩
    · simp only [String.append_assoc]
      exact ⟨_, rfl⟩

end loop


section loop_claims

/-- C17, as stated: at the seed tree of `main`, after `+ 6` (6 is stored) and
after `- 7` (7 is not stored) the loop writes the result `false` and the
next prompt with no display of the tree between them. -/
theorem command_loop_no_redisplay_after_false :
    command_loop (main_seed 1 2 3 4) [⟨'+', 6, 5⟩] = "> > false\n> " ∧
      command_loop (main_seed 1 2 3 4) [⟨'-', 7, 5⟩] = "> > false\n> " ∧
      "> > false\n> " ≠ "> > false\n" ++ display (main_seed 1 2 3 4) ++ "> " := by
  refine ⟨by rfl, by rfl, by decide⟩

/-- C17, amended: serving a command with op `+` or `-` on a reachable tree,
the loop writes the boolean result; when the result is true it then displays
the tree again before the next prompt; when the result is false, and for op
`?`, it writes the result and the next prompt with no display. -/
theorem command_loop_redisplays_after_true {t : binary_tree Int}
    (ht : binary_tree.reachable less_long t) (val : Int) (fresh : Nat) (rest : List command) :
    (∃ s, command_loop t (⟨'+', val, fresh⟩ :: rest) =
        if (binary_tree.insert less_long fresh t val).1 then
          "> > true\n" ++ display (binary_tree.insert less_long fresh t val).2 ++ "> " ++ s
        else "> > false\n" ++ "> " ++ s) ∧
      (∃ b t' s, binary_tree.remove less_long t val = .ok (b, t') ∧
        command_loop t (⟨'-', val, fresh⟩ :: rest) =
          if b then "> > true\n" ++ display t' ++ "> " ++ s
          else "> > false\n" ++ "> " ++ s) ∧
      (∃ s, command_loop t (⟨'?', val, fresh⟩ :: rest) =
        "> > " ++ show_bool (binary_tree.find less_long t val) ++ "\n" ++ "> " ++ s) := by
  have e1 : "> " ++ "> " ++ show_bool true ++ "\n" = "> > true\n" := by decide
  have e2 : "> " ++ "> " ++ show_bool false ++ "\n" = "> > false\n" := by decide
  have e3 : "> " ++ "> " = "> > " := by decide
  refine ⟨?_, ?_, ?_⟩
  · obtain ⟨s, hs⟩ := command_loop_starts_with_prompt
      (binary_tree.insert less_long fresh t val).2 rest
    refine ⟨s, ?_⟩
    rw [command_loop_plus, hs]
    cases (binary_tree.insert less_long fresh t val).1
    · simp only [Bool.false_eq_true, if_false]
      rw [← e2]
      simp only [String.append_assoc]
    · simp only [if_true]
      rw [← e1]
      simp only [String.append_assoc]
  · obtain ⟨b, t', h, -⟩ := binary_tree.remove_ok_of_reachable ht val
    obtain ⟨s, hs⟩ := command_loop_starts_with_prompt t' rest
    refine ⟨b, t', s, h, ?_⟩
    rw [command_loop_minus t t' b val fresh rest h, hs]
    cases b
    · simp only [Bool.false_eq_true, if_false]
      rw [← e2]
      simp only [String.append_assoc]
    · simp only [if_true]
      rw [← e1]
      simp only [String.append_assoc]
  · obtain ⟨s, hs⟩ := command_loop_starts_with_prompt t rest
    refine ⟨s, ?_⟩
    rw [command_loop_query, hs, ← e3]
    simp only [String.append_assoc]

/-- C17 amended, at the seed tree of `main` with the rest of the input
`? 6`. -/
theorem command_loop_redisplays_after_true_witness :
    (∃ s, command_loop (main_seed 1 2 3 4) (⟨'+', 7, 5⟩ :: [⟨'?', 6, 0⟩]) =
        if (binary_tree.insert less_long 5 (main_seed 1 2 3 4) 7).1 then
          "> > true\n" ++ display (binary_tree.insert less_long 5 (main_seed 1 2 3 4) 7).2 ++
            "> " ++ s
        else "> > false\n" ++ "> " ++ s) ∧
      (∃ b t' s, binary_tree.remove less_long (main_seed 1 2 3 4) 7 = .ok (b, t') ∧
        command_loop (main_seed 1 2 3 4) (⟨'-', 7, 5⟩ :: [⟨'?', 6, 0⟩]) =
          if b then "> > true\n" ++ display t' ++ "> " ++ s
          else "> > false\n" ++ "> " ++ s) ∧
      (∃ s, command_loop (main_seed 1 2 3 4) (⟨'?', 7, 5⟩ :: [⟨'?', 6, 0⟩]) =
        "> > " ++ show_bool (binary_tree.find less_long (main_seed 1 2 3 4) 7) ++ "\n" ++
          "> " ++ s) :=
  command_loop_redisplays_after_true binary_tree.main_seed_reachable 7 5 [⟨'?', 6, 0⟩]

end loop_claims


/-! ## Where `insert` puts the new node, and what `remove` does at the node that adopts -/

namespace node_ptr

variable {T : Type}

theorem nodup_deref {root : node_ptr T} (n : Nat) (hnd : (addrs root).Nodup) :
    (addrs (deref root n)).Nodup := by
  induction root with
  | null => simp [deref, addrs]
  | own a v p l r ihl ihr =>
    obtain ⟨ndl, ndr, -, -, -⟩ := nodup_own.mp hnd
    simp only [deref]
    split_ifs
    · exact hnd
    · exact ihl ndl
    · exact ihr ndr

theorem deref_deref {root : node_ptr T} {s g : Nat} (hnd : (addrs root).Nodup)
    (hg : g ∈ addrs (deref root s)) : deref root g = deref (deref root s) g := by
  induction root with
  | null => simp [deref, addrs] at hg
  | own a v p l r ihl ihr =>
    obtain ⟨ndl, ndr, hal, har, hdis⟩ := nodup_own.mp hnd
    by_cases has : a = s
    · subst has
      rw [deref_own_self]
    · by_cases hsl : s ∈ addrs l
      · rw [deref_own_left has hsl] at hg ⊢
        have hgl : g ∈ addrs l := addrs_deref_subset g hg
        have hag : a ≠ g := fun e => hal (e ▸ hgl)
        rw [deref_own_left hag hgl]
        exact ihl ndl hg
      · rw [deref_own_right has hsl] at hg ⊢
        have hgr : g ∈ addrs r := addrs_deref_subset g hg
        have hag : a ≠ g := fun e => har (e ▸ hgr)
        have hgl : g ∉ addrs l := fun e => hdis g e hgr
        rw [deref_own_right hag hgl]
        exact ihr ndr hg

theorem site_of_deref_leftmost {r : node_ptr T} {m : Nat} {mv : T} {mp : Option Nat}
    {ml mr : node_ptr T} (hn : (addrs r).Nodup) (h : leftmost r = own m mv mp ml mr) :
    site_of (deref r m) = some m := by
  rw [deref_leftmost hn h, (leftmost_mem h).2]
  simp [site_of, to_bool]

theorem deref_del_at_site (root : node_ptr T) : ∀ (n s : Nat), (addrs root).Nodup →
    n ∈ addrs root → site_of (deref root n) = some s →
    ∀ (sv cv : T) (sp cp : Option Nat) (d : Nat) (cl cr : node_ptr T),
      (deref root s = own s sv sp (own d cv cp cl cr) null ∨
        deref root s = own s sv sp null (own d cv cp cl cr)) →
      deref (del_at root n) s = own s cv sp (set_p (some s) cl) (set_p (some s) cr) := by
  induction root with
  | null => intro n s _ hn; simp [addrs] at hn
  | own a v p l r ihl ihr =>
    intro n s hnd hn hs sv cv sp cp d cl cr hd
    obtain ⟨ndl, ndr, hal, har, hdis⟩ := nodup_own.mp hnd
    by_cases han : a = n
    · subst han
      rw [deref_own_self] at hs
      cases hbl : l.to_bool <;> cases hbr : r.to_bool
      · simp only [site_of, hbl, hbr, Bool.and_self, Bool.false_eq_true, if_false,
          Option.some.injEq] at hs
        subst hs
        rw [deref_own_self] at hd
        rw [to_bool_eq_false] at hbl hbr
        subst hbl hbr
        rcases hd with hd | hd <;> simp at hd
      · simp only [site_of, hbl, hbr, Bool.false_and, Bool.false_eq_true, if_false,
          Option.some.injEq] at hs
        subst hs
        rw [deref_own_self] at hd
        rw [to_bool_eq_false] at hbl
        subst hbl
        rcases hd with hd | hd
        · simp at hd
        · simp only [own.injEq, true_and] at hd
          obtain ⟨rfl, rfl, -, rfl⟩ := hd
          rw [del_at_self_right (l := null) (r := own d cv cp cl cr) rfl rfl]
          simp [adopt, deref]
      · simp only [site_of, hbl, hbr, Bool.and_false, Bool.false_eq_true, if_false,
          Option.some.injEq] at hs
        subst hs
        rw [deref_own_self] at hd
        rw [to_bool_eq_false] at hbr
        subst hbr
        rcases hd with hd | hd
        · simp only [own.injEq, true_and] at hd
          obtain ⟨rfl, rfl, rfl, -⟩ := hd
          rw [del_at_self_left (l := own d cv cp cl cr) (r := null) rfl rfl]
          simp [adopt, deref]
        · simp only [own.injEq, true_and] at hd
          obtain ⟨-, -, h3, -⟩ := hd
          rw [h3] at hbl
          simp [to_bool] at hbl
      · cases hm : leftmost r with
        | null =>
          exact absurd hm (leftmost_ne_null (fun e => by rw [e] at hbr; simp [to_bool] at hbr))
        | own m mv mp ml mr =>
          simp only [site_of, hbl, hbr, Bool.and_self, if_true, hm, node_ptr.get,
            Option.some.injEq] at hs
          subst hs
          have hmr := (leftmost_mem hm).1
          have ham : a ≠ m := fun e => har (e ▸ hmr)
          have hmnl : m ∉ addrs l := fun e => hdis m e hmr
          rw [deref_own_right ham hmnl] at hd
          have ih := ihr m m ndr hmr (site_of_deref_leftmost ndr hm) sv cv sp cp d cl cr hd
          rw [del_at_self_both hbl hbr hm, deref_own_right ham hmnl]
          exact ih
    · by_cases hnl : n ∈ addrs l
      · rw [deref_own_left han hnl] at hs
        have hsl : s ∈ addrs l := addrs_deref_subset s (site_of_mem hs)
        have has : a ≠ s := fun e => hal (e ▸ hsl)
        rw [deref_own_left has hsl] at hd
        have ih := ihl n s ndl hnl hs sv cv sp cp d cl cr hd
        have hsd : s ∈ addrs (del_at l n) := mem_of_deref_ne_null (by rw [ih]; simp)
        rw [del_at_left han hnl, deref_own_left has hsd]
        exact ih
      · have hnr : n ∈ addrs r := by
          rw [mem_addrs_own] at hn
          rcases hn with h | h | h
          · exact absurd h hnl
          · exact absurd h.symm han
          · exact h
        rw [deref_own_right han hnl] at hs
        have hsr : s ∈ addrs r := addrs_deref_subset s (site_of_mem hs)
        have has : a ≠ s := fun e => har (e ▸ hsr)
        have hsl : s ∉ addrs l := fun e => hdis s e hsr
        rw [deref_own_right has hsl] at hd
        have ih := ihr n s ndr hnr hs sv cv sp cp d cl cr hd
        rw [del_at_right han hnl, deref_own_right has hsl]
        exact ih

theorem site_of_deref_some {root : node_ptr T} {n : Nat} (hn : n ∈ addrs root) :
    ∃ s, site_of (deref root n) = some s := by
  cases hd : deref root n with
  | null => exact absurd hd (deref_ne_null_of_mem hn)
  | own b bv bp bl br =>
    simp only [site_of]
    split_ifs with hb
    · cases hm : leftmost br with
      | null =>
        simp only [Bool.and_eq_true] at hb
        exact absurd hm (leftmost_ne_null (fun e => by
          have := hb.2
          rw [e] at this
          simp [to_bool] at this))
      | own m mv mp ml mr => exact ⟨m, rfl⟩
    · exact ⟨b, rfl⟩

end node_ptr

namespace binary_tree

variable {T : Type} {comp_ : T → T → Bool}

theorem insert_at_addrs_mono (fresh : Nat) (np : node_ptr T) (v : T) (p : Option Nat) :
    ∀ x ∈ addrs np, x ∈ addrs (insert_at comp_ fresh np v p).2 := by
  induction np generalizing p with
  | null => simp [addrs]
  | own a y q l r ihl ihr =>
    intro x hx
    simp only [insert_at]
    rw [mem_addrs_own] at hx
    split_ifs
    · rw [mem_addrs_own]
      rcases hx with h | h | h
      · exact Or.inl (ihl _ x h)
      · exact Or.inr (Or.inl h)
      · exact Or.inr (Or.inr h)
    · rw [mem_addrs_own]
      rcases hx with h | h | h
      · exact Or.inl h
      · exact Or.inr (Or.inl h)
      · exact Or.inr (Or.inr (ihr _ x h))
    · rw [mem_addrs_own]
      exact hx

theorem insert_at_new_node (fresh : Nat) (np : node_ptr T) (v : T) (p : Option Nat)
    (hnd : (addrs np).Nodup) (h : (insert_at comp_ fresh np v p).1 = true) :
    (np = null ∧ (insert_at comp_ fresh np v p).2 = own fresh v p null null) ∨
      ∃ b bv bp bl br, deref np b = own b bv bp bl br ∧
        ((comp_ v bv = true ∧ bl = null ∧
            deref (insert_at comp_ fresh np v p).2 b =
              own b bv bp (own fresh v (some b) null null) br) ∨
          (comp_ v bv = false ∧ comp_ bv v = true ∧ br = null ∧
            deref (insert_at comp_ fresh np v p).2 b =
              own b bv bp bl (own fresh v (some b) null null))) := by
  induction np generalizing p with
  | null => exact Or.inl ⟨rfl, rfl⟩
  | own a x q l r ihl ihr =>
    obtain ⟨ndl, ndr, hal, har, hdis⟩ := nodup_own.mp hnd
    right
    simp only [insert_at] at h ⊢
    split_ifs at h ⊢ with h1 h2
    · rcases ihl (some a) ndl h with ⟨hl, hl'⟩ | ⟨b, bv, bp, bl, br, hd, hcase⟩
      · subst hl
        refine ⟨a, x, q, null, r, deref_own_self, Or.inl ⟨h1, rfl, ?_⟩⟩
        rw [deref_own_self, hl']
      · have hbl : b ∈ addrs l := mem_of_deref_ne_null (by rw [hd]; simp)
        have hab : a ≠ b := fun e => hal (e ▸ hbl)
        have hbl' := @insert_at_addrs_mono T comp_ fresh l v (some a) b hbl
        refine ⟨b, bv, bp, bl, br, by rw [deref_own_left hab hbl]; exact hd, ?_⟩
        rcases hcase with ⟨c1, c2, c3⟩ | ⟨c1, c2, c3, c4⟩
        · exact Or.inl ⟨c1, c2, by rw [deref_own_left hab hbl']; exact c3⟩
        · exact Or.inr ⟨c1, c2, c3, by rw [deref_own_left hab hbl']; exact c4⟩
    · have h1' : comp_ v x = false := by simpa using h1
      rcases ihr (some a) ndr h with ⟨hr, hr'⟩ | ⟨b, bv, bp, bl, br, hd, hcase⟩
      · subst hr
        refine ⟨a, x, q, l, null, deref_own_self, Or.inr ⟨h1', h2, rfl, ?_⟩⟩
        rw [deref_own_self, hr']
      · have hbr : b ∈ addrs r := mem_of_deref_ne_null (by rw [hd]; simp)
        have hab : a ≠ b := fun e => har (e ▸ hbr)
        have hbl : b ∉ addrs l := fun e => hdis b e hbr
        refine ⟨b, bv, bp, bl, br, by rw [deref_own_right hab hbl]; exact hd, ?_⟩
        rcases hcase with ⟨c1, c2, c3⟩ | ⟨c1, c2, c3, c4⟩
        · exact Or.inl ⟨c1, c2, by rw [deref_own_right hab hbl]; exact c3⟩
        · exact Or.inr ⟨c1, c2, c3, by rw [deref_own_right hab hbl]; exact c4⟩

end binary_tree


namespace binary_tree

variable {T : Type} {comp_ : T → T → Bool}

/-- C4: after every finite sequence of `insert` and `remove` calls on an
initially empty tree, parent consistency holds: every node held in a child
slot of a node `n` has parent pointer `n`, and the root has no parent.
An `insert` that returns true leaves the tree parent-consistent and puts
the new node either in the root slot of the empty tree with no parent, or in
the empty child slot of the node `b` the descent ended at, with parent
pointer `b`.  A `remove` of a stored value leaves the tree parent-consistent,
and when the node `s` at which it removes has one child, `s` takes the value
of that child and holds its two subtrees, whose top nodes are the nodes they
were with parent pointer `s`. -/
theorem reachable_parent_consistency {t : binary_tree T} (ht : reachable comp_ t) :
    parents_ok t.root_ none ∧
      (∀ (fresh : Nat) (v : T), (insert comp_ fresh t v).1 = true →
        parents_ok (insert comp_ fresh t v).2.root_ none ∧
          ((t.root_ = null ∧
              (insert comp_ fresh t v).2.root_ = own fresh v none null null) ∨
            ∃ b bv bp bl br, deref t.root_ b = own b bv bp bl br ∧
              ((comp_ v bv = true ∧ bl = null ∧
                  deref (insert comp_ fresh t v).2.root_ b =
                    own b bv bp (own fresh v (some b) null null) br) ∨
                (comp_ v bv = false ∧ comp_ bv v = true ∧ br = null ∧
                  deref (insert comp_ fresh t v).2.root_ b =
                    own b bv bp bl (own fresh v (some b) null null))))) ∧
      (∀ (v : T) (n : Nat), find_at comp_ t.root_ v = some n →
        ∃ t' s, remove comp_ t v = .ok (true, t') ∧ parents_ok t'.root_ none ∧
          site_of (deref t.root_ n) = some s ∧
          ∀ (sv cv : T) (sp cp : Option Nat) (d : Nat) (cl cr : node_ptr T),
            (deref t.root_ s = own s sv sp (own d cv cp cl cr) null ∨
              deref t.root_ s = own s sv sp null (own d cv cp cl cr)) →
            deref t'.root_ s = own s cv sp (set_p (some s) cl) (set_p (some s) cr) ∧
              ∀ (g : Nat) (gv : T) (gp : Option Nat) (gl gr : node_ptr T),
                (cl = own g gv gp gl gr ∨ cr = own g gv gp gl gr) →
                deref t'.root_ g = own g gv (some s) gl gr) := by
  obtain ⟨hp, hnd⟩ := reachable_structure ht
  refine ⟨hp, ?_, ?_⟩
  · intro fresh v h
    exact ⟨insert_at_parents_ok _ _ _ _ hp, insert_at_new_node fresh t.root_ v none hnd h⟩
  · intro v n hn
    have hm := find_at_mem hn
    obtain ⟨s, hs⟩ := site_of_deref_some hm
    refine ⟨⟨del_at t.root_ n⟩, s, remove_of_find hp hnd hn, del_at_parents_ok _ _ _ hp, hs, ?_⟩
    intro sv cv sp cp d cl cr hd
    have hds := deref_del_at_site t.root_ n s hnd hm hs sv cv sp cp d cl cr hd
    refine ⟨hds, ?_⟩
    have hnd' : (addrs (del_at t.root_ n)).Nodup := del_at_nodup _ _ hnd
    have hC := nodup_deref s hnd'
    rw [hds] at hC
    obtain ⟨-, -, c3, c4, c5⟩ := nodup_own.mp hC
    intro g gv gp gl gr hg
    show deref (del_at t.root_ n) g = own g gv (some s) gl gr
    rcases hg with hg | hg
    · subst hg
      have hgl : g ∈ addrs (set_p (some s) (own g gv gp gl gr)) := by simp [set_p, addrs]
      have hsg : s ≠ g := fun e => c3 (e ▸ hgl)
      rw [deref_deref (s := s) hnd' (by rw [hds, mem_addrs_own]; exact Or.inl hgl), hds,
        deref_own_left hsg hgl]
      simp [set_p, deref]
    · subst hg
      have hgr : g ∈ addrs (set_p (some s) (own g gv gp gl gr)) := by simp [set_p, addrs]
      have hsg : s ≠ g := fun e => c4 (e ▸ hgr)
      have hgl : g ∉ addrs (set_p (some s) cl) := fun e => c5 g e hgr
      rw [deref_deref (s := s) hnd' (by rw [hds, mem_addrs_own]; exact Or.inr (Or.inr hgr)),
        hds, deref_own_right hsg hgl]
      simp [set_p, deref]

/-- C4, at the tree left by inserting 5, 3, 2, 9 at the addresses 1, 2, 3, 4
and removing 9: inserting 1 at the address 4, and removing 5, whose node
has the one child 3 with the child 2. -/
theorem reachable_parent_consistency_witness :
    parents_ok (insert_seq less_long [(1, 5), (2, 3), (3, 2)] empty).root_ none ∧
      (parents_ok
          (insert less_long 4 (insert_seq less_long [(1, 5), (2, 3), (3, 2)] empty) 1).2.root_
          none ∧
        (((insert_seq less_long [(1, 5), (2, 3), (3, 2)] empty).root_ = null ∧
            (insert less_long 4 (insert_seq less_long [(1, 5), (2, 3), (3, 2)] empty)
              1).2.root_ = own 4 1 none null null) ∨
          ∃ b bv bp bl br,
            deref (insert_seq less_long [(1, 5), (2, 3), (3, 2)] empty).root_ b =
              own b bv bp bl br ∧
            ((less_long 1 bv = true ∧ bl = null ∧
                deref (insert less_long 4 (insert_seq less_long [(1, 5), (2, 3), (3, 2)]
                  empty) 1).2.root_ b = own b bv bp (own 4 1 (some b) null null) br) ∨
              (less_long 1 bv = false ∧ less_long bv 1 = true ∧ br = null ∧
                deref (insert less_long 4 (insert_seq less_long [(1, 5), (2, 3), (3, 2)]
                  empty) 1).2.root_ b = own b bv bp bl (own 4 1 (some b) null null))))) ∧
      (∃ t' s,
        remove less_long (insert_seq less_long [(1, 5), (2, 3), (3, 2)] empty) 5 =
          .ok (true, t') ∧
        parents_ok t'.root_ none ∧
        site_of (deref (insert_seq less_long [(1, 5), (2, 3), (3, 2)] empty).root_ 1) =
          some s ∧
        ∀ (sv cv : Int) (sp cp : Option Nat) (d : Nat) (cl cr : node_ptr Int),
          (deref (insert_seq less_long [(1, 5), (2, 3), (3, 2)] empty).root_ s =
              own s sv sp (own d cv cp cl cr) null ∨
            deref (insert_seq less_long [(1, 5), (2, 3), (3, 2)] empty).root_ s =
              own s sv sp null (own d cv cp cl cr)) →
          deref t'.root_ s = own s cv sp (set_p (some s) cl) (set_p (some s) cr) ∧
            ∀ (g : Nat) (gv : Int) (gp : Option Nat) (gl gr : node_ptr Int),
              (cl = own g gv gp gl gr ∨ cr = own g gv gp gl gr) →
              deref t'.root_ g = own g gv (some s) gl gr) ∧
      (∃ t', remove less_long (insert_seq less_long [(1, 5), (2, 3), (3, 2)] empty) 5 =
          .ok (true, t') ∧
        deref t'.root_ 1 = own 1 3 none (own 3 2 (some 1) null null) null ∧
        deref t'.root_ 3 = own 3 2 (some 1) null null) := by
  have hr : reachable less_long (insert_seq less_long [(1, 5), (2, 3), (3, 2)] empty) :=
    reachable.remove 9 true
      (reachable.insert 4 9 (reachable.insert 3 2 (reachable.insert 2 3
        (reachable.insert 1 5 reachable.empty (by decide)) (by decide)) (by decide))
        (by decide))
      (by rfl)
  refine ⟨(reachable_parent_consistency hr).1,
    (reachable_parent_consistency hr).2.1 4 1 (by decide),
    (reachable_parent_consistency hr).2.2 5 1 (by decide), ?_⟩
  obtain ⟨t', s, h1, -, h3, h4⟩ := (reachable_parent_consistency hr).2.2 5 1 (by decide)
  have hs : site_of (deref (insert_seq less_long [(1, 5), (2, 3), (3, 2)] empty).root_ 1) =
      some 1 := by decide
  rw [hs, Option.some.injEq] at h3
  subst h3
  obtain ⟨k1, k2⟩ := h4 5 3 none (some 1) 2 (own 3 2 (some 2) null null) null
    (Or.inl (by decide))
  exact ⟨t', h1, k1, k2 3 2 (some 2) null null (Or.inl rfl)⟩

end binary_tree

end bst
